import Mathlib

/-!
MathGeoLib `float2`: convex hull, hull containment and minimum-area rectangle; the
product `M*v` of `float4x4_sse.h`.

A shallow embedding of `src/Math/float2.cpp`.  Coordinates are exact rationals
(`ℚ`), so every statement below is about the algorithm under exact arithmetic.
A point buffer `float2 *p` is a `List float2`; `p[i]` is `p.getD i default`, a
store `p[i] = v` is `p.set i v`, and a function that works in place returns the
new buffer together with its result.  A counted `for` loop is a fold of its body
over `List.range'`.

The library routine `std::sort` is an argument `sort` of the hull builder; `stdSort`
is the stable insertion sort used where a concrete run is needed.  The default
tolerances of `Equals` and `IsZero`, declared in `float2.h`, are arguments
(`eqEps`, `zeroEpsSq`); the library values are `1e-3` and `1e-6`.
-/

/-- The 2D vector of `float2.h`: two scalar coordinates. -/
structure float2 where
  x : ℚ
  y : ℚ
deriving DecidableEq, Repr

namespace float2

instance : Inhabited float2 := ⟨⟨0, 0⟩⟩

/-- `float2::operator -(const float2 &rhs)`. -/
def sub (a rhs : float2) : float2 := ⟨a.x - rhs.x, a.y - rhs.y⟩

instance : Sub float2 := ⟨sub⟩

/-- `float2::LengthSq`. -/
def LengthSq (a : float2) : ℚ := a.x * a.x + a.y * a.y

/-- `float2::Dot`. -/
def Dot (a rhs : float2) : ℚ := a.x * rhs.x + a.y * rhs.y

/-- `float2::PerpDot`. -/
def PerpDot (a rhs : float2) : ℚ := a.x * rhs.y - a.y * rhs.x

/-- `float2::Rotated90CCW`. -/
def Rotated90CCW (a : float2) : float2 := ⟨-a.y, a.x⟩

/-- `float2::IsZero(epsilonSq)`; the default value of `epsilonSq` is declared in
`float2.h`, so it is an argument here. -/
def IsZero (a : float2) (epsilonSq : ℚ) : Bool := decide (a.LengthSq ≤ epsilonSq)

/-- Modelled from the spec: `EqualAbs` of `MathFunc.h` (equality with tolerance),
the absolute difference of two scalars is below `epsilon`. -/
def EqualAbs (a b epsilon : ℚ) : Bool := decide (|a - b| < epsilon)

/-- `float2::Equals(const float2 &rhs, float epsilon)`; the default value of
`epsilon` is declared in `float2.h`, so it is an argument here. -/
def Equals (a rhs : float2) (epsilon : ℚ) : Bool :=
  EqualAbs a.x rhs.x epsilon && EqualAbs a.y rhs.y epsilon

/-- `Swap(p[i], p[j])` on a buffer. -/
def Swap (p : List float2) (i j : Nat) : List float2 :=
  (p.set i (p.getD j default)).set j (p.getD i default)

/-- `SortByPolarAngle::operator()` with the captured pivot `perspective`. -/
def SortByPolarAngle (perspective a b : float2) : Bool :=
  let A := a - perspective
  let B := b - perspective
  decide (B.x * A.y < A.x * B.y)

/-- Insertion of one element in front of the first element that is not before it. -/
def stdSortInsert (pred : float2 → float2 → Bool) (v : float2) : List float2 → List float2
  | [] => [v]
  | e :: rest => if pred e v then e :: stdSortInsert pred v rest else v :: e :: rest

/-- The library routine `std::sort(first, last, pred)`, modelled as the stable
insertion sort on the range. -/
def stdSort (pred : float2 → float2 → Bool) : List float2 → List float2
  | [] => []
  | v :: rest => stdSortInsert pred v (stdSort pred rest)

/-- The call `std::sort(&p[1], &p[n], pred)`: only the range `[1, n)` is rearranged. -/
def sortRange (sort : (float2 → float2 → Bool) → List float2 → List float2)
    (pred : float2 → float2 → Bool) (p : List float2) (n : Nat) : List float2 :=
  p.take 1 ++ sort pred ((p.drop 1).take (n - 1)) ++ p.drop n

/-- The four indices `minX, minY, maxX, maxY` of the Akl-Toussaint step. -/
structure Extremes where
  minX : Nat
  minY : Nat
  maxX : Nat
  maxY : Nat
deriving DecidableEq, Repr

/-- One iteration of the loop that locates the four extreme points. -/
def extremeStep (p : List float2) (e : Extremes) (i : Nat) : Extremes :=
  let pi := p.getD i default
  let e1 : Extremes :=
    if pi.x < (p.getD e.minX default).x then { e with minX := i }
    else if pi.x > (p.getD e.maxX default).x then { e with maxX := i }
    else e
  if pi.y < (p.getD e1.minY default).y then { e1 with minY := i }
  else if pi.y > (p.getD e1.maxY default).y then { e1 with maxY := i }
  else e1

/-- The loop `for(int i = 1; i < n; ++i)` that locates the four extreme points. -/
def findExtremes (p : List float2) (n : Nat) : Extremes :=
  (List.range' 1 (n - 1)).foldl (extremeStep p) ⟨0, 0, 0, 0⟩

/-- The inward normals `e0..e3` and the offsets `e0_d..e3_d` of the pruning step. -/
structure PruneFrame where
  e0 : float2
  e1 : float2
  e2 : float2
  e3 : float2
  e0_d : ℚ
  e1_d : ℚ
  e2_d : ℚ
  e3_d : ℚ
deriving DecidableEq, Repr

/-- The pruning epsilon `const float eps = 1e-6f`. -/
def pruneEps : ℚ := 1 / 1000000

/-- The normals and offsets computed from the four extreme points. -/
def pruneFrame (p : List float2) (e : Extremes) : PruneFrame :=
  let pMinX := p.getD e.minX default
  let pMinY := p.getD e.minY default
  let pMaxX := p.getD e.maxX default
  let pMaxY := p.getD e.maxY default
  let e0 := (pMaxX - pMinY).Rotated90CCW
  let e1 := (pMaxY - pMaxX).Rotated90CCW
  let e2 := (pMinX - pMaxY).Rotated90CCW
  let e3 := (pMinY - pMinX).Rotated90CCW
  { e0 := e0, e1 := e1, e2 := e2, e3 := e3,
    e0_d := e0.Dot pMinY + pruneEps,
    e1_d := e1.Dot pMaxX + pruneEps,
    e2_d := e2.Dot pMaxY + pruneEps,
    e3_d := e3.Dot pMinX + pruneEps }

/-- The test of the pruning loop: the point is beyond all four offsets. -/
def pruneTest (f : PruneFrame) (q : float2) : Bool :=
  decide (f.e0.Dot q > f.e0_d) && decide (f.e1.Dot q > f.e1_d) &&
  decide (f.e2.Dot q > f.e2_d) && decide (f.e3.Dot q > f.e3_d)

/-- The loop `for(int i = 0; i < n; ++i) if (...) Swap(p[i--], p[--n]);`.  The first
argument is `n - i`, which every iteration lowers by one: a pruned point is swapped
with the last live one and `n` shrinks, otherwise `i` advances.  Returns the buffer
and the new `n`. -/
def pruneLoop (f : PruneFrame) : Nat → List float2 → Nat → List float2 × Nat
  | 0, p, i => (p, i)
  | k + 1, p, i =>
    if pruneTest f (p.getD i default) then pruneLoop f k (Swap p i (i + k)) i
    else pruneLoop f k p (i + 1)

/-- The block `if (n >= 50) { ... }`: the Akl-Toussaint heuristic. -/
def aklToussaint (p : List float2) (n : Nat) : List float2 × Nat :=
  let f := pruneFrame p (findExtremes p n)
  pruneLoop f n p 0

/-- One iteration of the search for the lowest point; the state is
`(pred.perspective, smallestY)`. -/
def lowestStep (p : List float2) (s : float2 × Nat) (i : Nat) : float2 × Nat :=
  let pi := p.getD i default
  if pi.y < s.1.y ∨ (pi.y = s.1.y ∧ pi.x < s.1.x) then (pi, i) else s

/-- The loop that finds the lowest point of the set (ties: the smallest x). -/
def findLowest (p : List float2) (n : Nat) : float2 × Nat :=
  (List.range' 1 (n - 1)).foldl (lowestStep p) (p.getD 0 default, 0)

/-- One iteration of the first compaction, `if (!p[i].Equals(p[0])) p[++d] = p[i];`;
the state is `(p, d)`. -/
def pivotDupStep (eqEps : ℚ) (s : List float2 × Nat) (i : Nat) : List float2 × Nat :=
  if !(s.1.getD i default).Equals (s.1.getD 0 default) eqEps
  then (s.1.set (s.2 + 1) (s.1.getD i default), s.2 + 1) else s

/-- The first compaction loop: removes the duplicates of the pivot; returns the
buffer and the new `n = d + 1`. -/
def removePivotDuplicates (eqEps : ℚ) (p : List float2) (n : Nat) : List float2 × Nat :=
  let s := (List.range' 1 (n - 1)).foldl (pivotDupStep eqEps) (p, 0)
  (s.1, s.2 + 1)

/-- One iteration of the second compaction, `if (!p[i].Equals(p[d])) p[++d] = p[i];`;
the state is `(p, d)`. -/
def dupStep (eqEps : ℚ) (s : List float2 × Nat) (i : Nat) : List float2 × Nat :=
  if !(s.1.getD i default).Equals (s.1.getD s.2 default) eqEps
  then (s.1.set (s.2 + 1) (s.1.getD i default), s.2 + 1) else s

/-- The second compaction loop: removes duplicate input values; returns the buffer
and the new `n = d + 1`. -/
def removeDuplicates (eqEps : ℚ) (p : List float2) (n : Nat) : List float2 × Nat :=
  let s := (List.range' 1 (n - 1)).foldl (dupStep eqEps) (p, 0)
  (s.1, s.2 + 1)

/-- The scan turn epsilon `const float epsilon = 1e-5f`. -/
def scanEpsilon : ℚ := 1 / 100000

/-- The value `dir = d.x*a.y - d.y*a.x` of the scan. -/
def scanDir (d a : float2) : ℚ := d.x * a.y - d.y * a.x

/-- The condition of the pop loop,
`dir > epsilon || (dir > -epsilon && d.Dot(d) >= a.Dot(a))`. -/
def popCond (dir : ℚ) (d a : float2) : Bool :=
  decide (dir > scanEpsilon) || (decide (dir > -scanEpsilon) && decide (d.Dot d ≥ a.Dot a))

/-- The pop loop `while(...) { --h; if (h >= 1) {...} else break; }` for the candidate
`pi = p[i]`; the state is `h`, `a`, `d`, `dir` and the result is the final `(h, a)`.
The loop condition is only ever evaluated with `h ≥ 1`. -/
def popLoop (p : List float2) (pi : float2) : Nat → float2 → float2 → ℚ → Nat × float2
  | 0, a, _, _ => (0, a)
  | h + 1, a, d, dir =>
    if popCond dir d a then
      if h ≥ 1 then
        let a1 := p.getD h default - p.getD (h - 1) default
        let d1 := pi - p.getD (h - 1) default
        popLoop p pi h a1 d1 (scanDir d1 a1)
      else (h, a)
    else (h + 1, a)

/-- One iteration of the scan loop `for(int i = 2; i < n; ++i)`; the state is
`(p, h, a)`. -/
def scanStep (s : List float2 × Nat × float2) (i : Nat) : List float2 × Nat × float2 :=
  let p := s.1
  let h := s.2.1
  let a := s.2.2
  let pi := p.getD i default
  let d := pi - p.getD (h - 1) default
  let r := popLoop p pi h a d (scanDir d a)
  let h1 := r.1 + 1
  let p1 := p.set h1 pi
  (p1, h1, pi - p1.getD (h1 - 1) default)

/-- The Graham scan: from `int h = 1;` to the end of the loop. -/
def grahamScan (p : List float2) (n : Nat) : List float2 × Nat × float2 :=
  (List.range' 2 (n - 2)).foldl scanStep (p, 1, p.getD 1 default - p.getD 0 default)

/-- The part of `ConvexHullInPlace` after the pruning block: pivot, compaction,
sort, compaction, scan.  Returns the buffer and `h+1`. -/
def hullCore (sort : (float2 → float2 → Bool) → List float2 → List float2) (eqEps : ℚ)
    (p : List float2) (n : Nat) : List float2 × Nat :=
  let low := findLowest p n
  let p1 := Swap p 0 low.2
  let c1 := removePivotDuplicates eqEps p1 n
  let p2 := sortRange sort (SortByPolarAngle low.1) c1.1 c1.2
  let c2 := removeDuplicates eqEps p2 c1.2
  let s := grahamScan c2.1 c2.2
  (s.1, s.2.1 + 1)

/-- `float2::ConvexHullInPlace(float2 *p, int n)` with the library sort `sort` and the
default tolerance `eqEps` of `Equals`.  Returns the buffer after the call and the
returned count. -/
def ConvexHullInPlaceWith (sort : (float2 → float2 → Bool) → List float2 → List float2)
    (eqEps : ℚ) (p : List float2) (n : Int) : List float2 × Int :=
  if n ≤ 2 then (p, n)
  else
    let r := if n ≥ 50 then aklToussaint p n.toNat else (p, n.toNat)
    let c := hullCore sort eqEps r.1 r.2
    (c.1, (c.2 : Int))

/-- `float2::ConvexHullInPlace` with `std::sort` modelled by `stdSort`. -/
def ConvexHullInPlace (eqEps : ℚ) (p : List float2) (n : Int) : List float2 × Int :=
  ConvexHullInPlaceWith stdSort eqEps p n

/-- The same algorithm with the pruning block `if (n >= 50) { ... }` skipped. -/
def ConvexHullNoPruneWith (sort : (float2 → float2 → Bool) → List float2 → List float2)
    (eqEps : ℚ) (p : List float2) (n : Int) : List float2 × Int :=
  if n ≤ 2 then (p, n)
  else
    let c := hullCore sort eqEps p n.toNat
    (c.1, (c.2 : Int))

/-- The loop of `ConvexHullContains` over the indices `i`, with the running `j`. -/
def containsLoop (convexHull : List float2) (point : float2) (zeroEpsSq : ℚ) :
    List Nat → Nat → Bool
  | [], _ => true
  | i :: rest, j =>
    let d := (convexHull.getD i default - convexHull.getD j default).Rotated90CCW
    let n := point - convexHull.getD j default
    if n.IsZero zeroEpsSq then true
    else if n.Dot d < 0 then false
    else containsLoop convexHull point zeroEpsSq rest i

/-- `float2::ConvexHullContains(convexHull, numPointsInConvexHull, point)`, with the
default tolerance `zeroEpsSq` of `IsZero`. -/
def ConvexHullContains (zeroEpsSq : ℚ) (convexHull : List float2)
    (numPointsInConvexHull : Int) (point : float2) : Bool :=
  containsLoop convexHull point zeroEpsSq (List.range numPointsInConvexHull.toNat)
    (numPointsInConvexHull - 1).toNat

end float2

namespace float2

/-! ### Predicates used in the statements and loop invariants -/

/-- The invariant shared by the two compaction loops: the length is kept, the write
index `d` stays below the read index `i`, and every entry comes from the input. -/
def CompactInv (p : List float2) (i : Nat) (s : List float2 × Nat) : Prop :=
  s.1.length = p.length ∧ s.2 < i ∧ ∀ x ∈ s.1, x ∈ p

/-- The invariant of the scan loop used for counts: the length is kept and the hull
index `h` stays in `[1, i)`. -/
def ScanInv (p : List float2) (i : Nat) (s : List float2 × Nat × float2) : Prop :=
  s.1.length = p.length ∧ 1 ≤ s.2.1 ∧ s.2.1 < i

/-- The scan keeps the hull point `v` between `u` and the candidate `w`: the pop
condition is false for `a = v - u`, `d = w - u`. -/
def keeps (u v w : float2) : Prop :=
  popCond (scanDir (w - u) (v - u)) (w - u) (v - u) = false

instance (u v w : float2) : Decidable (keeps u v w) := by
  unfold keeps
  infer_instance

/-- The structural invariant of a compaction loop at read index `i` with state
`(q, d)`: entry 0 and the unread entries are those of the input `p`, and the
compacted prefix `q[0..d]` is a subsequence of the entries read so far. -/
def CompactK (p : List float2) (i : Nat) (s : List float2 × Nat) : Prop :=
  s.1.length = p.length ∧ s.2 < i ∧ s.1.getD 0 default = p.getD 0 default ∧
    (∀ j, i ≤ j → s.1.getD j default = p.getD j default) ∧
    (s.1.take (s.2 + 1)).Sublist (p.take i)

/-- The structural invariant of the scan loop at read index `i` with state
`(q, h, a)`. -/
def ScanK (p : List float2) (i : Nat) (s : List float2 × Nat × float2) : Prop :=
  s.1.length = p.length ∧ 1 ≤ s.2.1 ∧ s.2.1 < i ∧
    s.1.getD 0 default = p.getD 0 default ∧
    (∀ j, i ≤ j → s.1.getD j default = p.getD j default) ∧
    s.2.2 = s.1.getD s.2.1 default - s.1.getD (s.2.1 - 1) default ∧
    (s.1.take (s.2.1 + 1)).Sublist (p.take i) ∧
    (∀ k, k + 2 ≤ s.2.1 →
      keeps (s.1.getD k default) (s.1.getD (k + 1) default) (s.1.getD (k + 2) default))

/-- The order of the pivot search: `a` is lower than `b`, or as low and further left. -/
def lexLt (a b : float2) : Prop := a.y < b.y ∨ (a.y = b.y ∧ a.x < b.x)

instance (a b : float2) : Decidable (lexLt a b) := by
  unfold lexLt
  infer_instance

/-- The point `x` is above the pivot `P`, or as low as `P` and to its right. -/
def above (P x : float2) : Prop := P.y < x.y ∨ (x.y = P.y ∧ P.x < x.x)

/-- What the C++ standard promises of `std::sort`: the range is permuted, and it ends
up ordered whenever `pred` is a strict weak ordering on its elements (asymmetric, and
"not before" is transitive). -/
def SortSpec (sort : (float2 → float2 → Bool) → List float2 → List float2) : Prop :=
  (∀ pred l, (sort pred l).Perm l) ∧
  (∀ pred l, (∀ a ∈ l, ∀ b ∈ l, pred a b = true → pred b a = false) →
    (∀ a ∈ l, ∀ b ∈ l, ∀ c ∈ l, pred a b = false → pred b c = false → pred a c = false) →
    (sort pred l).Pairwise (fun a b => pred b a = false))

/-- The turn of a closed polygon `H[0..h)` at vertex `i`: the cross product
`(H[i] - H[i-1]) × (H[i+1] - H[i])`, indices taken circularly. -/
def turnAt (H : List float2) (h i : Nat) : ℚ :=
  (H.getD i default - H.getD ((i + h - 1) % h) default).PerpDot
    (H.getD ((i + 1) % h) default - H.getD i default)

/-- The point `q` lies strictly inside the counter-clockwise triangle `a, b, c`. -/
def strictlyInside (q a b c : float2) : Prop :=
  0 < (b - a).PerpDot (q - a) ∧ 0 < (c - b).PerpDot (q - b) ∧ 0 < (a - c).PerpDot (q - c)

instance (q a b c : float2) : Decidable (strictlyInside q a b c) := by
  unfold strictlyInside
  infer_instance

/-- The point `x` is on the left of the directed line from `u` to `v`, or on it. -/
def leftOf (u v x : float2) : Prop := 0 ≤ (v - u).PerpDot (x - u)

/-- The invariant of the scan loop for enclosure: the structural invariant, the top of
the hull so far is the last candidate read, and every candidate read so far is on the
left of, or on, every edge of the hull so far. -/
def ScanCov (p : List float2) (i : Nat) (s : List float2 × Nat × float2) : Prop :=
  ScanK p i s ∧ s.1.getD s.2.1 default = p.getD (i - 1) default ∧
    ∀ j, 1 ≤ j → j < i → ∀ k, k + 1 ≤ s.2.1 →
      leftOf (s.1.getD k default) (s.1.getD (k + 1) default) (p.getD j default)

/-- The point `x` is on the left of, or on, every edge of the closed polygon `H[0..h)`,
the edge that ends at `H[i]` starting at the vertex before it (circularly). -/
def Encloses (H : List float2) (h : Nat) (x : float2) : Prop :=
  ∀ i, i < h → leftOf (H.getD ((i + h - 1) % h) default) (H.getD i default) x

/-- The stages of `hullCore` before the scan: the buffer and count handed to the scan. -/
def preScan (sort : (float2 → float2 → Bool) → List float2 → List float2) (eqEps : ℚ)
    (p : List float2) (n : Nat) : List float2 × Nat :=
  let low := findLowest p n
  let p1 := Swap p 0 low.2
  let c1 := removePivotDuplicates eqEps p1 n
  let p2 := sortRange sort (SortByPolarAngle low.1) c1.1 c1.2
  removeDuplicates eqEps p2 c1.2

/-- The points of `L` are in general position beyond the tolerances: two points equal
within `eqEps` are the same point, and three distinct points span a triangle whose
cross product exceeds the scan epsilon. -/
def GeneralPosition (eqEps : ℚ) (L : List float2) : Prop :=
  (∀ x ∈ L, ∀ y ∈ L, Equals x y eqEps = true → x = y) ∧
  (∀ u ∈ L, ∀ v ∈ L, ∀ w ∈ L, u ≠ v → u ≠ w → v ≠ w →
    scanEpsilon < |(v - u).PerpDot (w - u)|)

instance (eqEps : ℚ) (L : List float2) : Decidable (GeneralPosition eqEps L) := by
  unfold GeneralPosition
  infer_instance

/-- An input of 50 points for the pruning step: the diamond `(0,-10), (10,0), (0,10),
(-10,0)`, the point `(5.0002, 5.0002)` just outside its upper right edge, the point
`(5.0001, 4.9993)` just inside that edge, and 44 copies of the inner point `(1,0)`. -/
def pruningInput : List float2 :=
  [⟨0, -10⟩, ⟨10, 0⟩, ⟨0, 10⟩, ⟨-10, 0⟩, ⟨50002 / 10000, 50002 / 10000⟩,
    ⟨50001 / 10000, 49993 / 10000⟩] ++ List.replicate 44 ⟨1, 0⟩

/-- An input of 50 collinear points `(0,0), (1,0), ..., (49,0)`. -/
def collinearInput : List float2 := (List.range 50).map (fun i => ⟨(i : ℚ), 0⟩)

end float2

namespace float2

/-! ### Predicates for the statements on `ConvexHullContains` -/

instance (u v x : float2) : Decidable (leftOf u v x) := by
  unfold leftOf
  infer_instance

instance (H : List float2) (h : Nat) (x : float2) : Decidable (Encloses H h x) := by
  unfold Encloses
  infer_instance

/-- The value `n.Dot(d)` that `ConvexHullContains` tests at the edge ending at `H[i]`:
the dot product of `point - H[j]` with the inward normal of the edge from `H[j]` to
`H[i]`, `j` being the index before `i` (circularly). -/
def edgeDot (H : List float2) (h i : Nat) (point : float2) : ℚ :=
  (point - H.getD ((i + h - 1) % h) default).Dot
    (H.getD i default - H.getD ((i + h - 1) % h) default).Rotated90CCW

/-- The closed polygon `H[0..h)` is convex and counter-clockwise: every vertex is on the
left of, or on, the supporting line of every edge. -/
def ConvexCCW (H : List float2) (h : Nat) : Prop :=
  ∀ j, j < h → Encloses H h (H.getD j default)

instance (H : List float2) (h : Nat) : Decidable (ConvexCCW H h) := by
  unfold ConvexCCW
  infer_instance

end float2

/-! ### `float4x4_sse.h`: the product `M*v` on SSE registers

A register `__m128` holds four lanes; lane 0 is the lowest.  The source comments list
the lanes from the highest to the lowest, as in `[w, z, y, x]`.  Lanes are exact
rationals.  The intrinsics come from the compiler headers, not from `src/`. -/

/-- Modelled from the spec: the SSE register type `__m128` of `xmmintrin.h`, four
scalar lanes. -/
structure __m128 where
  f0 : ℚ
  f1 : ℚ
  f2 : ℚ
  f3 : ℚ
deriving DecidableEq, Repr

/-- Lane `i` of a register (`i` is taken modulo 4). -/
def __m128.lane (a : __m128) (i : Nat) : ℚ :=
  match i % 4 with
  | 0 => a.f0
  | 1 => a.f1
  | 2 => a.f2
  | _ => a.f3

/-- Modelled from the spec: the intrinsic `_mm_mul_ps`, the lane-wise product. -/
def _mm_mul_ps (a b : __m128) : __m128 :=
  ⟨a.f0 * b.f0, a.f1 * b.f1, a.f2 * b.f2, a.f3 * b.f3⟩

/-- Modelled from the spec: the intrinsic `_mm_add_ps`, the lane-wise sum. -/
def _mm_add_ps (a b : __m128) : __m128 :=
  ⟨a.f0 + b.f0, a.f1 + b.f1, a.f2 + b.f2, a.f3 + b.f3⟩

/-- Modelled from the spec: the intrinsic `_mm_hadd_ps`; the source states its result
as `[y2+y3, y0+y1, x2+x3, x0+x1]`, highest lane first. -/
def _mm_hadd_ps (a b : __m128) : __m128 :=
  ⟨a.f0 + a.f1, a.f2 + a.f3, b.f0 + b.f1, b.f2 + b.f3⟩

/-- Modelled from the spec: the intrinsic `_mm_movelh_ps`, the two low lanes of `a`
followed by the two low lanes of `b`; the source states `xy = [ _, y, _, x]`. -/
def _mm_movelh_ps (a b : __m128) : __m128 := ⟨a.f0, a.f1, b.f0, b.f1⟩

/-- Modelled from the spec: the intrinsic `_mm_movehl_ps`, the two high lanes of `b`
followed by the two high lanes of `a`. -/
def _mm_movehl_ps (a b : __m128) : __m128 := ⟨b.f2, b.f3, a.f2, a.f3⟩

/-- Modelled from the spec: the intrinsic `_mm_unpacklo_ps`, the low lanes of `a` and
`b` interleaved. -/
def _mm_unpacklo_ps (a b : __m128) : __m128 := ⟨a.f0, b.f0, a.f1, b.f1⟩

/-- Modelled from the spec: the intrinsic `_mm_unpackhi_ps`, the high lanes of `a` and
`b` interleaved. -/
def _mm_unpackhi_ps (a b : __m128) : __m128 := ⟨a.f2, b.f2, a.f3, b.f3⟩

/-- Modelled from the spec: the selector `_MM_SHUFFLE(z, y, x, w)` of `xmmintrin.h`,
the byte `(z << 6) | (y << 4) | (x << 2) | w`. -/
def _MM_SHUFFLE (z y x w : Nat) : Nat := z * 64 + y * 16 + x * 4 + w

/-- Modelled from the spec: the intrinsic `_mm_shuffle_ps`: the two low lanes are
picked from `a` and the two high lanes from `b`, by the four 2-bit fields of `imm8`. -/
def _mm_shuffle_ps (a b : __m128) (imm8 : Nat) : __m128 :=
  ⟨a.lane (imm8 % 4), a.lane (imm8 / 4 % 4), b.lane (imm8 / 16 % 4), b.lane (imm8 / 64 % 4)⟩

/-- Modelled from the spec: the intrinsic `_mm_dp_ps` (instruction `dpps`): the
products of the lanes chosen by the high four bits of `imm8` are added, and the sum is
stored to the lanes chosen by the low four bits, the other lanes being zero. -/
def _mm_dp_ps (a b : __m128) (imm8 : Nat) : __m128 :=
  let t0 := if imm8.testBit 4 then a.f0 * b.f0 else 0
  let t1 := if imm8.testBit 5 then a.f1 * b.f1 else 0
  let t2 := if imm8.testBit 6 then a.f2 * b.f2 else 0
  let t3 := if imm8.testBit 7 then a.f3 * b.f3 else 0
  let sum := (t0 + t1) + (t2 + t3)
  ⟨if imm8.testBit 0 then sum else 0, if imm8.testBit 1 then sum else 0,
    if imm8.testBit 2 then sum else 0, if imm8.testBit 3 then sum else 0⟩

/-- Modelled from the spec: the statement `_MM_TRANSPOSE4_PS(row0, row1, row2, row3)` of
`xmmintrin.h`, which the source describes as two `unpacklo`, two `unpackhi`, two
`movelh` and two `movehl`; returns the four rows after the transposition. -/
def _MM_TRANSPOSE4_PS (row0 row1 row2 row3 : __m128) : __m128 × __m128 × __m128 × __m128 :=
  let tmp0 := _mm_unpacklo_ps row0 row1
  let tmp2 := _mm_unpacklo_ps row2 row3
  let tmp1 := _mm_unpackhi_ps row0 row1
  let tmp3 := _mm_unpackhi_ps row2 row3
  (_mm_movelh_ps tmp0 tmp2, _mm_movehl_ps tmp2 tmp0, _mm_movelh_ps tmp1 tmp3,
    _mm_movehl_ps tmp3 tmp1)

/-- `mat4x4_mul_sse41`: the product `M*v` with the `dpps` instruction; `matrix` is the
array of the four rows. -/
def mat4x4_mul_sse41 (matrix : Nat → __m128) (vector : __m128) : __m128 :=
  let x := _mm_dp_ps (matrix 0) vector 255
  let y := _mm_dp_ps (matrix 1) vector 255
  let z := _mm_dp_ps (matrix 2) vector 255
  let w := _mm_dp_ps (matrix 3) vector 255
  let xy := _mm_movelh_ps x y
  let zw := _mm_movelh_ps z w
  _mm_shuffle_ps xy zw (_MM_SHUFFLE 2 0 2 0)

/-- `mat4x4_mul_sse3`: the product `M*v` with repeated `haddps`. -/
def mat4x4_mul_sse3 (matrix : Nat → __m128) (vector : __m128) : __m128 :=
  let x := _mm_mul_ps (matrix 0) vector
  let y := _mm_mul_ps (matrix 1) vector
  let z := _mm_mul_ps (matrix 2) vector
  let w := _mm_mul_ps (matrix 3) vector
  let tmp1 := _mm_hadd_ps x y
  let tmp2 := _mm_hadd_ps z w
  _mm_hadd_ps tmp1 tmp2

/-- `mat4x4_mul_sse1`: the product `M*v` with a transposition and three additions. -/
def mat4x4_mul_sse1 (matrix : Nat → __m128) (vector : __m128) : __m128 :=
  let x := _mm_mul_ps (matrix 0) vector
  let y := _mm_mul_ps (matrix 1) vector
  let z := _mm_mul_ps (matrix 2) vector
  let w := _mm_mul_ps (matrix 3) vector
  let t := _MM_TRANSPOSE4_PS x y z w
  _mm_add_ps (_mm_add_ps t.1 t.2.1) (_mm_add_ps t.2.2.1 t.2.2.2)

/-- `mat4x4_mul_sse`: the variant chosen by the build flags `MATH_SSE41` and
`MATH_SSE3`. -/
def mat4x4_mul_sse (MATH_SSE41 MATH_SSE3 : Bool) (matrix : Nat → __m128) (vector : __m128) :
    __m128 :=
  if MATH_SSE41 then mat4x4_mul_sse41 matrix vector
  else if MATH_SSE3 then mat4x4_mul_sse3 matrix vector
  else mat4x4_mul_sse1 matrix vector

/-- The dot product of two registers, `a0*b0 + a1*b1 + a2*b2 + a3*b3`. -/
def dot4 (a b : __m128) : ℚ := a.f0 * b.f0 + a.f1 * b.f1 + a.f2 * b.f2 + a.f3 * b.f3

namespace float2

/-! ### `float2::MinAreaRectInPlace`: the rotating calipers

The routine `Sqrt` of `MathFunc.h` is an argument of the model, as `std::sort` is;
`ratSqrt` is used where a concrete run is needed.  The macros `assume` and
`MARK_UNUSED` have no effect on the result.  `MATH_NS::Min`, `MATH_NS::Max` and
`MATH_NS::Abs` are `min`, `max` and the absolute value.  The four pointers `e[0..3]`
into the buffer are indices; a read through one of them, `*e[k]` or `*NEXT_P(e[k])`, is
defined only below the count `n`, so the model returns `none` when the code reads the
buffer at an index outside `[0, n)`. -/

/-- `float2::operator +(const float2 &rhs)`. -/
def add (a rhs : float2) : float2 := ⟨a.x + rhs.x, a.y + rhs.y⟩

/-- `float2::operator -()`. -/
def neg (a : float2) : float2 := ⟨-a.x, -a.y⟩

/-- `float2::operator *(float scalar)`, and `operator *=`. -/
def mul (a : float2) (scalar : ℚ) : float2 := ⟨a.x * scalar, a.y * scalar⟩

/-- `operator *(float scalar, const float2 &rhs)`. -/
def smul (scalar : ℚ) (rhs : float2) : float2 := ⟨scalar * rhs.x, scalar * rhs.y⟩

/-- `float2::Rotated90CW`. -/
def Rotated90CW (a : float2) : float2 := ⟨a.y, -a.x⟩

/-- The constant `float2::unitY`. -/
def unitY : float2 := ⟨0, 1⟩

/-- `float2::Normalize`: the normalized vector and the returned old length; a vector
whose squared length is not above `1e-6` becomes `(1, 0)` and `0` is returned. -/
def Normalize (Sqrt : ℚ → ℚ) (a : float2) : float2 × ℚ :=
  let lengthSq := a.LengthSq
  if lengthSq > 1 / 1000000 then
    let length := Sqrt lengthSq
    (a.mul (1 / length), length)
  else (⟨1, 0⟩, 0)

/-- `float2::Normalized`. -/
def Normalized (Sqrt : ℚ → ℚ) (a : float2) : float2 := (Normalize Sqrt a).1

/-- The Newton iteration for the integer square root of `n`, from the guess `x`. -/
def isqrtLoop (n : Nat) : Nat → Nat → Nat
  | 0, x => x
  | fuel + 1, x =>
    let y := (x + n / x) / 2
    if y < x then isqrtLoop n fuel y else x

/-- The integer square root (rounded down). -/
def isqrt (n : Nat) : Nat := if n = 0 then 0 else isqrtLoop n n n

/-- A square root for concrete runs: exact on the squares of rationals. -/
def ratSqrt (q : ℚ) : ℚ :=
  if q ≤ 0 then 0 else (isqrt q.num.toNat : ℚ) / (isqrt q.den : ℚ)

/-- The outputs that `MinAreaRectInPlace` takes by reference. -/
structure RectOut where
  center : float2
  uDir : float2
  vDir : float2
  minU : ℚ
  maxU : ℚ
  minV : ℚ
  maxV : ℚ
deriving DecidableEq, Repr

/-- The macro `NEXT_P(ptr) ((ptr)+1 < (pEnd) ? (ptr)+1 : (p))` with `pEnd = p + n`. -/
def NEXT_P (n : Int) (ptr : Nat) : Nat := if (ptr : Int) + 1 < n then ptr + 1 else 0

/-- A read `*ptr` of the buffer through a pointer: defined for an index in `[0, n)`
inside the buffer. -/
def deref (p : List float2) (n : Int) (ptr : Nat) : Option float2 :=
  if (ptr : Int) < n then p.get? ptr else none

/-- The expression `(*NEXT_P(e) - *e).Normalized()`. -/
def edgeDir (Sqrt : ℚ → ℚ) (p : List float2) (n : Int) (e : Nat) : Option float2 :=
  (deref p n (NEXT_P n e)).bind fun a =>
  (deref p n e).bind fun b =>
  some ((a - b).Normalized Sqrt)

/-- The state of the calipers loop: the antipodal indices `e[0..3]` (in the order
min x, min y, max x, max y), the direction `ed`, the edge directions `d[0..3]`, the best
area so far, and the outputs. -/
structure Calipers where
  e : Extremes
  ed : float2
  d0 : float2
  d1 : float2
  d2 : float2
  d3 : float2
  minArea : ℚ
  out : RectOut
deriving DecidableEq, Repr

/-- The first half of an iteration: the caliper with the largest cosine advances. -/
def caliperAdvance (Sqrt : ℚ → ℚ) (p : List float2) (n : Int) (s : Calipers) :
    Option Calipers :=
  let cosA0 := s.ed.Dot s.d0
  let cosA1 := s.ed.PerpDot s.d1
  let cosA2 := -(s.ed.Dot s.d2)
  let cosA3 := -(s.ed.PerpDot s.d3)
  let maxCos := max (max cosA0 cosA1) (max cosA2 cosA3)
  if cosA0 ≥ maxCos then
    (edgeDir Sqrt p n (NEXT_P n s.e.minX)).bind fun d =>
    some { s with ed := s.d0, e := { s.e with minX := NEXT_P n s.e.minX }, d0 := d }
  else if cosA1 ≥ maxCos then
    (edgeDir Sqrt p n (NEXT_P n s.e.minY)).bind fun d =>
    some { s with ed := s.d1.Rotated90CW, e := { s.e with minY := NEXT_P n s.e.minY }, d1 := d }
  else if cosA2 ≥ maxCos then
    (edgeDir Sqrt p n (NEXT_P n s.e.maxX)).bind fun d =>
    some { s with ed := s.d2.neg, e := { s.e with maxX := NEXT_P n s.e.maxX }, d2 := d }
  else
    (edgeDir Sqrt p n (NEXT_P n s.e.maxY)).bind fun d =>
    some { s with ed := s.d3.Rotated90CCW, e := { s.e with maxY := NEXT_P n s.e.maxY }, d3 := d }

/-- The second half of an iteration: the rectangle of the new direction is measured and
recorded when its area is smaller than anything seen so far. -/
def caliperMeasure (p : List float2) (n : Int) (s : Calipers) : Option Calipers :=
  (deref p n s.e.minX).bind fun q0 =>
  (deref p n s.e.maxX).bind fun q2 =>
  (deref p n s.e.minY).bind fun q1 =>
  (deref p n s.e.maxY).bind fun q3 =>
  let minu := s.ed.PerpDot q0
  let maxu := s.ed.PerpDot q2
  let minv := s.ed.Dot q1
  let maxv := s.ed.Dot q3
  let area := |maxu - minu| * |maxv - minv|
  if area < s.minArea then
    some { s with
      minArea := area
      out := { s.out with
        vDir := s.ed, minU := min minu maxu, maxU := max minu maxu,
        minV := min minv maxv, maxV := max minv maxv } }
  else some s

/-- One iteration of the loop `for(int i = 0; i < n; ++i)` over the hull edges. -/
def caliperStep (Sqrt : ℚ → ℚ) (p : List float2) (n : Int) (s : Calipers) : Option Calipers :=
  (caliperAdvance Sqrt p n s).bind (caliperMeasure p n)

/-- The loop `for(int i = 0; i < n; ++i)`: the body does not use `i`, so the first
argument is the number of iterations left. -/
def caliperLoop (Sqrt : ℚ → ℚ) (p : List float2) (n : Int) : Nat → Calipers → Option Calipers
  | 0, s => some s
  | k + 1, s => (caliperStep Sqrt p n s).bind (caliperLoop Sqrt p n k)

/-- The part of `MinAreaRectInPlace` after the call of `ConvexHullInPlace`, on the hull
`p[0..n)`: returns the outputs and the returned area. -/
def rotatingCalipers (Sqrt : ℚ → ℚ) (p : List float2) (n : Int) (out : RectOut) :
    Option (RectOut × ℚ) :=
  let e := findExtremes p n.toNat
  let ed := unitY.neg
  (deref p n e.maxX).bind fun q2 =>
  (deref p n e.minX).bind fun q0 =>
  (deref p n e.maxY).bind fun q3 =>
  (deref p n e.minY).bind fun q1 =>
  let minArea := (q2.x - q0.x) * (q3.y - q1.y)
  (edgeDir Sqrt p n e.minX).bind fun d0 =>
  (edgeDir Sqrt p n e.minY).bind fun d1 =>
  (edgeDir Sqrt p n e.maxX).bind fun d2 =>
  (edgeDir Sqrt p n e.maxY).bind fun d3 =>
  (caliperLoop Sqrt p n n.toNat
    { e := e, ed := ed, d0 := d0, d1 := d1, d2 := d2, d3 := d3, minArea := minArea,
      out := out }).bind fun s =>
  let uDir := s.out.vDir.Rotated90CCW
  let center := smul (1 / 2)
    ((uDir.mul (s.out.minU + s.out.maxU)).add (s.out.vDir.mul (s.out.minV + s.out.maxV)))
  some ({ s.out with uDir := uDir, center := center }, s.minArea)

/-- `float2::MinAreaRectInPlace(p, n, center, uDir, vDir, minU, maxU, minV, maxV)` with
the library routines `Sqrt` and `sort` and the default tolerance `eqEps` of `Equals`.  The
buffer is `none` for a null pointer.  Returns the buffer, the outputs and the returned
area, or `none` when the code reads the buffer outside `[0, n)`. -/
def MinAreaRectInPlaceWith (Sqrt : ℚ → ℚ)
    (sort : (float2 → float2 → Bool) → List float2 → List float2) (eqEps : ℚ)
    (p : Option (List float2)) (n : Int) (out : RectOut) :
    Option (Option (List float2) × RectOut × ℚ) :=
  match p with
  | none => some (none, out, 0)
  | some buf =>
    let r := ConvexHullInPlaceWith sort eqEps buf n
    (rotatingCalipers Sqrt r.1 r.2 out).bind fun c => some (some r.1, c.1, c.2)

/-- `float2::MinAreaRectInPlace` with `std::sort` modelled by `stdSort` and `Sqrt` by
`ratSqrt`. -/
def MinAreaRectInPlace (eqEps : ℚ) (p : Option (List float2)) (n : Int) (out : RectOut) :
    Option (Option (List float2) × RectOut × ℚ) :=
  MinAreaRectInPlaceWith ratSqrt stdSort eqEps p n out

end float2

namespace float2

/-! ### Predicates for the statements on `MinAreaRectInPlace` -/

/-- The point `q` is inside the rectangle described by the outputs: its projections on
`uDir` and `vDir` are within the reported extents. -/
def InsideRect (o : RectOut) (q : float2) : Prop :=
  o.minU ≤ q.Dot o.uDir ∧ q.Dot o.uDir ≤ o.maxU ∧ o.minV ≤ q.Dot o.vDir ∧ q.Dot o.vDir ≤ o.maxV

instance (o : RectOut) (q : float2) : Decidable (InsideRect o q) := by
  unfold InsideRect
  infer_instance

/-- The largest value of `f` on the points `pts`, minus the smallest. -/
def spanOf (f : float2 → ℚ) (pts : List float2) : ℚ :=
  (pts.map f).foldl max (f (pts.getD 0 default)) -
    (pts.map f).foldl min (f (pts.getD 0 default))

/-- The area of the smallest rectangle with a side along the direction `w` that encloses
the points `pts`. -/
def rectArea (w : float2) (pts : List float2) : ℚ :=
  spanOf (fun q => w.PerpDot q) pts * spanOf (fun q => w.Dot q) pts / w.LengthSq

/-- All points of `L` lie on one line: any three of them span no area. -/
def Collinear (L : List float2) : Prop :=
  ∀ a ∈ L, ∀ b ∈ L, ∀ c ∈ L, (b - a).PerpDot (c - a) = 0

instance (L : List float2) : Decidable (Collinear L) := by
  unfold Collinear
  infer_instance

/-- The invariant of the scan loop on collinear candidates: the structural invariant,
the top of the hull so far is the last candidate read, and consecutive points of the
hull so far are not equal within the tolerance. -/
def ScanGap (eqEps : ℚ) (p : List float2) (i : Nat) (s : List float2 × Nat × float2) : Prop :=
  ScanK p i s ∧ s.1.getD s.2.1 default = p.getD (i - 1) default ∧
    ∀ k, k + 1 ≤ s.2.1 →
      (s.1.getD (k + 1) default).Equals (s.1.getD k default) eqEps = false

/-- The four antipodal indices are below the count. -/
def InHull (cnt : Nat) (e : Extremes) : Prop :=
  e.minX < cnt ∧ e.minY < cnt ∧ e.maxX < cnt ∧ e.maxY < cnt

/-- The area that `caliperMeasure` computes for the state `s`. -/
def measuredArea (p : List float2) (s : Calipers) : ℚ :=
  |s.ed.PerpDot (p.getD s.e.maxX default) - s.ed.PerpDot (p.getD s.e.minX default)| *
    |s.ed.Dot (p.getD s.e.maxY default) - s.ed.Dot (p.getD s.e.minY default)|

end float2

namespace float2

/-! ### Component helpers, `Orthogonalize` and `Orthonormalize`

The four overloads `Min(float)`, `Min(const float2 &)`, `Max(float)` and
`Max(const float2 &)` carry the type of their argument in their name. -/

/-- `float2::Min(float floor)`. -/
def Min_float (a : float2) (floor : ℚ) : float2 := ⟨min a.x floor, min a.x floor⟩

/-- `float2::Min(const float2 &floor)`. -/
def Min_float2 (a floor : float2) : float2 := ⟨min a.x floor.x, min a.x floor.x⟩

/-- `float2::Max(float ceil)`. -/
def Max_float (a : float2) (ceil : ℚ) : float2 := ⟨max a.x ceil, max a.x ceil⟩

/-- `float2::Max(const float2 &ceil)`. -/
def Max_float2 (a ceil : float2) : float2 := ⟨max a.x ceil.x, max a.x ceil.x⟩

/-- `float2::Length`. -/
def Length (Sqrt : ℚ → ℚ) (a : float2) : ℚ := Sqrt a.LengthSq

/-- `float2::Orthogonalize(const float2 &a, float2 &b)`, the statement
`b -= a.Dot(b) / a.Length() * a;`.  Returns `a` and the new `b`. -/
def Orthogonalize (Sqrt : ℚ → ℚ) (a b : float2) : float2 × float2 :=
  (a, b - smul (a.Dot b / a.Length Sqrt) a)

/-- `float2::Orthonormalize(float2 &a, float2 &b)`: `a.Normalize(); b -= a.Dot(b) * a;`.
Returns the new `a` and the new `b`. -/
def Orthonormalize (Sqrt : ℚ → ℚ) (a b : float2) : float2 × float2 :=
  let a1 := (Normalize Sqrt a).1
  (a1, b - smul (a1.Dot b) a1)

/-- `float2::operator /(float scalar)`. -/
def div (a : float2) (scalar : ℚ) : float2 :=
  let invScalar := 1 / scalar
  ⟨a.x * invScalar, a.y * invScalar⟩

/-- `float2::ProjectTo(const float2 &direction)`. -/
def ProjectTo (a direction : float2) : float2 :=
  (direction.mul (a.Dot direction)).div direction.LengthSq

end float2

namespace float2

/-! ### Predicates for the statements on the steps of the calipers -/

/-- The cosine `cosA0 .. cosA3` that an iteration computes for caliper `k`. -/
def cosA (s : Calipers) (k : Nat) : ℚ :=
  match k with
  | 0 => s.ed.Dot s.d0
  | 1 => s.ed.PerpDot s.d1
  | 2 => -(s.ed.Dot s.d2)
  | _ => -(s.ed.PerpDot s.d3)

/-- The value `maxCos` of an iteration. -/
def maxCos (s : Calipers) : ℚ :=
  max (max (cosA s 0) (cosA s 1)) (max (cosA s 2) (cosA s 3))

/-- The support pointer `e[k]` as an index into the buffer: `e[0]` starts at the point of
least x, `e[1]` at the point of least y, `e[2]` at the point of largest x and `e[3]` at
the point of largest y. -/
def support (e : Extremes) (k : Nat) : Nat :=
  match k with
  | 0 => e.minX
  | 1 => e.minY
  | 2 => e.maxX
  | _ => e.maxY

/-- The states that the loop of `k` iterations goes through from the state `s`: the
state before the first iteration and the state after each iteration, as long as the
reads are defined. -/
def caliperTrace (Sqrt : ℚ → ℚ) (p : List float2) (n : Int) : Nat → Calipers → List Calipers
  | 0, s => [s]
  | k + 1, s =>
    s :: (match caliperStep Sqrt p n s with
      | some s1 => caliperTrace Sqrt p n k s1
      | none => [])

/-- The starting guess `(e[2]->x - e[0]->x) * (e[3]->y - e[1]->y)` for the area: the
axis-aligned bounding box. -/
def aabbArea (p : List float2) (e : Extremes) : ℚ :=
  ((p.getD e.maxX default).x - (p.getD e.minX default).x) *
    ((p.getD e.maxY default).y - (p.getD e.minY default).y)

end float2

namespace float2

/-! ### `ConvexHullInPlace` with every access to the buffer checked

The statements of `ConvexHullInPlace` once more, in the order of the source, with every
read `p[i]` and every store `p[i] = v` checked against the count `n0` that the caller
passed: the result is `none` as soon as an index is outside `[0, n0)`.  The loops whose
header fixes the number of iterations are counted loops over `List.range'`.  The two
loops that change their own bounds, the pruning loop and the pop loop of the scan, take
fuel, one unit for every evaluation of the loop condition, and give `none` when it runs
out.  The hull index `h` of the scan is a signed integer, as in the source. -/

/-- A read `p[i]`: defined for `0 ≤ i < n0` inside the buffer. -/
def readAt (p : List float2) (n0 : Nat) (i : Int) : Option float2 :=
  if 0 ≤ i ∧ i < n0 then p.get? i.toNat else none

/-- A store `p[i] = v`: defined for `0 ≤ i < n0` inside the buffer. -/
def writeAt (p : List float2) (n0 : Nat) (i : Int) (v : float2) : Option (List float2) :=
  if 0 ≤ i ∧ i < n0 ∧ i.toNat < p.length then some (p.set i.toNat v) else none

/-- `Swap(p[i], p[j])` with both entries read and stored. -/
def swapAt (p : List float2) (n0 : Nat) (i j : Int) : Option (List float2) :=
  (readAt p n0 i).bind fun a =>
  (readAt p n0 j).bind fun b =>
  (writeAt p n0 i b).bind fun p1 =>
  writeAt p1 n0 j a

/-- A counted loop whose body may fail, over the values of the loop variable. -/
def forLoop {σ : Type} (body : σ → Nat → Option σ) : List Nat → σ → Option σ
  | [], s => some s
  | i :: rest, s => (body s i).bind (forLoop body rest)

/-- One iteration of the loop that locates the four extreme points, with the reads of
`p[i]`, `p[minX]`, `p[maxX]`, `p[minY]`, `p[maxY]` checked. -/
def extremeStepChecked (p : List float2) (n0 : Nat) (e : Extremes) (i : Nat) :
    Option Extremes :=
  (readAt p n0 i).bind fun pi =>
  (readAt p n0 e.minX).bind fun a =>
  (if pi.x < a.x then some { e with minX := i }
    else (readAt p n0 e.maxX).bind fun b =>
      if pi.x > b.x then some { e with maxX := i } else some e).bind fun e1 =>
  (readAt p n0 e1.minY).bind fun c =>
  if pi.y < c.y then some { e1 with minY := i }
  else (readAt p n0 e1.maxY).bind fun d =>
    if pi.y > d.y then some { e1 with maxY := i } else some e1

/-- The normals and offsets of the pruning step, with the reads of the four extreme
points checked. -/
def pruneFrameChecked (p : List float2) (n0 : Nat) (e : Extremes) : Option PruneFrame :=
  (readAt p n0 e.minX).bind fun pMinX =>
  (readAt p n0 e.minY).bind fun pMinY =>
  (readAt p n0 e.maxX).bind fun pMaxX =>
  (readAt p n0 e.maxY).bind fun pMaxY =>
  let e0 := (pMaxX - pMinY).Rotated90CCW
  let e1 := (pMaxY - pMaxX).Rotated90CCW
  let e2 := (pMinX - pMaxY).Rotated90CCW
  let e3 := (pMinY - pMinX).Rotated90CCW
  some { e0 := e0, e1 := e1, e2 := e2, e3 := e3,
         e0_d := e0.Dot pMinY + pruneEps,
         e1_d := e1.Dot pMaxX + pruneEps,
         e2_d := e2.Dot pMaxY + pruneEps,
         e3_d := e3.Dot pMinX + pruneEps }

/-- The loop `for(int i = 0; i < n; ++i) if (...) Swap(p[i--], p[--n]);` with the loop
variables `i` and `n` as they are in the source.  The swap takes `p[i]` and `p[n - 1]`,
and `i--` followed by the `++i` of the header leaves `i` where it is. -/
def pruneLoopChecked (f : PruneFrame) (n0 : Nat) :
    Nat → List float2 → Int → Int → Option (List float2 × Int)
  | 0, _, _, _ => none
  | fuel + 1, p, i, n =>
    if i < n then
      (readAt p n0 i).bind fun pi =>
      if pruneTest f pi then
        (swapAt p n0 i (n - 1)).bind fun p1 => pruneLoopChecked f n0 fuel p1 i (n - 1)
      else pruneLoopChecked f n0 fuel p (i + 1) n
    else some (p, n)

/-- The block `if (n >= 50) { ... }` with every access checked. -/
def aklToussaintChecked (fuel : Nat) (p : List float2) (n0 : Nat) :
    Option (List float2 × Int) :=
  (forLoop (extremeStepChecked p n0) (List.range' 1 (n0 - 1)) ⟨0, 0, 0, 0⟩).bind fun e =>
  (pruneFrameChecked p n0 e).bind fun f =>
  pruneLoopChecked f n0 fuel p 0 n0

/-- One iteration of the search for the lowest point, with the read of `p[i]` checked. -/
def lowestStepChecked (p : List float2) (n0 : Nat) (s : float2 × Nat) (i : Nat) :
    Option (float2 × Nat) :=
  (readAt p n0 i).bind fun pi =>
  some (if pi.y < s.1.y ∨ (pi.y = s.1.y ∧ pi.x < s.1.x) then (pi, i) else s)

/-- The search for the lowest point: `pred.perspective = p[0]` and the loop. -/
def findLowestChecked (p : List float2) (n0 n : Nat) : Option (float2 × Nat) :=
  (readAt p n0 0).bind fun p0 =>
  forLoop (lowestStepChecked p n0) (List.range' 1 (n - 1)) (p0, 0)

/-- One iteration of the first compaction, `if (!p[i].Equals(p[0])) p[++d] = p[i];`. -/
def pivotDupStepChecked (eqEps : ℚ) (n0 : Nat) (s : List float2 × Nat) (i : Nat) :
    Option (List float2 × Nat) :=
  (readAt s.1 n0 i).bind fun pi =>
  (readAt s.1 n0 0).bind fun p0 =>
  if !pi.Equals p0 eqEps then
    (writeAt s.1 n0 ((s.2 : Int) + 1) pi).bind fun p1 => some (p1, s.2 + 1)
  else some s

/-- One iteration of the second compaction, `if (!p[i].Equals(p[d])) p[++d] = p[i];`. -/
def dupStepChecked (eqEps : ℚ) (n0 : Nat) (s : List float2 × Nat) (i : Nat) :
    Option (List float2 × Nat) :=
  (readAt s.1 n0 i).bind fun pi =>
  (readAt s.1 n0 s.2).bind fun pd =>
  if !pi.Equals pd eqEps then
    (writeAt s.1 n0 ((s.2 : Int) + 1) pi).bind fun p1 => some (p1, s.2 + 1)
  else some s

/-- The call `std::sort(&p[1], &p[n], pred)`: the range `[1, n)` has to lie inside the
buffer of `n0` points. -/
def sortRangeChecked (sort : (float2 → float2 → Bool) → List float2 → List float2)
    (pred : float2 → float2 → Bool) (p : List float2) (n0 n : Nat) : Option (List float2) :=
  if 1 ≤ n ∧ n ≤ n0 then some (sortRange sort pred p n) else none

/-- The pop loop `while(...) { --h; if (h >= 1) {...} else break; }` with `h` a signed
integer and the reads of `p[h]`, `p[h-1]` after the decrement checked; returns the final
`h` and `a`. -/
def popLoopChecked (p : List float2) (n0 : Nat) (pi : float2) :
    Nat → Int → float2 → float2 → ℚ → Option (Int × float2)
  | 0, _, _, _, _ => none
  | fuel + 1, h, a, d, dir =>
    if popCond dir d a then
      if h - 1 ≥ 1 then
        (readAt p n0 (h - 1)).bind fun x =>
        (readAt p n0 (h - 1 - 1)).bind fun y =>
        popLoopChecked p n0 pi fuel (h - 1) (x - y) (pi - y) (scanDir (pi - y) (x - y))
      else some (h - 1, a)
    else some (h, a)

/-- One iteration of the scan loop with `h` a signed integer: the reads of `p[i]` and
`p[h-1]`, the pop loop, the store `p[++h] = p[i]` and the read of `p[h-1]`. -/
def scanStepChecked (n0 fuel : Nat) (s : List float2 × Int × float2) (i : Nat) :
    Option (List float2 × Int × float2) :=
  (readAt s.1 n0 i).bind fun pi =>
  (readAt s.1 n0 (s.2.1 - 1)).bind fun q =>
  (popLoopChecked s.1 n0 pi fuel s.2.1 s.2.2 (pi - q) (scanDir (pi - q) s.2.2)).bind fun r =>
  (writeAt s.1 n0 (r.1 + 1) pi).bind fun p1 =>
  (readAt p1 n0 (r.1 + 1 - 1)).bind fun q1 =>
  some (p1, r.1 + 1, pi - q1)

/-- The Graham scan with every access checked: `float2 a = p[h] - p[h-1];` with `h = 1`
and the loop. -/
def grahamScanChecked (n0 fuel : Nat) (p : List float2) (n : Nat) :
    Option (List float2 × Int × float2) :=
  (readAt p n0 1).bind fun x =>
  (readAt p n0 0).bind fun y =>
  forLoop (scanStepChecked n0 fuel) (List.range' 2 (n - 2)) (p, 1, x - y)

/-- The part of `ConvexHullInPlace` after the pruning block with every access checked. -/
def hullCoreChecked (sort : (float2 → float2 → Bool) → List float2 → List float2)
    (eqEps : ℚ) (n0 fuel : Nat) (p : List float2) (n : Nat) : Option (List float2 × Int) :=
  (findLowestChecked p n0 n).bind fun low =>
  (swapAt p n0 0 low.2).bind fun p1 =>
  (forLoop (pivotDupStepChecked eqEps n0) (List.range' 1 (n - 1)) (p1, 0)).bind fun c1 =>
  (sortRangeChecked sort (SortByPolarAngle low.1) c1.1 n0 (c1.2 + 1)).bind fun p2 =>
  (forLoop (dupStepChecked eqEps n0) (List.range' 1 (c1.2 + 1 - 1)) (p2, 0)).bind fun c2 =>
  (grahamScanChecked n0 fuel c2.1 (c2.2 + 1)).bind fun s =>
  some (s.1, s.2.1 + 1)

/-- `float2::ConvexHullInPlace(float2 *p, int n)` with every access to the buffer checked
against `n` and the given fuel for the pruning loop and for each pop loop: `none` when an
index is outside `[0, n)` or the fuel runs out. -/
def ConvexHullInPlaceChecked (fuel : Nat)
    (sort : (float2 → float2 → Bool) → List float2 → List float2) (eqEps : ℚ)
    (p : List float2) (n : Int) : Option (List float2 × Int) :=
  if n ≤ 2 then some (p, n)
  else
    (if n ≥ 50 then aklToussaintChecked fuel p n.toNat
      else some (p, n)).bind fun r =>
    hullCoreChecked sort eqEps n.toNat fuel r.1 r.2.toNat

end float2

namespace float2

/-! ### Buffer lemmas -/

theorem getD_set_self (l : List float2) (i : Nat) (v d : float2) (h : i < l.length) :
    (l.set i v).getD i d = v := by
  simp [List.getD_eq_getElem?_getD, List.getElem?_set, h]

theorem getD_set_ne (l : List float2) (i j : Nat) (v d : float2) (h : i ≠ j) :
    (l.set i v).getD j d = l.getD j d := by
  simp [List.getD_eq_getElem?_getD, List.getElem?_set, h]

theorem getD_mem (l : List float2) (i : Nat) (d : float2) (h : i < l.length) :
    l.getD i d ∈ l := by
  rw [List.getD_eq_getElem _ _ h]
  exact List.getElem_mem h

theorem mem_of_mem_set (l : List float2) (i : Nat) (v x : float2) (hv : v ∈ l)
    (hx : x ∈ l.set i v) : x ∈ l := by
  rcases List.mem_or_eq_of_mem_set hx with h | h
  · exact h
  · exact h ▸ hv

/-- Loop rule for a counted `for` loop written as a fold over `List.range'`. -/
theorem foldl_range'_inv {σ : Type} (step : σ → Nat → σ) (Inv : Nat → σ → Prop) :
    ∀ (len a : Nat) (s0 : σ), Inv a s0 →
      (∀ i s, a ≤ i → i < a + len → Inv i s → Inv (i + 1) (step s i)) →
      Inv (a + len) ((List.range' a len).foldl step s0) := by
  intro len
  induction len with
  | zero => intro a s0 h0 _; simpa using h0
  | succ k ih =>
    intro a s0 h0 hstep
    rw [List.range'_succ, List.foldl_cons]
    have h1 : Inv (a + 1) (step s0 a) := hstep a s0 (le_refl a) (by omega) h0
    have := ih (a + 1) (step s0 a) h1
      (fun i s hi hlt hinv => hstep i s (by omega) (by omega) hinv)
    have e : a + 1 + k = a + (k + 1) := by omega
    rw [e] at this
    exact this

end float2

namespace float2

/-! ### Lengths, counts and provenance of the buffer entries -/

theorem Swap_length (p : List float2) (i j : Nat) : (Swap p i j).length = p.length := by
  simp [Swap]

theorem Swap_mem (p : List float2) (i j : Nat) (x : float2) (hi : i < p.length)
    (hj : j < p.length) (hx : x ∈ Swap p i j) : x ∈ p := by
  unfold Swap at hx
  have h1 : ∀ y ∈ p.set i (p.getD j default), y ∈ p := fun y hy =>
    mem_of_mem_set p i _ y (getD_mem p j default hj) hy
  rcases List.mem_or_eq_of_mem_set hx with h | h
  · exact h1 x h
  · exact h ▸ getD_mem p i default hi

theorem pruneLoop_length (f : PruneFrame) :
    ∀ (k : Nat) (p : List float2) (i : Nat), (pruneLoop f k p i).1.length = p.length := by
  intro k
  induction k with
  | zero => intro p i; rfl
  | succ k ih =>
    intro p i
    unfold pruneLoop
    split
    · rw [ih, Swap_length]
    · rw [ih]

theorem pruneLoop_count (f : PruneFrame) :
    ∀ (k : Nat) (p : List float2) (i : Nat),
      i ≤ (pruneLoop f k p i).2 ∧ (pruneLoop f k p i).2 ≤ i + k := by
  intro k
  induction k with
  | zero => intro p i; simp [pruneLoop]
  | succ k ih =>
    intro p i
    unfold pruneLoop
    split
    · have := ih (Swap p i (i + k)) i
      omega
    · have := ih p (i + 1)
      omega

theorem pruneLoop_mem (f : PruneFrame) :
    ∀ (k : Nat) (p : List float2) (i : Nat), i + k ≤ p.length →
      ∀ x ∈ (pruneLoop f k p i).1, x ∈ p := by
  intro k
  induction k with
  | zero => intro p i _ x hx; exact hx
  | succ k ih =>
    intro p i hk x hx
    unfold pruneLoop at hx
    split at hx
    · have h1 := ih (Swap p i (i + k)) i (by rw [Swap_length]; omega) x hx
      exact Swap_mem p i (i + k) x (by omega) (by omega) h1
    · exact ih p (i + 1) (by omega) x hx

theorem aklToussaint_length (p : List float2) (n : Nat) :
    (aklToussaint p n).1.length = p.length := by
  simp [aklToussaint, pruneLoop_length]

theorem aklToussaint_count (p : List float2) (n : Nat) : (aklToussaint p n).2 ≤ n := by
  have := (pruneLoop_count (pruneFrame p (findExtremes p n)) n p 0).2
  simpa [aklToussaint] using this

theorem aklToussaint_mem (p : List float2) (n : Nat) (hn : n ≤ p.length) :
    ∀ x ∈ (aklToussaint p n).1, x ∈ p := by
  intro x hx
  exact pruneLoop_mem _ n p 0 (by omega) x hx

theorem compact_write (p : List float2) (i : Nat) (s : List float2 × Nat)
    (hi : i < p.length) (h : CompactInv p i s) :
    CompactInv p (i + 1) (s.1.set (s.2 + 1) (s.1.getD i default), s.2 + 1) := by
  obtain ⟨hl, hd, hm⟩ := h
  refine ⟨by simp [hl], by simp; omega, ?_⟩
  intro x hx
  exact hm x (mem_of_mem_set s.1 _ _ x (getD_mem s.1 i default (by omega)) hx)

theorem compact_skip (p : List float2) (i : Nat) (s : List float2 × Nat)
    (h : CompactInv p i s) : CompactInv p (i + 1) s :=
  ⟨h.1, by have := h.2.1; omega, h.2.2⟩

theorem removePivotDuplicates_inv (eqEps : ℚ) (p : List float2) (n : Nat)
    (hn : n ≤ p.length) :
    CompactInv p (1 + (n - 1))
      ((List.range' 1 (n - 1)).foldl (pivotDupStep eqEps) (p, 0)) := by
  apply foldl_range'_inv (pivotDupStep eqEps) (CompactInv p)
  · exact ⟨rfl, by simp, fun x hx => hx⟩
  · intro i s h1 h2 hinv
    unfold pivotDupStep
    split
    · exact compact_write p i s (by omega) hinv
    · exact compact_skip p i s hinv

theorem removeDuplicates_inv (eqEps : ℚ) (p : List float2) (n : Nat)
    (hn : n ≤ p.length) :
    CompactInv p (1 + (n - 1))
      ((List.range' 1 (n - 1)).foldl (dupStep eqEps) (p, 0)) := by
  apply foldl_range'_inv (dupStep eqEps) (CompactInv p)
  · exact ⟨rfl, by simp, fun x hx => hx⟩
  · intro i s h1 h2 hinv
    unfold dupStep
    split
    · exact compact_write p i s (by omega) hinv
    · exact compact_skip p i s hinv

/-- The write index of a compaction loop stays below the read index, whatever the
buffer holds. -/
theorem compact_count {step : List float2 × Nat → Nat → List float2 × Nat}
    (hstep : ∀ s i, (step s i).2 ≤ s.2 + 1 ∧ (step s i).1.length = s.1.length)
    (p : List float2) (n : Nat) :
    ((List.range' 1 (n - 1)).foldl step (p, 0)).2 < 1 + (n - 1) ∧
      ((List.range' 1 (n - 1)).foldl step (p, 0)).1.length = p.length := by
  apply foldl_range'_inv step (fun i s => s.2 < i ∧ s.1.length = p.length)
  · simp
  · intro i s _ _ hinv
    have := hstep s i
    exact ⟨by omega, by rw [this.2]; exact hinv.2⟩

theorem pivotDupStep_bound (eqEps : ℚ) (s : List float2 × Nat) (i : Nat) :
    (pivotDupStep eqEps s i).2 ≤ s.2 + 1 ∧ (pivotDupStep eqEps s i).1.length = s.1.length := by
  unfold pivotDupStep
  split <;> simp

theorem dupStep_bound (eqEps : ℚ) (s : List float2 × Nat) (i : Nat) :
    (dupStep eqEps s i).2 ≤ s.2 + 1 ∧ (dupStep eqEps s i).1.length = s.1.length := by
  unfold dupStep
  split <;> simp

theorem removePivotDuplicates_count (eqEps : ℚ) (p : List float2) (n : Nat) :
    1 ≤ (removePivotDuplicates eqEps p n).2 ∧ (removePivotDuplicates eqEps p n).2 ≤ max n 1 ∧
      (removePivotDuplicates eqEps p n).1.length = p.length := by
  have := compact_count (pivotDupStep_bound eqEps) p n
  simp only [removePivotDuplicates]
  omega

theorem removeDuplicates_count (eqEps : ℚ) (p : List float2) (n : Nat) :
    1 ≤ (removeDuplicates eqEps p n).2 ∧ (removeDuplicates eqEps p n).2 ≤ max n 1 ∧
      (removeDuplicates eqEps p n).1.length = p.length := by
  have := compact_count (dupStep_bound eqEps) p n
  simp only [removeDuplicates]
  omega

theorem removePivotDuplicates_mem (eqEps : ℚ) (p : List float2) (n : Nat)
    (hn : n ≤ p.length) : ∀ x ∈ (removePivotDuplicates eqEps p n).1, x ∈ p :=
  (removePivotDuplicates_inv eqEps p n hn).2.2

theorem removeDuplicates_mem (eqEps : ℚ) (p : List float2) (n : Nat)
    (hn : n ≤ p.length) : ∀ x ∈ (removeDuplicates eqEps p n).1, x ∈ p :=
  (removeDuplicates_inv eqEps p n hn).2.2

theorem popLoop_le (p : List float2) (pi : float2) :
    ∀ (h : Nat) (a d : float2) (dir : ℚ), (popLoop p pi h a d dir).1 ≤ h := by
  intro h
  induction h with
  | zero => intro a d dir; simp [popLoop]
  | succ h ih =>
    intro a d dir
    unfold popLoop
    split
    · split
      · have := ih (p.getD h default - p.getD (h - 1) default) (pi - p.getD (h - 1) default)
          (scanDir (pi - p.getD (h - 1) default) (p.getD h default - p.getD (h - 1) default))
        exact Nat.le_succ_of_le this
      · simp
    · simp

theorem scanStep_inv (p : List float2) (i : Nat) (s : List float2 × Nat × float2)
    (h : ScanInv p i s) : ScanInv p (i + 1) (scanStep s i) := by
  obtain ⟨hl, h1, h2⟩ := h
  have hle := popLoop_le s.1 (s.1.getD i default) s.2.1 s.2.2
    (s.1.getD i default - s.1.getD (s.2.1 - 1) default)
    (scanDir (s.1.getD i default - s.1.getD (s.2.1 - 1) default) s.2.2)
  refine ⟨by simp [scanStep, hl], by simp [scanStep], ?_⟩
  simp only [scanStep]
  omega

theorem grahamScan_count (p : List float2) (n : Nat) :
    (grahamScan p n).1.length = p.length ∧ 1 ≤ (grahamScan p n).2.1 ∧
      (grahamScan p n).2.1 + 1 ≤ max n 2 := by
  have := foldl_range'_inv scanStep (ScanInv p) (n - 2) 2
    (p, 1, p.getD 1 default - p.getD 0 default) ⟨rfl, le_refl 1, by simp⟩
    (fun i s _ _ hinv => scanStep_inv p i s hinv)
  obtain ⟨hl, h1, h2⟩ := this
  refine ⟨hl, h1, ?_⟩
  simp only [grahamScan]
  omega

theorem scanStep_mem (p : List float2) (i : Nat) (s : List float2 × Nat × float2)
    (hi : i < p.length) (hl : s.1.length = p.length) (hm : ∀ x ∈ s.1, x ∈ p) :
    ∀ x ∈ (scanStep s i).1, x ∈ p := by
  intro x hx
  simp only [scanStep] at hx
  exact hm x (mem_of_mem_set s.1 _ _ x (getD_mem s.1 i default (by omega)) hx)

theorem grahamScan_mem (p : List float2) (n : Nat) (hn : n ≤ p.length) :
    ∀ x ∈ (grahamScan p n).1, x ∈ p := by
  have := foldl_range'_inv scanStep
    (fun i s => ScanInv p i s ∧ ∀ x ∈ s.1, x ∈ p) (n - 2) 2
    (p, 1, p.getD 1 default - p.getD 0 default) ⟨⟨rfl, le_refl 1, by simp⟩, fun x hx => hx⟩
    (fun i s _ hlt hinv => ⟨scanStep_inv p i s hinv.1,
      scanStep_mem p i s (by omega) hinv.1.1 hinv.2⟩)
  exact this.2

end float2

namespace float2

theorem stdSortInsert_perm (pred : float2 → float2 → Bool) (v : float2) :
    ∀ l : List float2, (stdSortInsert pred v l).Perm (v :: l) := by
  intro l
  induction l with
  | nil => exact List.Perm.refl _
  | cons e rest ih =>
    unfold stdSortInsert
    split
    · exact ((List.Perm.cons e ih).trans (List.Perm.swap v e rest))
    · exact List.Perm.refl _

theorem stdSort_perm (pred : float2 → float2 → Bool) :
    ∀ l : List float2, (stdSort pred l).Perm l := by
  intro l
  induction l with
  | nil => exact List.Perm.refl _
  | cons v rest ih =>
    unfold stdSort
    exact (stdSortInsert_perm pred v _).trans (List.Perm.cons v ih)

theorem sortRange_length (sort : (float2 → float2 → Bool) → List float2 → List float2)
    (hperm : ∀ pred l, (sort pred l).Perm l) (pred : float2 → float2 → Bool)
    (p : List float2) (n : Nat) (h1 : 1 ≤ n) (hn : n ≤ p.length) :
    (sortRange sort pred p n).length = p.length := by
  simp only [sortRange, List.length_append, (hperm pred _).length_eq, List.length_take,
    List.length_drop]
  omega

theorem sortRange_mem (sort : (float2 → float2 → Bool) → List float2 → List float2)
    (hperm : ∀ pred l, (sort pred l).Perm l) (pred : float2 → float2 → Bool)
    (p : List float2) (n : Nat) : ∀ x ∈ sortRange sort pred p n, x ∈ p := by
  intro x hx
  simp only [sortRange, List.mem_append] at hx
  rcases hx with (h | h) | h
  · exact List.mem_of_mem_take h
  · exact List.mem_of_mem_drop (List.mem_of_mem_take ((hperm pred _).mem_iff.mp h))
  · exact List.mem_of_mem_drop h

theorem findLowest_index (p : List float2) (n : Nat) : (findLowest p n).2 < max n 1 := by
  have := foldl_range'_inv (lowestStep p) (fun i s => s.2 < i) (n - 1) 1
    (p.getD 0 default, 0) (by simp)
    (fun i s _ _ hinv => by
      show (lowestStep p s i).2 < i + 1
      simp only [lowestStep]
      split
      · simp
      · exact Nat.lt_succ_of_lt hinv)
  simp only [findLowest]
  omega

theorem hullCore_count (sort : (float2 → float2 → Bool) → List float2 → List float2)
    (eqEps : ℚ) (p : List float2) (n : Nat) :
    2 ≤ (hullCore sort eqEps p n).2 ∧ (hullCore sort eqEps p n).2 ≤ max n 2 := by
  simp only [hullCore]
  have h1 := removePivotDuplicates_count eqEps (Swap p 0 (findLowest p n).2) n
  have h2 := removeDuplicates_count eqEps
    (sortRange sort (SortByPolarAngle (findLowest p n).1)
      (removePivotDuplicates eqEps (Swap p 0 (findLowest p n).2) n).1
      (removePivotDuplicates eqEps (Swap p 0 (findLowest p n).2) n).2)
    (removePivotDuplicates eqEps (Swap p 0 (findLowest p n).2) n).2
  have h3 := grahamScan_count
    (removeDuplicates eqEps
      (sortRange sort (SortByPolarAngle (findLowest p n).1)
        (removePivotDuplicates eqEps (Swap p 0 (findLowest p n).2) n).1
        (removePivotDuplicates eqEps (Swap p 0 (findLowest p n).2) n).2)
      (removePivotDuplicates eqEps (Swap p 0 (findLowest p n).2) n).2).1
    (removeDuplicates eqEps
      (sortRange sort (SortByPolarAngle (findLowest p n).1)
        (removePivotDuplicates eqEps (Swap p 0 (findLowest p n).2) n).1
        (removePivotDuplicates eqEps (Swap p 0 (findLowest p n).2) n).2)
      (removePivotDuplicates eqEps (Swap p 0 (findLowest p n).2) n).2).2
  omega

theorem hullCore_mem (sort : (float2 → float2 → Bool) → List float2 → List float2)
    (hperm : ∀ pred l, (sort pred l).Perm l) (eqEps : ℚ) (p : List float2) (n : Nat)
    (hn : n ≤ p.length) (hp : 0 < p.length) :
    (hullCore sort eqEps p n).1.length = p.length ∧
      ∀ x ∈ (hullCore sort eqEps p n).1, x ∈ p := by
  simp only [hullCore]
  have hlow := findLowest_index p n
  generalize hp1 : Swap p 0 (findLowest p n).2 = p1
  have hl1 : p1.length = p.length := by rw [← hp1, Swap_length]
  have hm1 : ∀ x ∈ p1, x ∈ p := fun x hx =>
    Swap_mem p 0 _ x hp (by omega) (hp1 ▸ hx)
  have hc1 := removePivotDuplicates_count eqEps p1 n
  have hm2 := removePivotDuplicates_mem eqEps p1 n (by omega)
  generalize removePivotDuplicates eqEps p1 n = c1 at hc1 hm2
  have hl3 := sortRange_length sort hperm (SortByPolarAngle (findLowest p n).1) c1.1 c1.2
    hc1.1 (by omega)
  have hm3 := sortRange_mem sort hperm (SortByPolarAngle (findLowest p n).1) c1.1 c1.2
  generalize sortRange sort (SortByPolarAngle (findLowest p n).1) c1.1 c1.2 = p2 at hl3 hm3
  have hc2 := removeDuplicates_count eqEps p2 c1.2
  have hm4 := removeDuplicates_mem eqEps p2 c1.2 (by omega)
  generalize removeDuplicates eqEps p2 c1.2 = c2 at hc2 hm4
  have hc3 := grahamScan_count c2.1 c2.2
  have hm5 := grahamScan_mem c2.1 c2.2 (by omega)
  refine ⟨by omega, fun x hx => ?_⟩
  exact hm1 x (hm2 x (hm3 x (hm4 x (hm5 x hx))))

end float2

namespace float2

/-! ### The compacted prefix as a subsequence -/

theorem take_set_le (q : List float2) (k m : Nat) (v : float2) (h : m ≤ k) :
    (q.set k v).take m = q.take m := by
  apply List.ext_getElem?
  intro i
  rw [List.getElem?_take, List.getElem?_take]
  split
  · rw [List.getElem?_set_ne (by omega)]
  · rfl

theorem take_set_succ (q : List float2) (k : Nat) (v : float2) (h : k < q.length) :
    (q.set k v).take (k + 1) = q.take k ++ [v] := by
  rw [List.take_succ, take_set_le q k k v (le_refl k)]
  simp [List.getElem?_set, h]

theorem take_succ_getD (p : List float2) (i : Nat) (h : i < p.length) :
    p.take (i + 1) = p.take i ++ [p.getD i default] := by
  rw [List.take_succ]
  simp [List.getD_eq_getElem?_getD, List.getElem?_eq_getElem h]

theorem getD_take (q : List float2) (k m : Nat) (d : float2) (h : k < m) :
    (q.take m).getD k d = q.getD k d := by
  simp [List.getD_eq_getElem?_getD, List.getElem?_take, h]

theorem CompactK_write (p : List float2) (i : Nat) (s : List float2 × Nat)
    (hi : i < p.length) (h : CompactK p i s) :
    CompactK p (i + 1) (s.1.set (s.2 + 1) (s.1.getD i default), s.2 + 1) := by
  obtain ⟨hl, hd, h0, hun, hsub⟩ := h
  have hpi : s.1.getD i default = p.getD i default := hun i (le_refl i)
  refine ⟨by simp [hl], by simp; omega, ?_, ?_, ?_⟩
  · simp only []
    rw [getD_set_ne _ _ _ _ _ (by omega)]
    exact h0
  · intro j hj
    simp only []
    rw [getD_set_ne _ _ _ _ _ (by omega)]
    exact hun j (by omega)
  · simp only []
    rw [take_set_succ _ _ _ (by omega), take_succ_getD p i hi, hpi]
    exact hsub.append (List.Sublist.refl _)

theorem CompactK_skip (p : List float2) (i : Nat) (s : List float2 × Nat)
    (h : CompactK p i s) : CompactK p (i + 1) s := by
  obtain ⟨hl, hd, h0, hun, hsub⟩ := h
  refine ⟨hl, by omega, h0, fun j hj => hun j (by omega), ?_⟩
  exact hsub.trans ((List.take_sublist_take_left p (Nat.le_succ i)))

theorem CompactK_init (p : List float2) : CompactK p 1 (p, 0) :=
  ⟨rfl, by simp, rfl, fun _ _ => rfl, List.Sublist.refl _⟩

theorem removePivotDuplicates_spec (eqEps : ℚ) (p : List float2) (n : Nat)
    (h1 : 1 ≤ n) (hn : n ≤ p.length) :
    CompactK p n ((removePivotDuplicates eqEps p n).1, (removePivotDuplicates eqEps p n).2 - 1) ∧
    ∀ k, 1 ≤ k → k < (removePivotDuplicates eqEps p n).2 →
      ((removePivotDuplicates eqEps p n).1.getD k default).Equals (p.getD 0 default) eqEps
        = false := by
  have key := foldl_range'_inv (pivotDupStep eqEps)
    (fun i s => CompactK p i s ∧ ∀ k, 1 ≤ k → k ≤ s.2 →
      (s.1.getD k default).Equals (p.getD 0 default) eqEps = false) (n - 1) 1 (p, 0)
    ⟨CompactK_init p, fun k hk1 hk2 => by simp at hk2; omega⟩
    (fun i s _ hlt hinv => by
      obtain ⟨hK, hE⟩ := hinv
      show CompactK p (i + 1) (pivotDupStep eqEps s i) ∧ _
      unfold pivotDupStep
      split
      · rename_i htest
        refine ⟨CompactK_write p i s (by omega) hK, ?_⟩
        intro k hk1 hk2
        simp only [] at hk2 ⊢
        by_cases hkd : k = s.2 + 1
        · subst hkd
          rw [getD_set_self _ _ _ _ (by have := hK.1; have := hK.2.1; omega)]
          rw [← hK.2.2.1]
          simpa using htest
        · rw [getD_set_ne _ _ _ _ _ (by omega)]
          exact hE k hk1 (by omega)
      · exact ⟨CompactK_skip p i s hK, hE⟩)
  have e : 1 + (n - 1) = n := by omega
  rw [e] at key
  simp only [removePivotDuplicates, Nat.add_sub_cancel]
  exact ⟨key.1, fun k hk1 hk2 => key.2 k hk1 (by omega)⟩

theorem removeDuplicates_spec (eqEps : ℚ) (p : List float2) (n : Nat)
    (h1 : 1 ≤ n) (hn : n ≤ p.length) :
    CompactK p n ((removeDuplicates eqEps p n).1, (removeDuplicates eqEps p n).2 - 1) ∧
    ∀ k, 1 ≤ k → k < (removeDuplicates eqEps p n).2 →
      ((removeDuplicates eqEps p n).1.getD k default).Equals
        ((removeDuplicates eqEps p n).1.getD (k - 1) default) eqEps = false := by
  have key := foldl_range'_inv (dupStep eqEps)
    (fun i s => CompactK p i s ∧ ∀ k, 1 ≤ k → k ≤ s.2 →
      (s.1.getD k default).Equals (s.1.getD (k - 1) default) eqEps = false) (n - 1) 1 (p, 0)
    ⟨CompactK_init p, fun k hk1 hk2 => by simp at hk2; omega⟩
    (fun i s _ hlt hinv => by
      obtain ⟨hK, hE⟩ := hinv
      show CompactK p (i + 1) (dupStep eqEps s i) ∧ _
      unfold dupStep
      split
      · rename_i htest
        refine ⟨CompactK_write p i s (by omega) hK, ?_⟩
        intro k hk1 hk2
        simp only [] at hk2 ⊢
        by_cases hkd : k = s.2 + 1
        · subst hkd
          rw [getD_set_self _ _ _ _ (by have := hK.1; have := hK.2.1; omega)]
          rw [Nat.add_sub_cancel, getD_set_ne _ _ _ _ _ (by omega)]
          simpa using htest
        · rw [getD_set_ne _ _ _ _ _ (by omega), getD_set_ne _ _ _ _ _ (by omega)]
          exact hE k hk1 (by omega)
      · exact ⟨CompactK_skip p i s hK, hE⟩)
  have e : 1 + (n - 1) = n := by omega
  rw [e] at key
  simp only [removeDuplicates, Nat.add_sub_cancel]
  exact ⟨key.1, fun k hk1 hk2 => key.2 k hk1 (by omega)⟩

/-! ### The scan loop -/

theorem popLoop_spec (q : List float2) (pi : float2) :
    ∀ (h : Nat) (a d : float2) (dir : ℚ), 1 ≤ h →
      a = q.getD h default - q.getD (h - 1) default →
      d = pi - q.getD (h - 1) default → dir = scanDir d a →
      (popLoop q pi h a d dir).1 ≤ h ∧
      (1 ≤ (popLoop q pi h a d dir).1 →
        keeps (q.getD ((popLoop q pi h a d dir).1 - 1) default)
          (q.getD (popLoop q pi h a d dir).1 default) pi) := by
  intro h
  induction h with
  | zero => intro a d dir h1; omega
  | succ h ih =>
    intro a d dir _ ha hd hdir
    unfold popLoop
    split
    · split
      · rename_i hh
        have := ih (q.getD h default - q.getD (h - 1) default) (pi - q.getD (h - 1) default)
          (scanDir (pi - q.getD (h - 1) default) (q.getD h default - q.getD (h - 1) default))
          hh rfl rfl rfl
        exact ⟨Nat.le_succ_of_le this.1, this.2⟩
      · exact ⟨Nat.le_succ h, fun h1 => by rename_i hh; simp only [] at h1; omega⟩
    · rename_i hc
      refine ⟨le_refl _, fun _ => ?_⟩
      simp only [Nat.add_sub_cancel] at ha hd ⊢
      unfold keeps
      rw [← ha, ← hd, ← hdir]
      simpa using hc

theorem scanStep_K (p : List float2) (i : Nat) (s : List float2 × Nat × float2)
    (hi : i < p.length) (h : ScanK p i s) : ScanK p (i + 1) (scanStep s i) := by
  obtain ⟨hl, h1, h2, h0, hun, ha, hsub, hkeep⟩ := h
  have hpi : s.1.getD i default = p.getD i default := hun i (le_refl i)
  have hpop := popLoop_spec s.1 (s.1.getD i default) s.2.1 s.2.2
    (s.1.getD i default - s.1.getD (s.2.1 - 1) default)
    (scanDir (s.1.getD i default - s.1.getD (s.2.1 - 1) default) s.2.2) h1 ha rfl rfl
  simp only [scanStep]
  generalize (popLoop s.1 (s.1.getD i default) s.2.1 s.2.2
    (s.1.getD i default - s.1.getD (s.2.1 - 1) default)
    (scanDir (s.1.getD i default - s.1.getD (s.2.1 - 1) default) s.2.2)).1 = h' at hpop
  obtain ⟨hle, hk'⟩ := hpop
  refine ⟨by simp [hl], by simp, by simp only []; omega, ?_, ?_, ?_, ?_, ?_⟩
  · simp only []
    rw [getD_set_ne _ _ _ _ _ (by omega)]
    exact h0
  · intro j hj
    simp only []
    rw [getD_set_ne _ _ _ _ _ (by omega)]
    exact hun j (by omega)
  · simp only []
    rw [getD_set_self _ _ _ _ (by omega)]
  · simp only []
    rw [take_set_succ _ _ _ (by omega), take_succ_getD p i hi, hpi]
    exact ((List.take_sublist_take_left s.1 (by omega : h' + 1 ≤ s.2.1 + 1)).trans hsub).append
      (List.Sublist.refl _)
  · intro k hk
    simp only [] at hk ⊢
    rw [getD_set_ne _ _ _ _ _ (by omega), getD_set_ne _ _ _ _ _ (by omega)]
    by_cases hkk : k + 2 = h' + 1
    · rw [hkk, getD_set_self _ _ _ _ (by omega)]
      have e1 : k = h' - 1 := by omega
      have e2 : k + 1 = h' := by omega
      rw [e2, e1]
      exact hk' (by omega)
    · rw [getD_set_ne _ _ _ _ _ (by omega)]
      exact hkeep k (by omega)

theorem grahamScan_K (p : List float2) (n : Nat) (h2 : 2 ≤ n) (hn : n ≤ p.length) :
    ScanK p n (grahamScan p n) := by
  have key := foldl_range'_inv scanStep (ScanK p) (n - 2) 2
    (p, 1, p.getD 1 default - p.getD 0 default)
    ⟨rfl, le_refl 1, by simp, rfl, fun _ _ => rfl, rfl, List.Sublist.refl _,
      fun k hk => by simp at hk⟩
    (fun i s _ hlt hinv => scanStep_K p i s (by omega) hinv)
  have e : 2 + (n - 2) = n := by omega
  rw [e] at key
  exact key

end float2

namespace float2

/-! ### Pivot search, swap and sorted range -/

@[simp] theorem sub_x (a b : float2) : (a - b).x = a.x - b.x := rfl

@[simp] theorem sub_y (a b : float2) : (a - b).y = a.y - b.y := rfl

theorem lexLt_irrefl (a : float2) : ¬ lexLt a a := by
  unfold lexLt
  intro h
  rcases h with h | ⟨_, h⟩ <;> exact lt_irrefl _ h

theorem lexLt_trans (a b c : float2) (h1 : lexLt a b) (h2 : lexLt b c) : lexLt a c := by
  unfold lexLt at *
  rcases h1 with h1 | ⟨e1, h1⟩ <;> rcases h2 with h2 | ⟨e2, h2⟩
  · exact Or.inl (lt_trans h1 h2)
  · exact Or.inl (e2 ▸ h1)
  · exact Or.inl (e1 ▸ h2)
  · exact Or.inr ⟨e1.trans e2, lt_trans h1 h2⟩

theorem findLowest_spec (p : List float2) (n : Nat) :
    (findLowest p n).2 < max n 1 ∧
    (findLowest p n).1 = p.getD (findLowest p n).2 default ∧
    ∀ j, j < max n 1 → ¬ lexLt (p.getD j default) (findLowest p n).1 := by
  have key := foldl_range'_inv (lowestStep p)
    (fun i s => s.2 < i ∧ s.1 = p.getD s.2 default ∧
      ∀ j, j < i → ¬ lexLt (p.getD j default) s.1) (n - 1) 1
    (p.getD 0 default, 0)
    ⟨by simp, rfl, fun j hj => by
      have : j = 0 := by omega
      subst this
      exact lexLt_irrefl _⟩
    (fun i s _ _ hinv => by
      obtain ⟨h1, h2, h3⟩ := hinv
      show (lowestStep p s i).2 < i + 1 ∧ _
      simp only [lowestStep]
      split
      · rename_i hc
        refine ⟨by simp, rfl, fun j hj hl => ?_⟩
        by_cases hji : j = i
        · subst hji
          exact lexLt_irrefl _ hl
        · exact h3 j (by omega) (lexLt_trans _ _ _ hl hc)
      · rename_i hc
        refine ⟨by omega, h2, fun j hj => ?_⟩
        by_cases hji : j = i
        · subst hji
          exact hc
        · exact h3 j (by omega))
  have e : 1 + (n - 1) = max n 1 := by omega
  rw [e] at key
  exact key

theorem Swap_getD (p : List float2) (i j k : Nat) (hi : i < p.length) (hj : j < p.length) :
    (Swap p i j).getD k default =
      if k = j then p.getD i default else if k = i then p.getD j default
      else p.getD k default := by
  unfold Swap
  by_cases hkj : k = j
  · subst hkj
    rw [getD_set_self _ _ _ _ (by simpa using hj)]
    simp
  · rw [getD_set_ne _ _ _ _ _ (Ne.symm hkj)]
    by_cases hki : k = i
    · subst hki
      rw [getD_set_self _ _ _ _ hi]
      simp [hkj]
    · rw [getD_set_ne _ _ _ _ _ (Ne.symm hki)]
      simp [hkj, hki]

theorem tail_take_eq (p : List float2) (n : Nat) :
    (p.drop 1).take (n - 1) = (p.take n).tail := by
  cases p with
  | nil => simp
  | cons x t =>
    cases n with
    | zero => simp
    | succ m => simp

theorem sortRange_getD_zero (sort : (float2 → float2 → Bool) → List float2 → List float2)
    (pred : float2 → float2 → Bool) (p : List float2) (n : Nat) (hp : 0 < p.length) :
    (sortRange sort pred p n).getD 0 default = p.getD 0 default := by
  cases p with
  | nil => simp at hp
  | cons x t => simp [sortRange]

theorem sortRange_take_tail (sort : (float2 → float2 → Bool) → List float2 → List float2)
    (hperm : ∀ pred l, (sort pred l).Perm l) (pred : float2 → float2 → Bool)
    (p : List float2) (n : Nat) (h1 : 1 ≤ n) (hn : n ≤ p.length) :
    ((sortRange sort pred p n).take n).tail = sort pred ((p.take n).tail) := by
  unfold sortRange
  rw [tail_take_eq]
  have hlen : (p.take 1 ++ sort pred ((p.take n).tail)).length = n := by
    simp only [List.length_append, (hperm pred _).length_eq, List.length_take,
      List.length_tail]
    omega
  rw [List.take_left' hlen]
  cases p with
  | nil => simp at hn; omega
  | cons x t => simp

/-! ### The polar-angle comparator above the pivot -/

theorem SortByPolarAngle_false_iff (P a b : float2) :
    SortByPolarAngle P a b = false ↔ (a - P).PerpDot (b - P) ≤ 0 := by
  simp only [SortByPolarAngle, PerpDot, decide_eq_false_iff_not, not_lt, sub_x, sub_y]
  constructor <;> intro h <;> linarith

theorem SortByPolarAngle_asymm (P a b : float2) (h : SortByPolarAngle P a b = true) :
    SortByPolarAngle P b a = false := by
  simp only [SortByPolarAngle, decide_eq_true_eq, decide_eq_false_iff_not, not_lt, sub_x,
    sub_y] at h ⊢
  linarith

theorem SortByPolarAngle_negtrans (P a b c : float2) (ha : above P a) (hb : above P b)
    (hc : above P c) (h1 : SortByPolarAngle P a b = false)
    (h2 : SortByPolarAngle P b c = false) : SortByPolarAngle P a c = false := by
  simp only [SortByPolarAngle, decide_eq_false_iff_not, not_lt, sub_x, sub_y] at h1 h2 ⊢
  unfold above at ha hb hc
  have hay : 0 ≤ a.y - P.y := by rcases ha with h | ⟨h, _⟩ <;> linarith
  have hcy : 0 ≤ c.y - P.y := by rcases hc with h | ⟨h, _⟩ <;> linarith
  rcases hb with hb | ⟨hb1, hb2⟩
  · have hby : 0 < b.y - P.y := by linarith
    by_contra hcon
    push_neg at hcon
    nlinarith [mul_nonneg hay (sub_nonneg.mpr h2), mul_nonneg hcy (sub_nonneg.mpr h1),
      mul_pos hby (sub_pos.mpr hcon)]
  · have hby : b.y - P.y = 0 := by linarith
    have hbx : 0 < b.x - P.x := by linarith
    rw [hby] at h1 h2
    have hcy0 : c.y - P.y = 0 := by
      have : (b.x - P.x) * (c.y - P.y) ≤ 0 := by nlinarith
      have : c.y - P.y ≤ 0 := by
        by_contra hh
        push_neg at hh
        nlinarith [mul_pos hbx hh]
      linarith
    have hcx : 0 < c.x - P.x := by
      rcases hc with h | ⟨_, h⟩
      · linarith
      · linarith
    rw [hcy0]
    nlinarith [mul_nonneg hay hcx.le]

theorem above_of_not_lexLt (P x : float2) (h : ¬ lexLt x P) (hne : x ≠ P) : above P x := by
  unfold lexLt at h
  unfold above
  push_neg at h
  rcases lt_or_eq_of_le h.1 with h1 | h1
  · exact Or.inl h1
  · refine Or.inr ⟨h1.symm, ?_⟩
    rcases lt_or_eq_of_le (h.2 h1.symm) with h2 | h2
    · exact h2
    · exfalso
      apply hne
      cases x
      cases P
      simp only [mk.injEq] at *
      exact ⟨h2.symm, h1.symm⟩

theorem Equals_self (x : float2) (eqEps : ℚ) (h : 0 < eqEps) : x.Equals x eqEps = true := by
  simp [Equals, EqualAbs, h]

end float2

namespace float2

/-! ### Entries of a prefix and of its tail -/

theorem mem_take_of_getD (l : List float2) (k n : Nat) (hk : k < n) (hl : k < l.length) :
    l.getD k default ∈ l.take n := by
  rw [← getD_take l k n default hk]
  exact getD_mem _ k default (by simp [List.length_take]; omega)

theorem exists_of_mem_take (l : List float2) (n : Nat) (x : float2) (hx : x ∈ l.take n) :
    ∃ k, k < n ∧ k < l.length ∧ l.getD k default = x := by
  obtain ⟨k, hk, rfl⟩ := List.mem_iff_getElem.mp hx
  have hk' : k < n ∧ k < l.length := by
    simp [List.length_take] at hk
    omega
  refine ⟨k, hk'.1, hk'.2, ?_⟩
  rw [List.getD_eq_getElem _ _ hk'.2]
  simp

theorem exists_of_mem_tail_take (l : List float2) (m : Nat) (x : float2)
    (hx : x ∈ (l.take m).tail) :
    ∃ k, 1 ≤ k ∧ k < m ∧ k < l.length ∧ l.getD k default = x := by
  obtain ⟨k, hk, rfl⟩ := List.mem_iff_getElem.mp hx
  have hk' : k + 1 < m ∧ k + 1 < l.length := by
    simp [List.length_take] at hk
    omega
  refine ⟨k + 1, by omega, hk'.1, hk'.2, ?_⟩
  rw [List.getD_eq_getElem _ _ hk'.2]
  simp

theorem getD_mem_tail_take (l : List float2) (k m : Nat) (h1 : 1 ≤ k) (hk : k < m)
    (hl : k < l.length) : l.getD k default ∈ (l.take m).tail := by
  apply List.mem_iff_getElem.mpr
  have hlen : k - 1 < (l.take m).tail.length := by
    simp [List.length_take]
    omega
  refine ⟨k - 1, hlen, ?_⟩
  rw [List.getD_eq_getElem _ _ hl]
  simp only [List.getElem_tail, List.getElem_take]
  congr 1
  omega

/-- Two entries of a prefix, in order, are related when its tail is pairwise related. -/
theorem pairwise_tail_take_getD (R : float2 → float2 → Prop) (l : List float2) (m : Nat)
    (hR : ((l.take m).tail).Pairwise R) (j k : Nat) (h1 : 1 ≤ j) (hjk : j < k) (hk : k < m)
    (hl : k < l.length) : R (l.getD j default) (l.getD k default) := by
  have hlenj : j - 1 < (l.take m).tail.length := by
    simp [List.length_take]
    omega
  have hlenk : k - 1 < (l.take m).tail.length := by
    simp [List.length_take]
    omega
  have := (List.pairwise_iff_getElem.mp hR) (j - 1) (k - 1) hlenj hlenk (by omega)
  simp only [List.getElem_tail, List.getElem_take] at this
  rw [List.getD_eq_getElem _ _ (by omega : j < l.length), List.getD_eq_getElem _ _ hl]
  have ej : j - 1 + 1 = j := by omega
  have ek : k - 1 + 1 = k := by omega
  simp only [ej, ek] at this
  exact this

end float2

namespace float2

/-! ### What the pivot, compaction, sort and scan stages establish together -/

theorem grahamScan_one (p : List float2) (n : Nat) (h : n ≤ 2) :
    grahamScan p n = (p, 1, p.getD 1 default - p.getD 0 default) := by
  have e : n - 2 = 0 := by omega
  simp [grahamScan, e]

theorem hullCore_facts (sort : (float2 → float2 → Bool) → List float2 → List float2)
    (hs : SortSpec sort) (eqEps : ℚ) (heps : 0 < eqEps) (p : List float2) (n : Nat)
    (h1 : 1 ≤ n) (hn : n ≤ p.length) :
    (hullCore sort eqEps p n).1.getD 0 default = (findLowest p n).1 ∧
    (findLowest p n).1 ∈ p.take n ∧
    (∀ j, j < n → ¬ lexLt (p.getD j default) (findLowest p n).1) ∧
    (3 ≤ (hullCore sort eqEps p n).2 →
      (((hullCore sort eqEps p n).1.take (hullCore sort eqEps p n).2).tail).Pairwise
        (fun a b => SortByPolarAngle (findLowest p n).1 b a = false) ∧
      (∀ x ∈ ((hullCore sort eqEps p n).1.take (hullCore sort eqEps p n).2).tail,
        x ∈ p.take n ∧ x.Equals (findLowest p n).1 eqEps = false ∧
          above (findLowest p n).1 x) ∧
      (∀ k, k + 2 < (hullCore sort eqEps p n).2 →
        keeps ((hullCore sort eqEps p n).1.getD k default)
          ((hullCore sort eqEps p n).1.getD (k + 1) default)
          ((hullCore sort eqEps p n).1.getD (k + 2) default))) := by
  obtain ⟨hperm, hsorted⟩ := hs
  have hmax : max n 1 = n := by omega
  obtain ⟨hlow1, hlow2, hlow3⟩ := findLowest_spec p n
  rw [hmax] at hlow1 hlow3
  simp only [hullCore]
  generalize hP : (findLowest p n).1 = P at hlow2 hlow3 ⊢
  generalize hidx : (findLowest p n).2 = idx at hlow1 hlow2 ⊢
  -- the pivot is swapped to the front
  have hl1 : (Swap p 0 idx).length = p.length := Swap_length p 0 idx
  have hp10 : (Swap p 0 idx).getD 0 default = P := by
    rw [Swap_getD p 0 idx 0 (by omega) (by omega), hlow2]
    split
    · rename_i h0
      rw [← h0]
    · simp
  have hp1mem : ∀ x ∈ (Swap p 0 idx).take n, x ∈ p.take n := by
    intro x hx
    obtain ⟨k, hk1, hk2, rfl⟩ := exists_of_mem_take _ n x hx
    rw [Swap_getD p 0 idx k (by omega) (by omega)]
    split
    · exact mem_take_of_getD p 0 n (by omega) (by omega)
    · split
      · exact mem_take_of_getD p idx n hlow1 (by omega)
      · exact mem_take_of_getD p k n hk1 (by rw [← hl1]; exact hk2)
  generalize Swap p 0 idx = p1 at hl1 hp10 hp1mem
  -- the duplicates of the pivot are removed
  have hc1 := removePivotDuplicates_count eqEps p1 n
  obtain ⟨hK1, hE1⟩ := removePivotDuplicates_spec eqEps p1 n h1 (by omega)
  generalize removePivotDuplicates eqEps p1 n = c1 at hc1 hK1 hE1
  obtain ⟨hc1a, hc1b, hc1l⟩ := hc1
  obtain ⟨-, -, hc10, -, hsub1⟩ := hK1
  simp only [] at hc10 hsub1
  rw [Nat.sub_add_cancel hc1a] at hsub1
  rw [hp10] at hc10 hE1
  have hfacts1 : ∀ x ∈ (c1.1.take c1.2).tail,
      x ∈ p.take n ∧ x.Equals P eqEps = false ∧ above P x := by
    intro x hx
    have hxp : x ∈ p.take n := hp1mem x (hsub1.subset (List.mem_of_mem_tail hx))
    obtain ⟨k, hk1, hk2, hk3, rfl⟩ := exists_of_mem_tail_take _ _ x hx
    have hne := hE1 k hk1 hk2
    refine ⟨hxp, hne, ?_⟩
    obtain ⟨j, hj1, hj2, hj3⟩ := exists_of_mem_take _ _ _ hxp
    apply above_of_not_lexLt
    · rw [← hj3]
      exact hlow3 j hj1
    · intro heq
      rw [heq, Equals_self P eqEps heps] at hne
      exact Bool.noConfusion hne
  -- the range is sorted around the pivot
  have hl3 := sortRange_length sort hperm (SortByPolarAngle P) c1.1 c1.2 hc1a (by omega)
  have hp30 := sortRange_getD_zero sort (SortByPolarAngle P) c1.1 c1.2 (by omega)
  have htail3 := sortRange_take_tail sort hperm (SortByPolarAngle P) c1.1 c1.2 hc1a (by omega)
  have hsorted3 : ((sortRange sort (SortByPolarAngle P) c1.1 c1.2).take c1.2).tail.Pairwise
      (fun a b => SortByPolarAngle P b a = false) := by
    rw [htail3]
    apply hsorted
    · intro a _ b _ hab
      exact SortByPolarAngle_asymm P a b hab
    · intro a ha b hb c hc hab hbc
      exact SortByPolarAngle_negtrans P a b c (hfacts1 a ha).2.2 (hfacts1 b hb).2.2
        (hfacts1 c hc).2.2 hab hbc
  have hfacts3 : ∀ x ∈ ((sortRange sort (SortByPolarAngle P) c1.1 c1.2).take c1.2).tail,
      x ∈ p.take n ∧ x.Equals P eqEps = false ∧ above P x := by
    intro x hx
    rw [htail3] at hx
    exact hfacts1 x ((hperm _ _).mem_iff.mp hx)
  rw [hc10] at hp30
  generalize sortRange sort (SortByPolarAngle P) c1.1 c1.2 = p3 at hl3 hp30 hsorted3 hfacts3
  -- consecutive duplicates are removed
  have hc2 := removeDuplicates_count eqEps p3 c1.2
  obtain ⟨hK2, -⟩ := removeDuplicates_spec eqEps p3 c1.2 hc1a (by omega)
  generalize removeDuplicates eqEps p3 c1.2 = c2 at hc2 hK2
  obtain ⟨hc2a, hc2b, hc2l⟩ := hc2
  obtain ⟨-, -, hc20, -, hsub2⟩ := hK2
  simp only [] at hc20 hsub2
  rw [Nat.sub_add_cancel hc2a] at hsub2
  rw [hp30] at hc20
  -- the scan
  have hcnt := grahamScan_count c2.1 c2.2
  by_cases h2 : 2 ≤ c2.2
  · obtain ⟨-, -, -, hs0, -, -, hsub3, hkeep⟩ := grahamScan_K c2.1 c2.2 h2 (by omega)
    rw [hc20] at hs0
    generalize grahamScan c2.1 c2.2 = s at hcnt hs0 hsub3 hkeep
    have hsubT : (s.1.take (s.2.1 + 1)).tail.Sublist (p3.take c1.2).tail :=
      (hsub3.trans hsub2).tail
    refine ⟨hs0, ?_, hlow3, fun _ => ⟨hsorted3.sublist hsubT,
      fun x hx => hfacts3 x (hsubT.subset hx), fun k hk => hkeep k (by omega)⟩⟩
    rw [hlow2]
    exact mem_take_of_getD p idx n hlow1 (by omega)
  · rw [grahamScan_one c2.1 c2.2 (by omega)]
    refine ⟨hc20, ?_, hlow3, fun h3 => ?_⟩
    · rw [hlow2]
      exact mem_take_of_getD p idx n hlow1 (by omega)
    · simp only [] at h3
      omega

end float2

namespace float2

/-! ### The insertion sort meets the contract of `std::sort` -/

theorem stdSortInsert_pairwise (pred : float2 → float2 → Bool) (v : float2) :
    ∀ l : List float2,
      (∀ a ∈ v :: l, ∀ b ∈ v :: l, pred a b = true → pred b a = false) →
      (∀ a ∈ v :: l, ∀ b ∈ v :: l, ∀ c ∈ v :: l,
        pred a b = false → pred b c = false → pred a c = false) →
      l.Pairwise (fun a b => pred b a = false) →
      (stdSortInsert pred v l).Pairwise (fun a b => pred b a = false) := by
  intro l
  induction l with
  | nil => intro _ _ _; simp [stdSortInsert]
  | cons e rest ih =>
    intro hasym htrans hpw
    rw [List.pairwise_cons] at hpw
    unfold stdSortInsert
    split
    · rename_i hev
      rw [List.pairwise_cons]
      constructor
      · intro a' ha'
        rcases List.mem_cons.mp ((stdSortInsert_perm pred v rest).mem_iff.mp ha') with h | h
        · subst h
          exact hasym e (by simp) a' (by simp) hev
        · exact hpw.1 a' h
      · apply ih
        · intro a ha b hb
          exact hasym a (by simp at ha ⊢; tauto) b (by simp at hb ⊢; tauto)
        · intro a ha b hb c hc
          exact htrans a (by simp at ha ⊢; tauto) b (by simp at hb ⊢; tauto) c
            (by simp at hc ⊢; tauto)
        · exact hpw.2
    · rename_i hev
      have hev' : pred e v = false := by simpa using hev
      rw [List.pairwise_cons]
      refine ⟨?_, List.pairwise_cons.mpr hpw⟩
      intro a' ha'
      rcases List.mem_cons.mp ha' with h | h
      · subst h
        exact hev'
      · exact htrans a' (by simp; tauto) e (by simp) v (by simp) (hpw.1 a' h) hev'

theorem stdSort_pairwise (pred : float2 → float2 → Bool) :
    ∀ l : List float2,
      (∀ a ∈ l, ∀ b ∈ l, pred a b = true → pred b a = false) →
      (∀ a ∈ l, ∀ b ∈ l, ∀ c ∈ l, pred a b = false → pred b c = false → pred a c = false) →
      (stdSort pred l).Pairwise (fun a b => pred b a = false) := by
  intro l
  induction l with
  | nil => intro _ _; simp [stdSort]
  | cons v rest ih =>
    intro hasym htrans
    unfold stdSort
    have hm : ∀ a, a ∈ v :: stdSort pred rest → a ∈ v :: rest := by
      intro a ha
      rcases List.mem_cons.mp ha with h | h
      · exact h ▸ List.mem_cons_self _ _
      · exact List.mem_cons_of_mem _ ((stdSort_perm pred rest).mem_iff.mp h)
    apply stdSortInsert_pairwise
    · intro a ha b hb
      exact hasym a (hm a ha) b (hm b hb)
    · intro a ha b hb c hc
      exact htrans a (hm a ha) b (hm b hb) c (hm c hc)
    · apply ih
      · intro a ha b hb
        exact hasym a (List.mem_cons_of_mem _ ha) b (List.mem_cons_of_mem _ hb)
      · intro a ha b hb c hc
        exact htrans a (List.mem_cons_of_mem _ ha) b (List.mem_cons_of_mem _ hb) c
          (List.mem_cons_of_mem _ hc)

theorem stdSort_spec : SortSpec stdSort :=
  ⟨stdSort_perm, stdSort_pairwise⟩

theorem stdSort_fix (pred : float2 → float2 → Bool) :
    ∀ l : List float2, l.Pairwise (fun a b => pred b a = false) → stdSort pred l = l := by
  intro l
  induction l with
  | nil => intro _; rfl
  | cons v rest ih =>
    intro hpw
    rw [List.pairwise_cons] at hpw
    unfold stdSort
    rw [ih hpw.2]
    cases rest with
    | nil => rfl
    | cons e r =>
      unfold stdSortInsert
      rw [hpw.1 e (List.mem_cons_self _ _)]
      simp

/-! ### The pruning step keeps at least one point -/

theorem findExtremes_bound (p : List float2) (n : Nat) :
    (findExtremes p n).minX < max n 1 ∧ (findExtremes p n).minY < max n 1 ∧
    (findExtremes p n).maxX < max n 1 ∧ (findExtremes p n).maxY < max n 1 := by
  have key := foldl_range'_inv (extremeStep p)
    (fun i e => e.minX < i ∧ e.minY < i ∧ e.maxX < i ∧ e.maxY < i) (n - 1) 1 ⟨0, 0, 0, 0⟩
    (by simp)
    (fun i e _ _ hinv => by
      obtain ⟨h1, h2, h3, h4⟩ := hinv
      show (extremeStep p e i).minX < i + 1 ∧ _
      simp only [extremeStep]
      split_ifs <;> refine ⟨?_, ?_, ?_, ?_⟩ <;> first | omega | (simp only []; omega))
  have e : 1 + (n - 1) = max n 1 := by omega
  rw [e] at key
  exact key

theorem pruneTest_minY (p : List float2) (e : Extremes) :
    pruneTest (pruneFrame p e) (p.getD e.minY default) = false := by
  simp [pruneTest, pruneFrame, pruneEps]

theorem pruneLoop_pos (f : PruneFrame) :
    ∀ (k : Nat) (p : List float2) (i : Nat), i + k ≤ p.length →
      (∃ j, i ≤ j ∧ j < i + k ∧ pruneTest f (p.getD j default) = false) →
      i < (pruneLoop f k p i).2 := by
  intro k
  induction k with
  | zero => intro p i _ ⟨j, h1, h2, _⟩; omega
  | succ k ih =>
    intro p i hlen ⟨j, h1, h2, h3⟩
    unfold pruneLoop
    split
    · rename_i ht
      apply ih _ _ (by rw [Swap_length]; omega)
      have hji : j ≠ i := by
        intro h
        rw [h, ht] at h3
        exact Bool.noConfusion h3
      by_cases hjk : j = i + k
      · refine ⟨i, le_refl i, by omega, ?_⟩
        rw [Swap_getD p i (i + k) i (by omega) (by omega)]
        split
        · rename_i h0
          omega
        · simp only [if_true]
          rw [← hjk]
          exact h3
      · refine ⟨j, h1, by omega, ?_⟩
        rw [Swap_getD p i (i + k) j (by omega) (by omega)]
        simp only [hjk, hji, if_false]
        exact h3
    · have := (pruneLoop_count f k p (i + 1)).1
      omega

theorem aklToussaint_pos (p : List float2) (n : Nat) (h1 : 1 ≤ n) (hn : n ≤ p.length) :
    1 ≤ (aklToussaint p n).2 := by
  have hb := (findExtremes_bound p n).2.1
  have := pruneLoop_pos (pruneFrame p (findExtremes p n)) n p 0 (by omega)
    ⟨(findExtremes p n).minY, Nat.zero_le _, by omega, pruneTest_minY p _⟩
  simp only [aklToussaint]
  omega

end float2

namespace float2

/-! ### The two branches of `ConvexHullInPlace` -/

theorem ConvexHullInPlaceWith_small (sort : (float2 → float2 → Bool) → List float2 → List float2)
    (eqEps : ℚ) (p : List float2) (n : Int) (h : n ≤ 2) :
    ConvexHullInPlaceWith sort eqEps p n = (p, n) := by
  simp [ConvexHullInPlaceWith, h]

theorem ConvexHullInPlaceWith_large (sort : (float2 → float2 → Bool) → List float2 → List float2)
    (eqEps : ℚ) (p : List float2) (n : Int) (h : ¬ n ≤ 2) :
    ConvexHullInPlaceWith sort eqEps p n =
      ((hullCore sort eqEps (if n ≥ 50 then aklToussaint p n.toNat else (p, n.toNat)).1
          (if n ≥ 50 then aklToussaint p n.toNat else (p, n.toNat)).2).1,
        (((hullCore sort eqEps (if n ≥ 50 then aklToussaint p n.toNat else (p, n.toNat)).1
          (if n ≥ 50 then aklToussaint p n.toNat else (p, n.toNat)).2).2 : Nat) : Int)) := by
  simp [ConvexHullInPlaceWith, h]

/-- The buffer and live count handed to the pivot search: the length is kept, the
count does not grow, and the entries come from the input. -/
theorem prune_stage (p : List float2) (n : Int) (hn : n.toNat ≤ p.length) :
    (if n ≥ 50 then aklToussaint p n.toNat else (p, n.toNat)).1.length = p.length ∧
    (if n ≥ 50 then aklToussaint p n.toNat else (p, n.toNat)).2 ≤ n.toNat ∧
    ∀ x ∈ (if n ≥ 50 then aklToussaint p n.toNat else (p, n.toNat)).1, x ∈ p := by
  split
  · exact ⟨aklToussaint_length p _, aklToussaint_count p _, aklToussaint_mem p _ hn⟩
  · exact ⟨rfl, le_refl _, fun x hx => hx⟩

end float2

namespace float2

/-! ### Consequences of the pop condition -/

theorem keeps_iff (u v w : float2) :
    keeps u v w ↔
      scanDir (w - u) (v - u) ≤ scanEpsilon ∧
      (scanDir (w - u) (v - u) ≤ -scanEpsilon ∨ (w - u).Dot (w - u) < (v - u).Dot (v - u)) := by
  unfold keeps popCond
  simp only [Bool.or_eq_false_iff, Bool.and_eq_false_iff, decide_eq_false_iff_not, not_lt,
    ge_iff_le, gt_iff_lt, not_le]

theorem scanDir_eq (u v w : float2) :
    scanDir (w - u) (v - u) = -((v - u).PerpDot (w - v)) := by
  simp only [scanDir, PerpDot, sub_x, sub_y]
  ring

theorem keeps_turn (u v w : float2) (h : keeps u v w) :
    -scanEpsilon ≤ (v - u).PerpDot (w - v) := by
  have := ((keeps_iff u v w).mp h).1
  rw [scanDir_eq] at this
  linarith

theorem keeps_ne (u v w : float2) (h : keeps u v w) : w ≠ v := by
  intro hwv
  subst hwv
  have h2 := ((keeps_iff u w w).mp h).2
  have hd : scanDir (w - u) (w - u) = 0 := by
    simp only [scanDir]
    ring
  rw [hd] at h2
  rcases h2 with h2 | h2
  · simp [scanEpsilon] at h2
    linarith
  · exact lt_irrefl _ h2

/-- The stage before the pivot search, for a buffer of at least three points. -/
theorem hull_stage (sort : (float2 → float2 → Bool) → List float2 → List float2)
    (eqEps : ℚ) (p : List float2) (h3 : 3 ≤ p.length) :
    ∃ (q : List float2) (m : Nat), q.length = p.length ∧ 1 ≤ m ∧ m ≤ p.length ∧
      (∀ x ∈ q, x ∈ p) ∧
      ConvexHullInPlaceWith sort eqEps p (p.length : Int) =
        ((hullCore sort eqEps q m).1, (((hullCore sort eqEps q m).2 : Nat) : Int)) := by
  have hlarge : ¬ (p.length : Int) ≤ 2 := by omega
  rw [ConvexHullInPlaceWith_large sort eqEps p _ hlarge]
  have hs := prune_stage p (p.length : Int) (by simp)
  have hpos : 1 ≤ (if (p.length : Int) ≥ 50 then aklToussaint p (p.length : Int).toNat
      else (p, (p.length : Int).toNat)).2 := by
    split
    · exact aklToussaint_pos p _ (by simp; omega) (by simp)
    · simp; omega
  generalize (if (p.length : Int) ≥ 50 then aklToussaint p (p.length : Int).toNat
    else (p, (p.length : Int).toNat)) = r at hs hpos
  exact ⟨r.1, r.2, hs.1, hpos, by have := hs.2.1; simp at this; exact this, hs.2.2, rfl⟩

end float2

namespace float2

/-! ### Turns of the returned hull -/

theorem perpDot_wrap_first (P u v : float2) :
    (P - v).PerpDot (u - P) = -((v - P).PerpDot (u - P)) := by
  simp only [PerpDot, sub_x, sub_y]
  ring

theorem perpDot_wrap_last (P u v : float2) :
    (v - u).PerpDot (P - v) = -((v - P).PerpDot (u - P)) := by
  simp only [PerpDot, sub_x, sub_y]
  ring

/-- Every circularly consecutive triple of a hull prefix turns left up to the scan
epsilon, given the facts the stages establish. -/
theorem turn_of_facts (H : List float2) (cnt : Nat) (P : float2) (h2 : 2 ≤ cnt)
    (hlen : cnt ≤ H.length) (h0 : H.getD 0 default = P)
    (hpw : 3 ≤ cnt → ((H.take cnt).tail).Pairwise (fun a b => SortByPolarAngle P b a = false))
    (hkeep : ∀ k, k + 2 < cnt →
      keeps (H.getD k default) (H.getD (k + 1) default) (H.getD (k + 2) default))
    (i : Nat) (hi : i < cnt) :
    -scanEpsilon ≤ turnAt H cnt i := by
  unfold turnAt
  have heps : (0 : ℚ) ≤ scanEpsilon := by simp [scanEpsilon]
  by_cases hc2 : cnt = 2
  · subst hc2
    have hi' : i = 0 ∨ i = 1 := by omega
    rcases hi' with rfl | rfl
    · simp only [PerpDot, sub_x, sub_y]
      norm_num
      nlinarith
    · simp only [PerpDot, sub_x, sub_y]
      norm_num
      nlinarith
  · have h3 : 3 ≤ cnt := by omega
    have hpw' := hpw h3
    by_cases hi0 : i = 0
    · subst hi0
      have e1 : (0 + cnt - 1) % cnt = cnt - 1 := by
        rw [Nat.zero_add]
        exact Nat.mod_eq_of_lt (by omega)
      have e2 : (0 + 1) % cnt = 1 := Nat.mod_eq_of_lt (by omega)
      rw [e1, e2, h0, perpDot_wrap_first]
      have := pairwise_tail_take_getD _ H cnt hpw' 1 (cnt - 1) (le_refl 1) (by omega)
        (by omega) (by omega)
      rw [SortByPolarAngle_false_iff] at this
      linarith
    · by_cases hil : i = cnt - 1
      · have e1 : (i + cnt - 1) % cnt = cnt - 2 := by
          have : i + cnt - 1 = cnt - 2 + cnt := by omega
          rw [this, Nat.add_mod_right]
          exact Nat.mod_eq_of_lt (by omega)
        have e2 : (i + 1) % cnt = 0 := by
          have : i + 1 = cnt := by omega
          rw [this, Nat.mod_self]
        rw [e1, e2, hil, h0, perpDot_wrap_last]
        have := pairwise_tail_take_getD _ H cnt hpw' (cnt - 2) (cnt - 1) (by omega) (by omega)
          (by omega) (by omega)
        rw [SortByPolarAngle_false_iff] at this
        linarith
      · have e1 : (i + cnt - 1) % cnt = i - 1 := by
          have : i + cnt - 1 = i - 1 + cnt := by omega
          rw [this, Nat.add_mod_right]
          exact Nat.mod_eq_of_lt (by omega)
        have e2 : (i + 1) % cnt = i + 1 := Nat.mod_eq_of_lt (by omega)
        rw [e1, e2]
        have := keeps_turn _ _ _ (hkeep (i - 1) (by omega))
        have e3 : i - 1 + 1 = i := by omega
        have e4 : i - 1 + 2 = i + 1 := by omega
        rw [e3, e4] at this
        exact this

end float2

namespace float2

/-! ### A second run on a hull -/

theorem set_getD_self (l : List float2) (i : Nat) : l.set i (l.getD i default) = l := by
  apply List.ext_getElem?
  intro k
  by_cases hk : i = k
  · subst hk
    by_cases h : i < l.length
    · rw [List.getElem?_set_self h, List.getD_eq_getElem _ _ h, List.getElem?_eq_getElem h]
    · rw [List.set_eq_of_length_le (by omega)]
  · rw [List.getElem?_set_ne hk]

theorem Swap_self (p : List float2) (i : Nat) : Swap p i i = p := by
  unfold Swap
  rw [set_getD_self, set_getD_self]

theorem findLowest_fix (p : List float2) (n : Nat)
    (h : ∀ j, j < n → ¬ lexLt (p.getD j default) (p.getD 0 default)) :
    findLowest p n = (p.getD 0 default, 0) := by
  have key := foldl_range'_inv (lowestStep p)
    (fun i s => s = (p.getD 0 default, 0)) (n - 1) 1 (p.getD 0 default, 0) rfl
    (fun i s _ hlt hinv => by
      subst hinv
      show lowestStep p _ i = _
      simp only [lowestStep]
      rw [if_neg]
      exact h i (by omega))
  exact key

theorem removePivotDuplicates_fix (eqEps : ℚ) (p : List float2) (n : Nat) (h1 : 1 ≤ n)
    (h : ∀ k, 1 ≤ k → k < n → (p.getD k default).Equals (p.getD 0 default) eqEps = false) :
    removePivotDuplicates eqEps p n = (p, n) := by
  have key := foldl_range'_inv (pivotDupStep eqEps)
    (fun i s => s = (p, i - 1)) (n - 1) 1 (p, 0) rfl
    (fun i s hi hlt hinv => by
      subst hinv
      show pivotDupStep eqEps _ i = _
      simp only [pivotDupStep]
      rw [h i hi (by omega)]
      have e : i - 1 + 1 = i := by omega
      simp only [Bool.not_false, if_true, e, set_getD_self, Nat.add_sub_cancel])
  simp only [removePivotDuplicates]
  rw [key]
  have e : 1 + (n - 1) - 1 + 1 = n := by omega
  simp only [e]

theorem removeDuplicates_fix (eqEps : ℚ) (p : List float2) (n : Nat) (h1 : 1 ≤ n)
    (h : ∀ k, 1 ≤ k → k < n →
      (p.getD k default).Equals (p.getD (k - 1) default) eqEps = false) :
    removeDuplicates eqEps p n = (p, n) := by
  have key := foldl_range'_inv (dupStep eqEps)
    (fun i s => s = (p, i - 1)) (n - 1) 1 (p, 0) rfl
    (fun i s hi hlt hinv => by
      subst hinv
      show dupStep eqEps _ i = _
      simp only [dupStep]
      rw [h i hi (by omega)]
      have e : i - 1 + 1 = i := by omega
      simp only [Bool.not_false, if_true, e, set_getD_self, Nat.add_sub_cancel])
  simp only [removeDuplicates]
  rw [key]
  have e : 1 + (n - 1) - 1 + 1 = n := by omega
  simp only [e]

theorem sortRange_fix (sort : (float2 → float2 → Bool) → List float2 → List float2)
    (pred : float2 → float2 → Bool) (p : List float2) (n : Nat) (h1 : 1 ≤ n)
    (h : sort pred ((p.take n).tail) = (p.take n).tail) : sortRange sort pred p n = p := by
  unfold sortRange
  rw [tail_take_eq, h]
  cases p with
  | nil => simp
  | cons x t =>
    cases n with
    | zero => omega
    | succ m => simp

theorem popLoop_keep (p : List float2) (pi : float2) (h : Nat) (a d : float2) (dir : ℚ)
    (hc : popCond dir d a = false) : popLoop p pi (h + 1) a d dir = (h + 1, a) := by
  unfold popLoop
  simp [hc]

theorem grahamScan_fix (p : List float2) (n : Nat) (h2 : 2 ≤ n)
    (h : ∀ k, k + 2 < n →
      keeps (p.getD k default) (p.getD (k + 1) default) (p.getD (k + 2) default)) :
    grahamScan p n = (p, n - 1, p.getD (n - 1) default - p.getD (n - 2) default) := by
  have key := foldl_range'_inv scanStep
    (fun i s => s = (p, i - 1, p.getD (i - 1) default - p.getD (i - 2) default))
    (n - 2) 2 (p, 1, p.getD 1 default - p.getD 0 default) rfl
    (fun i s hi hlt hinv => by
      subst hinv
      show scanStep _ i = _
      have hk := h (i - 2) (by omega)
      have e1 : i - 2 + 1 = i - 1 := by omega
      have e2 : i - 2 + 2 = i := by omega
      rw [e1, e2] at hk
      unfold keeps at hk
      have e3 : i - 1 = (i - 2) + 1 := by omega
      have e4 : i - 1 - 1 = i - 2 := by omega
      simp only [scanStep, e4]
      rw [e3, popLoop_keep p _ _ _ _ _ (by rw [← e3]; exact hk)]
      have e5 : i - 2 + 1 + 1 = i := by omega
      have e6 : i + 1 - 1 = i := by omega
      have e7 : i + 1 - 2 = i - 2 + 1 := by omega
      simp only [e5, e6, e7, set_getD_self, Nat.add_sub_cancel]
      rw [e1])
  have e : 2 + (n - 2) = n := by omega
  rw [e] at key
  exact key

end float2

namespace float2

theorem not_lexLt_of_above (P x : float2) (h : above P x) : ¬ lexLt x P := by
  unfold above at h
  unfold lexLt
  intro hl
  rcases h with h | ⟨h1, h2⟩ <;> rcases hl with hl | ⟨hl1, hl2⟩ <;> linarith

/-- A buffer that already has the shape of a hull is returned as it is by the stages
after the pruning block. -/
theorem hullCore_fix (sort : (float2 → float2 → Bool) → List float2 → List float2)
    (hfix : ∀ pred l, l.Pairwise (fun a b => pred b a = false) → sort pred l = l)
    (eqEps : ℚ) (H : List float2) (cnt : Nat) (h2 : 2 ≤ cnt)
    (hlow : ∀ j, j < cnt → ¬ lexLt (H.getD j default) (H.getD 0 default))
    (hE0 : ∀ k, 1 ≤ k → k < cnt →
      (H.getD k default).Equals (H.getD 0 default) eqEps = false)
    (hpw : ((H.take cnt).tail).Pairwise
      (fun a b => SortByPolarAngle (H.getD 0 default) b a = false))
    (hadj : ∀ k, 1 ≤ k → k < cnt →
      (H.getD k default).Equals (H.getD (k - 1) default) eqEps = false)
    (hkeep : ∀ k, k + 2 < cnt →
      keeps (H.getD k default) (H.getD (k + 1) default) (H.getD (k + 2) default)) :
    hullCore sort eqEps H cnt = (H, cnt) := by
  simp only [hullCore]
  rw [findLowest_fix H cnt hlow]
  simp only [Swap_self]
  rw [removePivotDuplicates_fix eqEps H cnt (by omega) hE0]
  simp only []
  rw [sortRange_fix sort _ H cnt (by omega) (hfix _ _ hpw)]
  rw [removeDuplicates_fix eqEps H cnt (by omega) hadj]
  simp only []
  rw [grahamScan_fix H cnt h2 hkeep]
  simp only []
  have e : cnt - 1 + 1 = cnt := by omega
  rw [e]

end float2

namespace float2

/-! ### The half-plane walk of `ConvexHullContains` -/

theorem IsZero_sub_self (x : float2) (eps : ℚ) (h : 0 ≤ eps) : (x - x).IsZero eps = true := by
  simp [IsZero, LengthSq, h]

theorem dot_rotated (n e : float2) : n.Dot e.Rotated90CCW = e.PerpDot n := by
  simp only [Dot, Rotated90CCW, PerpDot]
  ring

theorem containsLoop_zero (hull : List float2) (point : float2) (eps : ℚ) (i : Nat)
    (rest : List Nat) (j : Nat) (h : (point - hull.getD j default).IsZero eps = true) :
    containsLoop hull point eps (i :: rest) j = true := by
  unfold containsLoop
  simp only []
  rw [if_pos h]

theorem containsLoop_step (hull : List float2) (point : float2) (eps : ℚ) (i : Nat)
    (rest : List Nat) (j : Nat)
    (h : 0 ≤ (hull.getD i default - hull.getD j default).PerpDot (point - hull.getD j default))
    (hr : containsLoop hull point eps rest i = true) :
    containsLoop hull point eps (i :: rest) j = true := by
  unfold containsLoop
  simp only [dot_rotated]
  split
  · rfl
  · rw [if_neg (not_lt.mpr h)]
    exact hr

theorem perpDot_self (v : float2) : v.PerpDot v = 0 := by
  simp only [PerpDot]
  ring

theorem range_three (c : Nat) : List.range (c + 3) = 0 :: 1 :: 2 :: List.range' 3 c := by
  rw [List.range_eq_range', List.range'_succ, List.range'_succ, List.range'_succ]

theorem range_two (c : Nat) : List.range (c + 2) = 0 :: 1 :: List.range' 2 c := by
  rw [List.range_eq_range', List.range'_succ, List.range'_succ]

theorem range_one (c : Nat) : List.range (c + 1) = 0 :: List.range' 1 c := by
  rw [List.range_eq_range', List.range'_succ]

/-- The last vertex of a hull is reported as contained. -/
theorem contains_last (eps : ℚ) (he : 0 ≤ eps) (H : List float2) (c : Nat) (hc : 1 ≤ c) :
    ConvexHullContains eps H (c : Int) (H.getD (c - 1) default) = true := by
  obtain ⟨c', rfl⟩ : ∃ c', c = c' + 1 := ⟨c - 1, by omega⟩
  simp only [ConvexHullContains, Int.toNat_ofNat, range_one]
  apply containsLoop_zero
  have e : ((c' + 1 : Nat) : Int) - 1 = (c' : Int) := by push_cast; ring
  rw [e, Int.toNat_ofNat, Nat.add_sub_cancel]
  exact IsZero_sub_self _ eps he

/-- The first vertex of a hull is reported as contained. -/
theorem contains_first (eps : ℚ) (he : 0 ≤ eps) (H : List float2) (c : Nat) (hc : 2 ≤ c) :
    ConvexHullContains eps H (c : Int) (H.getD 0 default) = true := by
  obtain ⟨c', rfl⟩ : ∃ c', c = c' + 2 := ⟨c - 2, by omega⟩
  simp only [ConvexHullContains, Int.toNat_ofNat, range_two]
  apply containsLoop_step
  · rw [perpDot_self]
  · apply containsLoop_zero
    exact IsZero_sub_self _ eps he

/-- The second vertex of a hull is reported as contained when it is not after the last
one in the order around the first. -/
theorem contains_second (eps : ℚ) (he : 0 ≤ eps) (H : List float2) (c : Nat) (hc : 3 ≤ c)
    (hs : SortByPolarAngle (H.getD 0 default) (H.getD (c - 1) default) (H.getD 1 default)
      = false) :
    ConvexHullContains eps H (c : Int) (H.getD 1 default) = true := by
  obtain ⟨c', rfl⟩ : ∃ c', c = c' + 3 := ⟨c - 3, by omega⟩
  simp only [ConvexHullContains, Int.toNat_ofNat, range_three]
  have e : ((c' + 3 : Nat) : Int) - 1 = ((c' + 2 : Nat) : Int) := by push_cast; ring
  rw [e, Int.toNat_ofNat]
  rw [SortByPolarAngle_false_iff] at hs
  have e2 : c' + 3 - 1 = c' + 2 := by omega
  rw [e2] at hs
  apply containsLoop_step
  · have : (H.getD 0 default - H.getD (c' + 2) default).PerpDot
        (H.getD 1 default - H.getD (c' + 2) default) =
        -((H.getD (c' + 2) default - H.getD 0 default).PerpDot
          (H.getD 1 default - H.getD 0 default)) := by
      simp only [PerpDot, sub_x, sub_y]
      ring
    rw [this]
    linarith
  · apply containsLoop_step
    · rw [perpDot_self]
    · apply containsLoop_zero
      exact IsZero_sub_self _ eps he

end float2

namespace float2

/-! ### A pruning step that removes nothing -/

theorem pruneLoop_idle (f : PruneFrame) :
    ∀ (k : Nat) (p : List float2) (i : Nat),
      (∀ j, i ≤ j → j < i + k → pruneTest f (p.getD j default) = false) →
      pruneLoop f k p i = (p, i + k) := by
  intro k
  induction k with
  | zero => intro p i _; rfl
  | succ k ih =>
    intro p i h
    unfold pruneLoop
    rw [h i (le_refl i) (by omega)]
    simp only [Bool.false_eq_true, if_false]
    rw [ih p (i + 1) (fun j hj1 hj2 => h j (by omega) (by omega))]
    have e : i + 1 + k = i + (k + 1) := by omega
    rw [e]

theorem aklToussaint_idle (p : List float2) (n : Nat)
    (h : ∀ j, j < n → pruneTest (pruneFrame p (findExtremes p n)) (p.getD j default) = false) :
    aklToussaint p n = (p, n) := by
  simp only [aklToussaint]
  rw [pruneLoop_idle _ n p 0 (fun j _ hj => h j (by omega))]
  simp

end float2

namespace float2

/-! ### Half-planes, cones and triangles -/

/-- A vector `v` between `g1` and `g2` (counter-clockwise from `g1`, clockwise from
`g2`, the two less than a half turn apart) is on the left of `w` when both are. -/
theorem cone_left (g1 g2 w v : float2) (h12 : 0 < g1.PerpDot g2) (h1 : 0 ≤ g1.PerpDot v)
    (h2 : 0 ≤ v.PerpDot g2) (hw1 : 0 ≤ w.PerpDot g1) (hw2 : 0 ≤ w.PerpDot g2) :
    0 ≤ w.PerpDot v := by
  have key : g1.PerpDot g2 * w.PerpDot v =
      v.PerpDot g2 * w.PerpDot g1 + g1.PerpDot v * w.PerpDot g2 := by
    simp only [PerpDot]
    ring
  by_contra hneg
  push_neg at hneg
  nlinarith [mul_nonneg h2 hw1, mul_nonneg h1 hw2, mul_pos h12 (neg_pos.mpr hneg)]

/-- A point inside a counter-clockwise triangle of positive area (on the left of, or on,
its three edges) is on the left of every line that has the three corners on its left. -/
theorem leftOf_of_inside (u v q a b c : float2) (h1 : 0 ≤ (b - a).PerpDot (q - a))
    (h2 : 0 ≤ (c - b).PerpDot (q - b)) (h3 : 0 ≤ (a - c).PerpDot (q - c))
    (hpos : 0 < (b - a).PerpDot (q - a) + (c - b).PerpDot (q - b) + (a - c).PerpDot (q - c))
    (ha : leftOf u v a) (hb : leftOf u v b) (hc : leftOf u v c) : leftOf u v q := by
  unfold leftOf at *
  have key : ((b - a).PerpDot (q - a) + (c - b).PerpDot (q - b) + (a - c).PerpDot (q - c)) *
      (v - u).PerpDot (q - u) =
      (c - b).PerpDot (q - b) * (v - u).PerpDot (a - u) +
      (a - c).PerpDot (q - c) * (v - u).PerpDot (b - u) +
      (b - a).PerpDot (q - a) * (v - u).PerpDot (c - u) := by
    simp only [PerpDot, sub_x, sub_y]
    ring
  by_contra hneg
  push_neg at hneg
  nlinarith [mul_nonneg h2 ha, mul_nonneg h3 hb, mul_nonneg h1 hc,
    mul_pos hpos (neg_pos.mpr hneg)]

end float2

namespace float2

/-! ### The scan encloses the candidates it has read -/

theorem strict_of_keeps (u v w : float2) (h : keeps u v w)
    (hgp : scanEpsilon < |(v - u).PerpDot (w - u)|) : 0 < (v - u).PerpDot (w - u) := by
  have hk := ((keeps_iff u v w).mp h).1
  have hd : scanDir (w - u) (v - u) = -((v - u).PerpDot (w - u)) := by
    simp only [scanDir, PerpDot, sub_x, sub_y]
    ring
  rw [hd] at hk
  have he : (0 : ℚ) < scanEpsilon := by simp [scanEpsilon]
  rcases lt_abs.mp hgp with h1 | h1
  · linarith
  · linarith

theorem strict_of_not_keeps (u v w : float2) (h : ¬ keeps u v w)
    (hgp : scanEpsilon < |(v - u).PerpDot (w - u)|) : 0 < (w - u).PerpDot (v - u) := by
  rw [keeps_iff] at h
  have hd : scanDir (w - u) (v - u) = (w - u).PerpDot (v - u) := rfl
  have hd2 : (v - u).PerpDot (w - u) = -((w - u).PerpDot (v - u)) := by
    simp only [PerpDot, sub_x, sub_y]
    ring
  rw [hd] at h
  rw [hd2] at hgp
  have he : (0 : ℚ) < scanEpsilon := by simp [scanEpsilon]
  rcases lt_abs.mp hgp with h1 | h1
  · exfalso
    apply h
    exact ⟨by linarith, Or.inl (by linarith)⟩
  · linarith

theorem popLoop_popped (q : List float2) (pi : float2) :
    ∀ (h : Nat) (a d : float2) (dir : ℚ), 1 ≤ h →
      a = q.getD h default - q.getD (h - 1) default →
      d = pi - q.getD (h - 1) default → dir = scanDir d a →
      (popLoop q pi h a d dir).1 < h →
      ¬ keeps (q.getD (popLoop q pi h a d dir).1 default)
        (q.getD ((popLoop q pi h a d dir).1 + 1) default) pi := by
  intro h
  induction h with
  | zero => intro a d dir h1; omega
  | succ h ih =>
    intro a d dir _ ha hd hdir hlt
    simp only [Nat.add_sub_cancel] at ha hd
    have hpop : popCond dir d a = true → ¬ keeps (q.getD h default) (q.getD (h + 1) default) pi := by
      intro hc hk
      unfold keeps at hk
      rw [← ha, ← hd, ← hdir, hc] at hk
      exact Bool.noConfusion hk
    unfold popLoop at hlt ⊢
    split
    · rename_i hc
      split
      · rename_i hh
        by_cases hr : (popLoop q pi h (q.getD h default - q.getD (h - 1) default)
            (pi - q.getD (h - 1) default)
            (scanDir (pi - q.getD (h - 1) default)
              (q.getD h default - q.getD (h - 1) default))).1 < h
        · exact ih _ _ _ hh rfl rfl rfl hr
        · have hle := popLoop_le q pi h (q.getD h default - q.getD (h - 1) default)
            (pi - q.getD (h - 1) default)
            (scanDir (pi - q.getD (h - 1) default)
              (q.getD h default - q.getD (h - 1) default))
          have heq : (popLoop q pi h (q.getD h default - q.getD (h - 1) default)
            (pi - q.getD (h - 1) default)
            (scanDir (pi - q.getD (h - 1) default)
              (q.getD h default - q.getD (h - 1) default))).1 = h := by omega
          rw [heq]
          exact hpop hc
      · rename_i hh
        have h0 : h = 0 := by omega
        subst h0
        exact hpop hc
    · rename_i hc
      rw [if_neg hc] at hlt
      simp only [] at hlt
      omega

end float2

namespace float2

theorem pd_shift (u t x : float2) : (t - u).PerpDot (x - t) = (t - u).PerpDot (x - u) := by
  simp only [PerpDot, sub_x, sub_y]
  ring

theorem pd_flip (x t u : float2) : (x - t).PerpDot (u - t) = (t - u).PerpDot (x - u) := by
  simp only [PerpDot, sub_x, sub_y]
  ring

theorem pd_back (u t P : float2) : (t - u).PerpDot (P - t) = (u - P).PerpDot (t - P) := by
  simp only [PerpDot, sub_x, sub_y]
  ring

theorem pd_pivot (P t u : float2) : (P - t).PerpDot (u - t) = (u - P).PerpDot (t - P) := by
  simp only [PerpDot, sub_x, sub_y]
  ring

theorem pd_anti (a b : float2) : a.PerpDot b = -(b.PerpDot a) := by
  simp only [PerpDot]
  ring

theorem pairwise_tail_take_of_getD (R : float2 → float2 → Prop) (l : List float2) (m : Nat)
    (h : ∀ j k, 1 ≤ j → j < k → k < m → k < l.length →
      R (l.getD j default) (l.getD k default)) :
    ((l.take m).tail).Pairwise R := by
  rw [List.pairwise_iff_getElem]
  intro a b ha hb hab
  have ha' : a + 1 < m ∧ a + 1 < l.length := by
    simp [List.length_take] at ha
    omega
  have hb' : b + 1 < m ∧ b + 1 < l.length := by
    simp [List.length_take] at hb
    omega
  have := h (a + 1) (b + 1) (by omega) (by omega) hb'.1 hb'.2
  rw [List.getD_eq_getElem _ _ ha'.2, List.getD_eq_getElem _ _ hb'.2] at this
  simpa using this

/-- What the enclosure argument needs of the buffer handed to the scan: around the pivot
`p[0]` the candidates `p[1..n)` are in strictly increasing polar order, and any three
distinct entries span a cross product beyond the scan epsilon. -/
theorem scan_stack_facts (p : List float2) (n i : Nat) (s : List float2 × Nat × float2)
    (hsorted : ∀ j k, 1 ≤ j → j < k → k < n →
      0 < (p.getD j default - p.getD 0 default).PerpDot (p.getD k default - p.getD 0 default))
    (hin : i ≤ n) (hn : n ≤ p.length) (hK : ScanK p i s) :
    (∀ k, 1 ≤ k → k ≤ s.2.1 → ∃ j, 1 ≤ j ∧ j < i ∧ p.getD j default = s.1.getD k default) ∧
    (∀ k k', 1 ≤ k → k < k' → k' ≤ s.2.1 →
      0 < (s.1.getD k default - p.getD 0 default).PerpDot
        (s.1.getD k' default - p.getD 0 default)) := by
  obtain ⟨hl, h1, h2, h0, hun, ha, hsub, hkeep⟩ := hK
  have hsubT : (s.1.take (s.2.1 + 1)).tail.Sublist (p.take i).tail := hsub.tail
  constructor
  · intro k hk1 hk2
    have hm := hsubT.subset (getD_mem_tail_take s.1 k (s.2.1 + 1) hk1 (by omega) (by omega))
    obtain ⟨j, hj1, hj2, _, hj4⟩ := exists_of_mem_tail_take _ _ _ hm
    exact ⟨j, hj1, hj2, hj4⟩
  · intro k k' hk1 hkk hk2
    have hpw : ((p.take i).tail).Pairwise (fun a b =>
        0 < (a - p.getD 0 default).PerpDot (b - p.getD 0 default)) :=
      pairwise_tail_take_of_getD _ p i
        (fun j k hj hjk hk _ => hsorted j k hj hjk (by omega))
    exact pairwise_tail_take_getD _ s.1 (s.2.1 + 1) (hpw.sublist hsubT) k k' hk1 hkk
      (by omega) (by omega)

end float2

namespace float2

theorem ne_of_perpDot_pos (P a b : float2) (h : 0 < (a - P).PerpDot (b - P)) : a ≠ b := by
  intro hab
  subst hab
  rw [perpDot_self] at h
  exact lt_irrefl _ h

theorem scanStep_cov (p : List float2) (n i : Nat) (s : List float2 × Nat × float2)
    (hsorted : ∀ j k, 1 ≤ j → j < k → k < n →
      0 < (p.getD j default - p.getD 0 default).PerpDot (p.getD k default - p.getD 0 default))
    (hne : ∀ j, 1 ≤ j → j < n → p.getD j default ≠ p.getD 0 default)
    (hgp : ∀ a b c, a < n → b < n → c < n → p.getD a default ≠ p.getD b default →
      p.getD a default ≠ p.getD c default → p.getD b default ≠ p.getD c default →
      scanEpsilon < |(p.getD b default - p.getD a default).PerpDot
        (p.getD c default - p.getD a default)|)
    (hi2 : 2 ≤ i) (hin : i < n) (hn : n ≤ p.length) (h : ScanCov p i s) :
    ScanCov p (i + 1) (scanStep s i) := by
  obtain ⟨hK, htop, hcov⟩ := h
  have hK' := scanStep_K p i s (by omega) hK
  obtain ⟨hfa, hfb⟩ := scan_stack_facts p n i s hsorted (by omega) hn hK
  obtain ⟨hl, h1, h2, h0, hun, ha, hsub, hkeep⟩ := hK
  have hpi : s.1.getD i default = p.getD i default := hun i (le_refl i)
  have hpop := popLoop_spec s.1 (s.1.getD i default) s.2.1 s.2.2
    (s.1.getD i default - s.1.getD (s.2.1 - 1) default)
    (scanDir (s.1.getD i default - s.1.getD (s.2.1 - 1) default) s.2.2) h1 ha rfl rfl
  have hpopped := popLoop_popped s.1 (s.1.getD i default) s.2.1 s.2.2
    (s.1.getD i default - s.1.getD (s.2.1 - 1) default)
    (scanDir (s.1.getD i default - s.1.getD (s.2.1 - 1) default) s.2.2) h1 ha rfl rfl
  refine ⟨hK', ?_⟩
  simp only [scanStep]
  generalize (popLoop s.1 (s.1.getD i default) s.2.1 s.2.2
    (s.1.getD i default - s.1.getD (s.2.1 - 1) default)
    (scanDir (s.1.getD i default - s.1.getD (s.2.1 - 1) default) s.2.2)).1 = h' at hpop hpopped
  obtain ⟨hle, hk'⟩ := hpop
  rw [hpi] at hk' hpopped ⊢
  -- every entry of the hull so far, and the candidate, is an entry of the input range
  have inP : ∀ k, k ≤ s.2.1 → ∃ a, a < n ∧ p.getD a default = s.1.getD k default := by
    intro k hk
    by_cases hk0 : k = 0
    · subst hk0
      exact ⟨0, by omega, h0.symm⟩
    · obtain ⟨j, _, hj2, hj3⟩ := hfa k (by omega) hk
      exact ⟨j, by omega, hj3⟩
  have gpv : ∀ x y z : float2, (∃ a, a < n ∧ p.getD a default = x) →
      (∃ b, b < n ∧ p.getD b default = y) → (∃ c, c < n ∧ p.getD c default = z) →
      x ≠ y → x ≠ z → y ≠ z → scanEpsilon < |(y - x).PerpDot (z - x)| := by
    rintro x y z ⟨a, ha1, rfl⟩ ⟨b, hb1, rfl⟩ ⟨c, hc1, rfl⟩ hxy hxz hyz
    exact hgp a b c ha1 hb1 hc1 hxy hxz hyz
  have inS : ∃ c, c < n ∧ p.getD c default = p.getD i default := ⟨i, hin, rfl⟩
  -- polar order and distinctness
  have polS : ∀ k, 1 ≤ k → k ≤ s.2.1 →
      0 < (s.1.getD k default - p.getD 0 default).PerpDot
        (p.getD i default - p.getD 0 default) := by
    intro k hk1 hk2
    obtain ⟨j, hj1, hj2, hj3⟩ := hfa k hk1 hk2
    rw [← hj3]
    exact hsorted j i hj1 hj2 hin
  have neS : ∀ k, k ≤ s.2.1 → s.1.getD k default ≠ p.getD i default := by
    intro k hk
    by_cases hk0 : k = 0
    · subst hk0
      rw [h0]
      exact fun e => hne i (by omega) hin e.symm
    · exact ne_of_perpDot_pos _ _ _ (polS k (by omega) hk)
  have neQ : ∀ k k', k < k' → k' ≤ s.2.1 → s.1.getD k default ≠ s.1.getD k' default := by
    intro k k' hkk hk'
    by_cases hk0 : k = 0
    · subst hk0
      obtain ⟨j, hj1, hj2, hj3⟩ := hfa k' (by omega) hk'
      rw [h0, ← hj3]
      exact fun e => hne j hj1 (by omega) e.symm
    · exact ne_of_perpDot_pos _ _ _ (hfb k k' (by omega) hkk hk')
  have turnQ : ∀ k, k + 2 ≤ s.2.1 →
      0 < (s.1.getD (k + 1) default - s.1.getD k default).PerpDot
        (s.1.getD (k + 2) default - s.1.getD k default) := by
    intro k hk
    exact strict_of_keeps _ _ _ (hkeep k hk)
      (gpv _ _ _ (inP k (by omega)) (inP (k + 1) (by omega)) (inP (k + 2) hk)
        (neQ k (k + 1) (by omega) (by omega)) (neQ k (k + 2) (by omega) hk)
        (neQ (k + 1) (k + 2) (by omega) hk))
  have turnS : 1 ≤ h' →
      0 < (s.1.getD h' default - s.1.getD (h' - 1) default).PerpDot
        (p.getD i default - s.1.getD (h' - 1) default) := by
    intro hh
    exact strict_of_keeps _ _ _ (hk' hh)
      (gpv _ _ _ (inP (h' - 1) (by omega)) (inP h' (by omega)) inS
        (neQ (h' - 1) h' (by omega) (by omega)) (neS (h' - 1) (by omega)) (neS h' (by omega)))
  -- the candidate is on the left of every edge that stays
  have down : ∀ m k, k + 1 + m = h' →
      leftOf (s.1.getD k default) (s.1.getD (k + 1) default) (p.getD i default) := by
    intro m
    induction m with
    | zero =>
      intro k hk
      have := turnS (by omega)
      have e1 : h' - 1 = k := by omega
      have e2 : h' = k + 1 := by omega
      rw [e1] at this
      rw [e2] at this
      exact le_of_lt this
    | succ m ih =>
      intro k hk
      have ih' := ih (k + 1) (by omega)
      unfold leftOf at ih' ⊢
      rw [← pd_shift]
      apply cone_left (s.1.getD (k + 2) default - s.1.getD (k + 1) default)
        (p.getD 0 default - s.1.getD (k + 1) default)
      · rw [pd_flip]
        exact hfb (k + 1) (k + 2) (by omega) (by omega) (by omega)
      · exact ih'
      · rw [pd_flip]
        exact le_of_lt (polS (k + 1) (by omega) (by omega))
      · rw [pd_shift]
        exact le_of_lt (turnQ k (by omega))
      · rw [pd_back]
        by_cases hk0 : k = 0
        · subst hk0
          rw [h0]
          simp [PerpDot]
        · exact le_of_lt (hfb k (k + 1) (by omega) (by omega) (by omega))
  refine ⟨?_, ?_⟩
  · rw [getD_set_self _ _ _ _ (by omega), Nat.add_sub_cancel]
  · intro j hj1 hj2 k hk
    by_cases hkh : k + 1 ≤ h'
    · rw [getD_set_ne _ _ _ _ _ (by omega), getD_set_ne _ _ _ _ _ (by omega)]
      by_cases hji : j = i
      · rw [hji]
        exact down (h' - (k + 1)) k (by omega)
      · exact hcov j hj1 (by omega) k (by omega)
    · have hkeq : k = h' := by omega
      subst hkeq
      rw [getD_set_ne _ _ _ _ _ (by omega), getD_set_self _ _ _ _ (by omega)]
      by_cases hji : j = i
      · rw [hji]
        unfold leftOf
        rw [perpDot_self]
      · have hjlt : j < i := by omega
        by_cases hpd : k < s.2.1
        · -- points were popped
          have hnk := hpopped hpd
          have hk1 : 1 ≤ k := by
            by_contra hk0
            have hk0' : k = 0 := by omega
            subst hk0'
            have hs := strict_of_not_keeps _ _ _ hnk
              (gpv _ _ _ (inP 0 (by omega)) (inP 1 (by omega)) inS
                (neQ 0 1 (by omega) (by omega)) (neS 0 (by omega)) (neS 1 (by omega)))
            have hp := polS 1 (le_refl 1) (by omega)
            rw [h0] at hs
            rw [pd_anti] at hs
            simp only [Nat.zero_add] at hs
            linarith
          have hs := strict_of_not_keeps _ _ _ hnk
            (gpv _ _ _ (inP k (by omega)) (inP (k + 1) (by omega)) inS
              (neQ k (k + 1) (by omega) (by omega)) (neS k (by omega)) (neS (k + 1) (by omega)))
          have ht := turnS hk1
          have hq := turnQ (k - 1) (by omega)
          have e1 : k - 1 + 1 = k := by omega
          have e2 : k - 1 + 2 = k + 1 := by omega
          rw [e1, e2] at hq
          have hx1 := hcov j hj1 hjlt k (by omega)
          have hx2 := hcov j hj1 hjlt (k - 1) (by omega)
          rw [e1] at hx2
          unfold leftOf at hx1 hx2 ⊢
          apply cone_left (s.1.getD (k + 1) default - s.1.getD k default)
            (s.1.getD (k - 1) default - s.1.getD k default)
          · rw [pd_flip]
            exact hq
          · exact hx1
          · rw [pd_flip]
            exact hx2
          · exact le_of_lt hs
          · rw [pd_flip]
            exact le_of_lt ht
        · -- nothing was popped
          have hkh' : k = s.2.1 := by omega
          have polX : 0 ≤ (p.getD j default - p.getD 0 default).PerpDot
              (s.1.getD k default - p.getD 0 default) := by
            rw [hkh', htop]
            by_cases hjl : j = i - 1
            · rw [hjl, perpDot_self]
            · exact le_of_lt (hsorted j (i - 1) hj1 (by omega) (by omega))
          by_cases hk1 : k = 1
          · subst hk1
            have hx := hcov j hj1 hjlt 0 (by omega)
            unfold leftOf at hx ⊢
            simp only [Nat.zero_add] at hx
            rw [h0] at hx
            have hzero : (p.getD j default - p.getD 0 default).PerpDot
                (s.1.getD 1 default - p.getD 0 default) = 0 := by
              rw [pd_anti] at hx
              linarith
            by_cases hjl : j = i - 1
            · rw [hkh', htop, hjl]
              simp [PerpDot]
            · exfalso
              have := hsorted j (i - 1) hj1 (by omega) (by omega)
              rw [hkh', htop] at hzero
              linarith
          · have hk2 : 2 ≤ k := by omega
            have ht := turnS (by omega)
            have hx := hcov j hj1 hjlt (k - 1) (by omega)
            have e1 : k - 1 + 1 = k := by omega
            rw [e1] at hx
            unfold leftOf at hx ⊢
            apply cone_left (p.getD 0 default - s.1.getD k default)
              (s.1.getD (k - 1) default - s.1.getD k default)
            · rw [pd_pivot]
              exact hfb (k - 1) k (by omega) (by omega) (by omega)
            · rw [pd_pivot]
              exact polX
            · rw [pd_flip]
              exact hx
            · rw [pd_flip]
              exact le_of_lt (polS k (by omega) (by omega))
            · rw [pd_flip]
              exact le_of_lt ht

end float2

namespace float2

/-! ### Nothing is lost: what each stage does with the points it drops -/

theorem Swap_cover (p : List float2) (i j n : Nat) (hi : i < n) (hj : j < n)
    (hn : n ≤ p.length) : ∀ x ∈ p.take n, x ∈ (Swap p i j).take n := by
  intro x hx
  obtain ⟨k, hk1, hk2, rfl⟩ := exists_of_mem_take _ _ _ hx
  have hl := Swap_length p i j
  by_cases hki : k = i
  · have := mem_take_of_getD (Swap p i j) j n hj (by omega)
    rw [Swap_getD p i j j (by omega) (by omega)] at this
    simpa [hki] using this
  · by_cases hkj : k = j
    · have := mem_take_of_getD (Swap p i j) i n hi (by omega)
      rw [Swap_getD p i j i (by omega) (by omega)] at this
      by_cases hij : i = j
      · simpa [hkj, hij] using this
      · simpa [hkj, hij] using this
    · have := mem_take_of_getD (Swap p i j) k n hk1 (by omega)
      rw [Swap_getD p i j k (by omega) (by omega)] at this
      simpa [hki, hkj] using this

theorem pruneLoop_cover (f : PruneFrame) :
    ∀ (k : Nat) (p : List float2) (i : Nat), i + k ≤ p.length →
      ∀ x ∈ p.take (i + k),
        x ∈ (pruneLoop f k p i).1.take (pruneLoop f k p i).2 ∨ pruneTest f x = true := by
  intro k
  induction k with
  | zero => intro p i _ x hx; exact Or.inl hx
  | succ k ih =>
    intro p i hlen x hx
    unfold pruneLoop
    split
    · rename_i ht
      obtain ⟨j, hj1, hj2, rfl⟩ := exists_of_mem_take _ _ _ hx
      by_cases hji : j = i
      · exact Or.inr (hji ▸ ht)
      · apply ih (Swap p i (i + k)) i (by rw [Swap_length]; omega)
        have hl := Swap_length p i (i + k)
        by_cases hjk : j = i + k
        · have := mem_take_of_getD (Swap p i (i + k)) i (i + k) (by omega) (by omega)
          rw [Swap_getD p i (i + k) i (by omega) (by omega)] at this
          have hik : i ≠ i + k := by omega
          simpa [hik, hjk] using this
        · have := mem_take_of_getD (Swap p i (i + k)) j (i + k) (by omega) (by omega)
          rw [Swap_getD p i (i + k) j (by omega) (by omega)] at this
          simpa [hji, hjk] using this
    · have e : i + (k + 1) = i + 1 + k := by omega
      rw [e] at hx
      exact ih p (i + 1) (by omega) x hx

theorem removePivotDuplicates_cover (eqEps : ℚ) (p : List float2) (n : Nat)
    (h1 : 1 ≤ n) (hn : n ≤ p.length) :
    ∀ j, 1 ≤ j → j < n →
      (p.getD j default).Equals (p.getD 0 default) eqEps = true ∨
      p.getD j default ∈
        ((removePivotDuplicates eqEps p n).1.take (removePivotDuplicates eqEps p n).2).tail := by
  have key := foldl_range'_inv (pivotDupStep eqEps)
    (fun i s => CompactK p i s ∧ ∀ j, 1 ≤ j → j < i →
      (p.getD j default).Equals (p.getD 0 default) eqEps = true ∨
      ∃ k, 1 ≤ k ∧ k ≤ s.2 ∧ s.1.getD k default = p.getD j default) (n - 1) 1 (p, 0)
    ⟨CompactK_init p, fun j hj1 hj2 => by omega⟩
    (fun i s _ hlt hinv => by
      obtain ⟨hK, hC⟩ := hinv
      have hpi : s.1.getD i default = p.getD i default := hK.2.2.2.1 i (le_refl i)
      show CompactK p (i + 1) (pivotDupStep eqEps s i) ∧ _
      unfold pivotDupStep
      split
      · refine ⟨CompactK_write p i s (by omega) hK, ?_⟩
        intro j hj1 hj2
        by_cases hji : j = i
        · refine Or.inr ⟨s.2 + 1, by omega, le_refl _, ?_⟩
          simp only []
          rw [getD_set_self _ _ _ _ (by have := hK.1; have := hK.2.1; omega), hji, hpi]
        · rcases hC j hj1 (by omega) with h | ⟨k, hk1, hk2, hk3⟩
          · exact Or.inl h
          · refine Or.inr ⟨k, hk1, by simp only []; omega, ?_⟩
            simp only []
            rw [getD_set_ne _ _ _ _ _ (by omega)]
            exact hk3
      · rename_i htest
        refine ⟨CompactK_skip p i s hK, ?_⟩
        intro j hj1 hj2
        by_cases hji : j = i
        · left
          rw [hji, ← hpi, ← hK.2.2.1]
          simpa using htest
        · exact hC j hj1 (by omega))
  have e : 1 + (n - 1) = n := by omega
  rw [e] at key
  obtain ⟨hK, hC⟩ := key
  intro j hj1 hj2
  rcases hC j hj1 hj2 with h | ⟨k, hk1, hk2, hk3⟩
  · exact Or.inl h
  · right
    simp only [removePivotDuplicates]
    rw [← hk3]
    exact getD_mem_tail_take _ k _ hk1 (by omega) (by have := hK.1; have := hK.2.1; omega)

theorem removeDuplicates_cover (eqEps : ℚ) (p : List float2) (n : Nat)
    (h1 : 1 ≤ n) (hn : n ≤ p.length) :
    ∀ j, 1 ≤ j → j < n →
      ∃ y ∈ (removeDuplicates eqEps p n).1.take (removeDuplicates eqEps p n).2,
        y = p.getD j default ∨ (p.getD j default).Equals y eqEps = true := by
  have key := foldl_range'_inv (dupStep eqEps)
    (fun i s => CompactK p i s ∧ ∀ j, 1 ≤ j → j < i →
      ∃ k, k ≤ s.2 ∧ (s.1.getD k default = p.getD j default ∨
        (p.getD j default).Equals (s.1.getD k default) eqEps = true)) (n - 1) 1 (p, 0)
    ⟨CompactK_init p, fun j hj1 hj2 => by omega⟩
    (fun i s _ hlt hinv => by
      obtain ⟨hK, hC⟩ := hinv
      have hpi : s.1.getD i default = p.getD i default := hK.2.2.2.1 i (le_refl i)
      show CompactK p (i + 1) (dupStep eqEps s i) ∧ _
      unfold dupStep
      split
      · refine ⟨CompactK_write p i s (by omega) hK, ?_⟩
        intro j hj1 hj2
        by_cases hji : j = i
        · refine ⟨s.2 + 1, le_refl _, Or.inl ?_⟩
          simp only []
          rw [getD_set_self _ _ _ _ (by have := hK.1; have := hK.2.1; omega), hji, hpi]
        · obtain ⟨k, hk2, hk3⟩ := hC j hj1 (by omega)
          refine ⟨k, by simp only []; omega, ?_⟩
          simp only []
          rw [getD_set_ne _ _ _ _ _ (by omega)]
          exact hk3
      · rename_i htest
        refine ⟨CompactK_skip p i s hK, ?_⟩
        intro j hj1 hj2
        by_cases hji : j = i
        · refine ⟨s.2, le_refl _, Or.inr ?_⟩
          rw [hji, ← hpi]
          simpa using htest
        · exact hC j hj1 (by omega))
  have e : 1 + (n - 1) = n := by omega
  rw [e] at key
  obtain ⟨hK, hC⟩ := key
  intro j hj1 hj2
  obtain ⟨k, hk2, hk3⟩ := hC j hj1 hj2
  simp only [removeDuplicates]
  exact ⟨_, mem_take_of_getD _ k _ (by omega) (by have := hK.1; have := hK.2.1; omega), hk3⟩

end float2

namespace float2

/-! ### The returned polygon encloses the candidates of the scan -/

theorem grahamScan_cov (p : List float2) (n : Nat)
    (hsorted : ∀ j k, 1 ≤ j → j < k → k < n →
      0 < (p.getD j default - p.getD 0 default).PerpDot (p.getD k default - p.getD 0 default))
    (hne : ∀ j, 1 ≤ j → j < n → p.getD j default ≠ p.getD 0 default)
    (hgp : ∀ a b c, a < n → b < n → c < n → p.getD a default ≠ p.getD b default →
      p.getD a default ≠ p.getD c default → p.getD b default ≠ p.getD c default →
      scanEpsilon < |(p.getD b default - p.getD a default).PerpDot
        (p.getD c default - p.getD a default)|)
    (h2 : 2 ≤ n) (hn : n ≤ p.length) : ScanCov p n (grahamScan p n) := by
  have key := foldl_range'_inv scanStep (ScanCov p) (n - 2) 2
    (p, 1, p.getD 1 default - p.getD 0 default)
    ⟨⟨rfl, le_refl 1, by simp, rfl, fun _ _ => rfl, rfl, List.Sublist.refl _,
        fun k hk => by simp at hk⟩, rfl, fun j hj1 hj2 k hk => by
        have hj : j = 1 := by omega
        have hk0 : k = 0 := by
          simp only [] at hk
          omega
        subst hj hk0
        unfold leftOf
        rw [perpDot_self]⟩
    (fun i s hi hlt hinv => scanStep_cov p n i s hsorted hne hgp hi (by omega) hn hinv)
  have e : 2 + (n - 2) = n := by omega
  rw [e] at key
  exact key

theorem pd_origin (u t P : float2) : (t - u).PerpDot (P - u) = (u - P).PerpDot (t - P) := by
  simp only [PerpDot, sub_x, sub_y]
  ring

/-- After the scan every entry `p[j]`, `j < n`, of the scanned range is enclosed by the
polygon `p[0..h]` the scan leaves. -/
theorem grahamScan_encloses (p : List float2) (n : Nat)
    (hsorted : ∀ j k, 1 ≤ j → j < k → k < n →
      0 < (p.getD j default - p.getD 0 default).PerpDot (p.getD k default - p.getD 0 default))
    (hne : ∀ j, 1 ≤ j → j < n → p.getD j default ≠ p.getD 0 default)
    (hgp : ∀ a b c, a < n → b < n → c < n → p.getD a default ≠ p.getD b default →
      p.getD a default ≠ p.getD c default → p.getD b default ≠ p.getD c default →
      scanEpsilon < |(p.getD b default - p.getD a default).PerpDot
        (p.getD c default - p.getD a default)|)
    (h2 : 2 ≤ n) (hn : n ≤ p.length) (j : Nat) (hj : j < n) :
    Encloses (grahamScan p n).1 ((grahamScan p n).2.1 + 1) (p.getD j default) := by
  obtain ⟨hK, htop, hcov⟩ := grahamScan_cov p n hsorted hne hgp h2 hn
  obtain ⟨-, hfb⟩ := scan_stack_facts p n n _ hsorted (le_refl n) hn hK
  obtain ⟨hl, h1, hlt, h0, -, -, -, -⟩ := hK
  generalize (grahamScan p n).1 = H at *
  generalize (grahamScan p n).2.1 = h at *
  intro i hi
  by_cases hi0 : i = 0
  · subst hi0
    have e : (0 + (h + 1) - 1) % (h + 1) = h := by
      rw [Nat.zero_add, Nat.add_sub_cancel]
      exact Nat.mod_eq_of_lt (by omega)
    rw [e, h0]
    unfold leftOf
    rw [pd_pivot, htop]
    by_cases hj0 : j = 0
    · subst hj0
      simp [PerpDot]
    · by_cases hjl : j = n - 1
      · rw [hjl, perpDot_self]
      · exact le_of_lt (hsorted j (n - 1) (by omega) (by omega) (by omega))
  · have e : (i + (h + 1) - 1) % (h + 1) = i - 1 := by
      have : i + (h + 1) - 1 = i - 1 + (h + 1) := by omega
      rw [this, Nat.add_mod_right]
      exact Nat.mod_eq_of_lt (by omega)
    rw [e]
    by_cases hj0 : j = 0
    · subst hj0
      unfold leftOf
      rw [pd_origin]
      by_cases hi1 : i = 1
      · subst hi1
        simp only [Nat.sub_self]
        rw [h0]
        simp [PerpDot]
      · have := hfb (i - 1) i (by omega) (by omega) (by omega)
        exact le_of_lt this
    · have := hcov j (by omega) hj (i - 1) (by omega)
      have e1 : i - 1 + 1 = i := by omega
      rw [e1] at this
      exact this

/-! ### A point on the left of every edge is reported as contained -/

theorem containsLoop_range' (hull : List float2) (point : float2) (eps : ℚ) :
    ∀ (len a j : Nat),
      (∀ idx, idx < len →
        leftOf (hull.getD (if idx = 0 then j else a + idx - 1) default)
          (hull.getD (a + idx) default) point) →
      containsLoop hull point eps (List.range' a len) j = true := by
  intro len
  induction len with
  | zero => intro a j _; simp [containsLoop]
  | succ len ih =>
    intro a j h
    rw [List.range'_succ]
    apply containsLoop_step
    · have := h 0 (by omega)
      simpa [leftOf] using this
    · apply ih (a + 1) a
      intro idx hidx
      have := h (idx + 1) (by omega)
      simp only [Nat.add_eq_zero, one_ne_zero, and_false, if_false] at this
      have e1 : a + (idx + 1) - 1 = a + idx := by omega
      have e2 : a + (idx + 1) = a + 1 + idx := by omega
      rw [e1, e2] at this
      by_cases hz : idx = 0
      · subst hz
        simpa using this
      · have e3 : a + 1 + idx - 1 = a + idx := by omega
        simp only [hz, if_false, e3]
        exact this

theorem contains_of_encloses (eps : ℚ) (H : List float2) (cnt : Nat) (x : float2)
    (h : Encloses H cnt x) : ConvexHullContains eps H (cnt : Int) x = true := by
  simp only [ConvexHullContains, Int.toNat_ofNat, List.range_eq_range']
  apply containsLoop_range'
  intro idx hidx
  have := h idx hidx
  simp only [Nat.zero_add]
  by_cases hz : idx = 0
  · subst hz
    simp only [if_true]
    have e : (0 + cnt - 1) % cnt = ((cnt : Int) - 1).toNat := by
      rw [Nat.zero_add, Nat.mod_eq_of_lt (by omega)]
      omega
    rw [e] at this
    exact this
  · simp only [hz, if_false]
    have e : (idx + cnt - 1) % cnt = idx - 1 := by
      have : idx + cnt - 1 = idx - 1 + cnt := by omega
      rw [this, Nat.add_mod_right]
      exact Nat.mod_eq_of_lt (by omega)
    rw [e] at this
    exact this

end float2

namespace float2

/-! ### The buffer handed to the scan -/

theorem hullCore_eq (sort : (float2 → float2 → Bool) → List float2 → List float2) (eqEps : ℚ)
    (p : List float2) (n : Nat) :
    hullCore sort eqEps p n =
      ((grahamScan (preScan sort eqEps p n).1 (preScan sort eqEps p n).2).1,
        (grahamScan (preScan sort eqEps p n).1 (preScan sort eqEps p n).2).2.1 + 1) := rfl

theorem preScan_facts (sort : (float2 → float2 → Bool) → List float2 → List float2)
    (hs : SortSpec sort) (eqEps : ℚ) (heps : 0 < eqEps) (p : List float2) (n : Nat)
    (h1 : 1 ≤ n) (hn : n ≤ p.length) :
    (preScan sort eqEps p n).1.length = p.length ∧
    1 ≤ (preScan sort eqEps p n).2 ∧ (preScan sort eqEps p n).2 ≤ n ∧
    (preScan sort eqEps p n).1.getD 0 default = (findLowest p n).1 ∧
    (findLowest p n).1 ∈ p.take n ∧
    (((preScan sort eqEps p n).1.take (preScan sort eqEps p n).2).tail).Pairwise
      (fun a b => SortByPolarAngle (findLowest p n).1 b a = false) ∧
    (∀ x ∈ ((preScan sort eqEps p n).1.take (preScan sort eqEps p n).2).tail,
      x ∈ p.take n ∧ above (findLowest p n).1 x) ∧
    (∀ k, 1 ≤ k → k < (preScan sort eqEps p n).2 →
      ((preScan sort eqEps p n).1.getD k default).Equals
        ((preScan sort eqEps p n).1.getD (k - 1) default) eqEps = false) ∧
    (∀ x ∈ p.take n, x.Equals (findLowest p n).1 eqEps = true ∨
      ∃ y ∈ (preScan sort eqEps p n).1.take (preScan sort eqEps p n).2,
        y = x ∨ x.Equals y eqEps = true) := by
  obtain ⟨hperm, hsorted⟩ := hs
  have hmax : max n 1 = n := by omega
  obtain ⟨hlow1, hlow2, hlow3⟩ := findLowest_spec p n
  rw [hmax] at hlow1 hlow3
  simp only [preScan]
  generalize hP : (findLowest p n).1 = P at hlow2 hlow3 ⊢
  generalize hidx : (findLowest p n).2 = idx at hlow1 hlow2 ⊢
  have hPmem : P ∈ p.take n := by
    rw [hlow2]
    exact mem_take_of_getD p idx n hlow1 (by omega)
  -- the pivot is swapped to the front
  have hl1 : (Swap p 0 idx).length = p.length := Swap_length p 0 idx
  have hp10 : (Swap p 0 idx).getD 0 default = P := by
    rw [Swap_getD p 0 idx 0 (by omega) (by omega), hlow2]
    split
    · rename_i h0
      rw [← h0]
    · simp
  have hp1mem : ∀ x ∈ (Swap p 0 idx).take n, x ∈ p.take n := by
    intro x hx
    obtain ⟨k, hk1, hk2, rfl⟩ := exists_of_mem_take _ n x hx
    rw [Swap_getD p 0 idx k (by omega) (by omega)]
    split
    · exact mem_take_of_getD p 0 n (by omega) (by omega)
    · split
      · exact mem_take_of_getD p idx n hlow1 (by omega)
      · exact mem_take_of_getD p k n hk1 (by rw [← hl1]; exact hk2)
  have hp1cov := Swap_cover p 0 idx n (by omega) hlow1 hn
  generalize Swap p 0 idx = p1 at hl1 hp10 hp1mem hp1cov
  -- the duplicates of the pivot are removed
  have hc1 := removePivotDuplicates_count eqEps p1 n
  obtain ⟨hK1, hE1⟩ := removePivotDuplicates_spec eqEps p1 n h1 (by omega)
  have hcov1 := removePivotDuplicates_cover eqEps p1 n h1 (by omega)
  generalize removePivotDuplicates eqEps p1 n = c1 at hc1 hK1 hE1 hcov1
  obtain ⟨hc1a, hc1b, hc1l⟩ := hc1
  obtain ⟨-, -, hc10, -, hsub1⟩ := hK1
  simp only [] at hc10 hsub1
  rw [Nat.sub_add_cancel hc1a] at hsub1
  rw [hp10] at hc10 hE1 hcov1
  have hfacts1 : ∀ x ∈ (c1.1.take c1.2).tail,
      x ∈ p.take n ∧ x.Equals P eqEps = false ∧ above P x := by
    intro x hx
    have hxp : x ∈ p.take n := hp1mem x (hsub1.subset (List.mem_of_mem_tail hx))
    obtain ⟨k, hk1, hk2, hk3, rfl⟩ := exists_of_mem_tail_take _ _ x hx
    have hne := hE1 k hk1 hk2
    refine ⟨hxp, hne, ?_⟩
    obtain ⟨j, hj1, hj2, hj3⟩ := exists_of_mem_take _ _ _ hxp
    apply above_of_not_lexLt
    · rw [← hj3]
      exact hlow3 j hj1
    · intro heq
      rw [heq, Equals_self P eqEps heps] at hne
      exact Bool.noConfusion hne
  -- the range is sorted around the pivot
  have hl3 := sortRange_length sort hperm (SortByPolarAngle P) c1.1 c1.2 hc1a (by omega)
  have hp30 := sortRange_getD_zero sort (SortByPolarAngle P) c1.1 c1.2 (by omega)
  have htail3 := sortRange_take_tail sort hperm (SortByPolarAngle P) c1.1 c1.2 hc1a (by omega)
  have hsorted3 : ((sortRange sort (SortByPolarAngle P) c1.1 c1.2).take c1.2).tail.Pairwise
      (fun a b => SortByPolarAngle P b a = false) := by
    rw [htail3]
    apply hsorted
    · intro a _ b _ hab
      exact SortByPolarAngle_asymm P a b hab
    · intro a ha b hb c hc hab hbc
      exact SortByPolarAngle_negtrans P a b c (hfacts1 a ha).2.2 (hfacts1 b hb).2.2
        (hfacts1 c hc).2.2 hab hbc
  have hfacts3 : ∀ x, x ∈ ((sortRange sort (SortByPolarAngle P) c1.1 c1.2).take c1.2).tail ↔
      x ∈ (c1.1.take c1.2).tail := by
    intro x
    rw [htail3]
    exact (hperm _ _).mem_iff
  rw [hc10] at hp30
  generalize sortRange sort (SortByPolarAngle P) c1.1 c1.2 = p3 at hl3 hp30 hsorted3 hfacts3
  -- consecutive duplicates are removed
  have hc2 := removeDuplicates_count eqEps p3 c1.2
  obtain ⟨hK2, hE2⟩ := removeDuplicates_spec eqEps p3 c1.2 hc1a (by omega)
  have hcov2 := removeDuplicates_cover eqEps p3 c1.2 hc1a (by omega)
  generalize removeDuplicates eqEps p3 c1.2 = c2 at hc2 hK2 hE2 hcov2
  obtain ⟨hc2a, hc2b, hc2l⟩ := hc2
  obtain ⟨-, -, hc20, -, hsub2⟩ := hK2
  simp only [] at hc20 hsub2
  rw [Nat.sub_add_cancel hc2a] at hsub2
  rw [hp30] at hc20
  refine ⟨by omega, hc2a, by omega, hc20, hPmem, hsorted3.sublist hsub2.tail, ?_, hE2, ?_⟩
  · intro x hx
    have := hfacts1 x ((hfacts3 x).mp (hsub2.tail.subset hx))
    exact ⟨this.1, this.2.2⟩
  · intro x hx
    obtain ⟨k, hk1, hk2, rfl⟩ := exists_of_mem_take _ _ _ (hp1cov x hx)
    by_cases hk0 : k = 0
    · subst hk0
      left
      rw [hp10]
      exact Equals_self P eqEps heps
    · rcases hcov1 k (by omega) hk1 with h | h
      · exact Or.inl h
      · right
        obtain ⟨j, hj1, hj2, hj3, hj4⟩ :=
          exists_of_mem_tail_take _ _ _ ((hfacts3 _).mpr h)
        obtain ⟨y, hy1, hy2⟩ := hcov2 j hj1 hj2
        rw [hj4] at hy2
        exact ⟨y, hy1, hy2⟩

theorem above_ne (P x : float2) (h : above P x) : x ≠ P := by
  intro hx
  subst hx
  unfold above at h
  rcases h with h | ⟨_, h⟩ <;> exact lt_irrefl _ h

/-- Strict polar order is kept when the second step is only weak. -/
theorem perpDot_strict_trans (P a b c : float2) (ha : above P a) (hb : above P b)
    (hc : above P c) (h1 : 0 < (a - P).PerpDot (b - P)) (h2 : 0 ≤ (b - P).PerpDot (c - P)) :
    0 < (a - P).PerpDot (c - P) := by
  simp only [PerpDot, sub_x, sub_y] at h1 h2 ⊢
  unfold above at ha hb hc
  have hay : 0 ≤ a.y - P.y := by rcases ha with h | ⟨h, _⟩ <;> linarith
  have key : (b.y - P.y) * ((a.x - P.x) * (c.y - P.y) - (a.y - P.y) * (c.x - P.x)) =
      (a.y - P.y) * ((b.x - P.x) * (c.y - P.y) - (b.y - P.y) * (c.x - P.x)) +
      (c.y - P.y) * ((a.x - P.x) * (b.y - P.y) - (a.y - P.y) * (b.x - P.x)) := by ring
  have hby : 0 < b.y - P.y := by
    rcases hb with hb1 | ⟨hb1, hb2⟩
    · linarith
    · exfalso
      rw [hb1] at h1
      simp only [sub_self, mul_zero, zero_sub] at h1
      nlinarith [mul_nonneg hay (sub_pos.mpr hb2).le]
  have hcy : 0 < c.y - P.y := by
    rcases hc with hc1 | ⟨hc1, hc2⟩
    · linarith
    · exfalso
      rw [hc1] at h2
      simp only [sub_self, mul_zero, zero_sub] at h2
      nlinarith [mul_pos hby (sub_pos.mpr hc2)]
  by_contra hcon
  push_neg at hcon
  nlinarith [mul_nonneg hay h2, mul_pos hcy h1, mul_nonneg hby.le (neg_nonneg.mpr hcon)]

end float2

namespace float2

/-! ### Enclosure of the live points -/

theorem GeneralPosition_mono (eqEps : ℚ) (L L' : List float2) (h : GeneralPosition eqEps L)
    (hsub : ∀ x ∈ L', x ∈ L) : GeneralPosition eqEps L' :=
  ⟨fun x hx y hy => h.1 x (hsub x hx) y (hsub y hy),
    fun u hu v hv w hw => h.2 u (hsub u hu) v (hsub v hv) w (hsub w hw)⟩

theorem hullCore_encloses (sort : (float2 → float2 → Bool) → List float2 → List float2)
    (hs : SortSpec sort) (eqEps : ℚ) (heps : 0 < eqEps) (q : List float2) (m : Nat)
    (h1 : 1 ≤ m) (hm : m ≤ q.length) (hgp : GeneralPosition eqEps (q.take m)) :
    ∀ x ∈ q.take m, Encloses (hullCore sort eqEps q m).1 (hullCore sort eqEps q m).2 x := by
  rw [hullCore_eq]
  obtain ⟨hbl, hc1, hcm, hb0, hPmem, hpw, htail, hadj, hcov⟩ :=
    preScan_facts sort hs eqEps heps q m h1 hm
  generalize (findLowest q m).1 = P at *
  generalize (preScan sort eqEps q m).1 = b at *
  generalize (preScan sort eqEps q m).2 = c at *
  obtain ⟨hgp1, hgp2⟩ := hgp
  have he : (0 : ℚ) < scanEpsilon := by simp [scanEpsilon]
  -- facts by index
  have hin : ∀ k, 1 ≤ k → k < c → b.getD k default ∈ q.take m ∧ above P (b.getD k default) :=
    fun k hk1 hk2 => htail _ (getD_mem_tail_take b k c hk1 hk2 (by omega))
  have hinL : ∀ k, k < c → b.getD k default ∈ q.take m := by
    intro k hk
    by_cases hk0 : k = 0
    · subst hk0
      rw [hb0]
      exact hPmem
    · exact (hin k (by omega) hk).1
  have hweak : ∀ j k, 1 ≤ j → j < k → k < c →
      0 ≤ (b.getD j default - P).PerpDot (b.getD k default - P) := by
    intro j k hj hjk hk
    have := pairwise_tail_take_getD _ b c hpw j k hj hjk hk (by omega)
    rw [SortByPolarAngle_false_iff] at this
    rw [pd_anti]
    linarith
  have hneP : ∀ k, 1 ≤ k → k < c → b.getD k default ≠ P :=
    fun k hk1 hk2 => above_ne P _ (hin k hk1 hk2).2
  have hadjS : ∀ j, 1 ≤ j → j + 1 < c →
      0 < (b.getD j default - P).PerpDot (b.getD (j + 1) default - P) := by
    intro j hj hj1
    have hne : b.getD j default ≠ b.getD (j + 1) default := by
      intro heq
      have := hadj (j + 1) (by omega) hj1
      rw [Nat.add_sub_cancel, ← heq, Equals_self _ eqEps heps] at this
      exact Bool.noConfusion this
    have := hgp2 P hPmem _ (hin j hj (by omega)).1 _ (hin (j + 1) (by omega) hj1).1
      (fun e => hneP j hj (by omega) e.symm) (fun e => hneP (j + 1) (by omega) hj1 e.symm) hne
    have hw := hweak j (j + 1) hj (by omega) hj1
    rcases lt_abs.mp this with h | h
    · linarith
    · linarith
  have hstrict : ∀ j k, 1 ≤ j → j < k → k < c →
      0 < (b.getD j default - b.getD 0 default).PerpDot
        (b.getD k default - b.getD 0 default) := by
    intro j k hj hjk hk
    rw [hb0]
    by_cases hk1 : k = j + 1
    · subst hk1
      exact hadjS j hj hk
    · exact perpDot_strict_trans P _ _ _ (hin j hj (by omega)).2
        (hin (j + 1) (by omega) (by omega)).2 (hin k (by omega) hk).2 (hadjS j hj (by omega))
        (hweak (j + 1) k (by omega) (by omega) hk)
  have hne0 : ∀ j, 1 ≤ j → j < c → b.getD j default ≠ b.getD 0 default := by
    intro j hj1 hj2
    rw [hb0]
    exact hneP j hj1 hj2
  have hgpI : ∀ a b' c', a < c → b' < c → c' < c → b.getD a default ≠ b.getD b' default →
      b.getD a default ≠ b.getD c' default → b.getD b' default ≠ b.getD c' default →
      scanEpsilon < |(b.getD b' default - b.getD a default).PerpDot
        (b.getD c' default - b.getD a default)| :=
    fun a b' c' ha hb' hc' h1 h2 h3 =>
      hgp2 _ (hinL a ha) _ (hinL b' hb') _ (hinL c' hc') h1 h2 h3
  -- every entry of the scanned range is enclosed
  have henc : ∀ j, j < c →
      Encloses (grahamScan b c).1 ((grahamScan b c).2.1 + 1) (b.getD j default) := by
    by_cases hc2 : 2 ≤ c
    · exact fun j hj => grahamScan_encloses b c hstrict hne0 hgpI hc2 (by omega) j hj
    · intro j hj
      have hj0 : j = 0 := by omega
      subst hj0
      rw [grahamScan_one b c (by omega)]
      intro i hi
      simp only [] at hi ⊢
      have hi' : i = 0 ∨ i = 1 := by omega
      rcases hi' with rfl | rfl
      · unfold leftOf
        norm_num
        rw [perpDot_self]
      · unfold leftOf
        norm_num
        simp [PerpDot]
  -- a live point is the pivot or an entry of the scanned range
  intro x hx
  have hfind : ∃ j, j < c ∧ b.getD j default = x := by
    rcases hcov x hx with h | ⟨y, hy, h⟩
    · exact ⟨0, by omega, by rw [hb0]; exact (hgp1 x hx P hPmem h).symm⟩
    · obtain ⟨j, hj1, hj2, hj3⟩ := exists_of_mem_take _ _ _ hy
      refine ⟨j, hj1, ?_⟩
      rcases h with h | h
      · rw [hj3, h]
      · rw [hj3]
        exact (hgp1 x hx y (hj3 ▸ hinL j hj1) h).symm
  obtain ⟨j, hj1, hj2⟩ := hfind
  rw [← hj2]
  exact henc j hj1

end float2

namespace float2

/-! ### Enclosure of the pruned points -/

theorem pruneTest_maxX (p : List float2) (e : Extremes) :
    pruneTest (pruneFrame p e) (p.getD e.maxX default) = false := by
  simp [pruneTest, pruneFrame, pruneEps]

theorem pruneTest_maxY (p : List float2) (e : Extremes) :
    pruneTest (pruneFrame p e) (p.getD e.maxY default) = false := by
  simp [pruneTest, pruneFrame, pruneEps]

theorem pruneTest_minX (p : List float2) (e : Extremes) :
    pruneTest (pruneFrame p e) (p.getD e.minX default) = false := by
  simp [pruneTest, pruneFrame, pruneEps]

/-- A pruned point is strictly on the left of the four edges of the quadrilateral
`minY, maxX, maxY, minX`. -/
theorem pruneTest_inside (p : List float2) (e : Extremes) (x : float2)
    (h : pruneTest (pruneFrame p e) x = true) :
    0 < (p.getD e.maxX default - p.getD e.minY default).PerpDot (x - p.getD e.minY default) ∧
    0 < (p.getD e.maxY default - p.getD e.maxX default).PerpDot (x - p.getD e.maxX default) ∧
    0 < (p.getD e.minX default - p.getD e.maxY default).PerpDot (x - p.getD e.maxY default) ∧
    0 < (p.getD e.minY default - p.getD e.minX default).PerpDot
      (x - p.getD e.minX default) := by
  simp only [pruneTest, pruneFrame, pruneEps, Dot, Rotated90CCW, Bool.and_eq_true,
    decide_eq_true_eq, sub_x, sub_y, gt_iff_lt] at h
  obtain ⟨⟨⟨h0, h1⟩, h2⟩, h3⟩ := h
  simp only [PerpDot, sub_x, sub_y]
  refine ⟨?_, ?_, ?_, ?_⟩ <;> nlinarith

/-- A point strictly inside the quadrilateral `A, B, C, D` is on the left of every line
that has the four corners on its left. -/
theorem leftOf_of_quad (u v A B C D x : float2)
    (hAB : 0 < (B - A).PerpDot (x - A)) (hBC : 0 < (C - B).PerpDot (x - B))
    (hCD : 0 < (D - C).PerpDot (x - C)) (hDA : 0 < (A - D).PerpDot (x - D))
    (hA : leftOf u v A) (hB : leftOf u v B) (hC : leftOf u v C) (hD : leftOf u v D) :
    leftOf u v x := by
  by_cases h : 0 ≤ (C - A).PerpDot (x - A)
  · exact leftOf_of_inside u v x A C D h hCD.le hDA.le (by linarith) hA hC hD
  · have h3 : (A - C).PerpDot (x - C) = -((C - A).PerpDot (x - A)) := by
      simp only [PerpDot, sub_x, sub_y]
      ring
    push_neg at h
    exact leftOf_of_inside u v x A B C hAB.le hBC.le (by linarith) (by linarith) hA hB hC

/-- In general position every input point is enclosed by the returned polygon. -/
theorem ConvexHullInPlaceWith_encloses
    (sort : (float2 → float2 → Bool) → List float2 → List float2) (hs : SortSpec sort)
    (eqEps : ℚ) (heps : 0 < eqEps) (p : List float2) (h3 : 3 ≤ p.length)
    (hgp : GeneralPosition eqEps p) :
    ∀ x ∈ p, Encloses (ConvexHullInPlaceWith sort eqEps p (p.length : Int)).1
      (ConvexHullInPlaceWith sort eqEps p (p.length : Int)).2.toNat x := by
  have hlarge : ¬ (p.length : Int) ≤ 2 := by omega
  rw [ConvexHullInPlaceWith_large sort eqEps p _ hlarge]
  simp only [Int.toNat_ofNat]
  split
  · -- the pruning step has run
    have hlen := aklToussaint_length p p.length
    have hcnt := aklToussaint_count p p.length
    have hpos := aklToussaint_pos p p.length (by omega) (le_refl _)
    have hmem := aklToussaint_mem p p.length (le_refl _)
    have hcover := pruneLoop_cover (pruneFrame p (findExtremes p p.length)) p.length p 0
      (by omega)
    have hb := findExtremes_bound p p.length
    have hmax : max p.length 1 = p.length := by omega
    rw [hmax] at hb
    have hlive := hullCore_encloses sort hs eqEps heps (aklToussaint p p.length).1
      (aklToussaint p p.length).2 hpos (by omega)
      (GeneralPosition_mono eqEps p _ hgp (fun x hx => hmem x (List.mem_of_mem_take hx)))
    have hak : aklToussaint p p.length =
        pruneLoop (pruneFrame p (findExtremes p p.length)) p.length p 0 := rfl
    rw [← hak] at hcover
    simp only [Nat.zero_add, List.take_length] at hcover
    have hext : ∀ k, k < p.length →
        pruneTest (pruneFrame p (findExtremes p p.length)) (p.getD k default) = false →
        p.getD k default ∈ (aklToussaint p p.length).1.take (aklToussaint p p.length).2 := by
      intro k hk ht
      rcases hcover _ (getD_mem p k default hk) with h | h
      · exact h
      · rw [ht] at h
        exact Bool.noConfusion h
    intro x hx
    rcases hcover x hx with h | h
    · exact hlive x h
    · obtain ⟨hAB, hBC, hCD, hDA⟩ := pruneTest_inside p _ x h
      have hA := hlive _ (hext _ hb.2.1 (pruneTest_minY p _))
      have hB := hlive _ (hext _ hb.2.2.1 (pruneTest_maxX p _))
      have hC := hlive _ (hext _ hb.2.2.2 (pruneTest_maxY p _))
      have hD := hlive _ (hext _ hb.1 (pruneTest_minX p _))
      intro i hi
      exact leftOf_of_quad _ _ _ _ _ _ x hAB hBC hCD hDA (hA i hi) (hB i hi) (hC i hi)
        (hD i hi)
  · -- no pruning
    have := hullCore_encloses sort hs eqEps heps p p.length (by omega) (le_refl _)
      (by rw [List.take_length]; exact hgp)
    rw [List.take_length] at this
    exact this

end float2

namespace float2

/-! ### The hull in general position -/

/-- In general position the hull points after the pivot are in strictly increasing polar
order and every consecutive triple of the hull turns strictly left. -/
theorem hullCore_strict (sort : (float2 → float2 → Bool) → List float2 → List float2)
    (hs : SortSpec sort) (eqEps : ℚ) (heps : 0 < eqEps) (q : List float2) (m : Nat)
    (h1 : 1 ≤ m) (hm : m ≤ q.length) (hgp : GeneralPosition eqEps (q.take m))
    (h3 : 3 ≤ (hullCore sort eqEps q m).2) :
    (∀ j k, 1 ≤ j → j < k → k < (hullCore sort eqEps q m).2 →
      0 < ((hullCore sort eqEps q m).1.getD j default -
          (hullCore sort eqEps q m).1.getD 0 default).PerpDot
        ((hullCore sort eqEps q m).1.getD k default -
          (hullCore sort eqEps q m).1.getD 0 default)) ∧
    (∀ k, k + 2 < (hullCore sort eqEps q m).2 →
      0 < ((hullCore sort eqEps q m).1.getD (k + 1) default -
          (hullCore sort eqEps q m).1.getD k default).PerpDot
        ((hullCore sort eqEps q m).1.getD (k + 2) default -
          (hullCore sort eqEps q m).1.getD k default)) ∧
    (∀ k, k + 1 < (hullCore sort eqEps q m).2 →
      (hullCore sort eqEps q m).1.getD k default ≠
        (hullCore sort eqEps q m).1.getD (k + 1) default) ∧
    (∀ k, k < (hullCore sort eqEps q m).2 →
      (hullCore sort eqEps q m).1.getD k default ∈ q.take m) ∧
    (∀ j k, j < k → k < (hullCore sort eqEps q m).2 →
      (hullCore sort eqEps q m).1.getD j default ≠
        (hullCore sort eqEps q m).1.getD k default) := by
  obtain ⟨hf0, hPmem, -, hf3⟩ := hullCore_facts sort hs eqEps heps q m h1 hm
  have hcnt := hullCore_count sort eqEps q m
  have hlen := (hullCore_mem sort hs.1 eqEps q m hm (by omega)).1
  obtain ⟨hpw, hmem, hkeep⟩ := hf3 h3
  generalize (findLowest q m).1 = P at *
  generalize (hullCore sort eqEps q m).1 = H at *
  generalize (hullCore sort eqEps q m).2 = cnt at *
  obtain ⟨hgp1, hgp2⟩ := hgp
  have hin : ∀ k, 1 ≤ k → k < cnt → H.getD k default ∈ q.take m ∧ above P (H.getD k default) :=
    fun k hk1 hk2 =>
      ⟨(hmem _ (getD_mem_tail_take H k cnt hk1 hk2 (by omega))).1,
        (hmem _ (getD_mem_tail_take H k cnt hk1 hk2 (by omega))).2.2⟩
  have hinL : ∀ k, k < cnt → H.getD k default ∈ q.take m := by
    intro k hk
    by_cases hk0 : k = 0
    · subst hk0
      rw [hf0]
      exact hPmem
    · exact (hin k (by omega) hk).1
  have hneP : ∀ k, 1 ≤ k → k < cnt → H.getD k default ≠ P :=
    fun k hk1 hk2 => above_ne P _ (hin k hk1 hk2).2
  have hcons : ∀ k, k + 1 < cnt → H.getD k default ≠ H.getD (k + 1) default := by
    intro k hk
    by_cases hk0 : k = 0
    · subst hk0
      rw [hf0]
      exact fun e => hneP 1 (le_refl 1) (by omega) e.symm
    · have := keeps_ne _ _ _ (hkeep (k - 1) (by omega))
      have e1 : k - 1 + 1 = k := by omega
      have e2 : k - 1 + 2 = k + 1 := by omega
      rw [e1, e2] at this
      exact fun e => this e.symm
  have hweak : ∀ j k, 1 ≤ j → j < k → k < cnt →
      0 ≤ (H.getD j default - P).PerpDot (H.getD k default - P) := by
    intro j k hj hjk hk
    have := pairwise_tail_take_getD _ H cnt hpw j k hj hjk hk (by omega)
    rw [SortByPolarAngle_false_iff] at this
    rw [pd_anti]
    linarith
  have he : (0 : ℚ) < scanEpsilon := by simp [scanEpsilon]
  have hadjS : ∀ j, 1 ≤ j → j + 1 < cnt →
      0 < (H.getD j default - P).PerpDot (H.getD (j + 1) default - P) := by
    intro j hj hj1
    have := hgp2 P hPmem _ (hin j hj (by omega)).1 _ (hin (j + 1) (by omega) hj1).1
      (fun e => hneP j hj (by omega) e.symm) (fun e => hneP (j + 1) (by omega) hj1 e.symm)
      (hcons j hj1)
    have hw := hweak j (j + 1) hj (by omega) hj1
    rcases lt_abs.mp this with h | h
    · linarith
    · linarith
  have hstrict : ∀ j k, 1 ≤ j → j < k → k < cnt →
      0 < (H.getD j default - H.getD 0 default).PerpDot
        (H.getD k default - H.getD 0 default) := by
    intro j k hj hjk hk
    rw [hf0]
    by_cases hk1 : k = j + 1
    · subst hk1
      exact hadjS j hj hk
    · exact perpDot_strict_trans P _ _ _ (hin j hj (by omega)).2
        (hin (j + 1) (by omega) (by omega)).2 (hin k (by omega) hk).2 (hadjS j hj (by omega))
        (hweak (j + 1) k (by omega) (by omega) hk)
  have hdist : ∀ j k, j < k → k < cnt → H.getD j default ≠ H.getD k default := by
    intro j k hjk hk
    by_cases hj0 : j = 0
    · subst hj0
      rw [hf0]
      exact fun e => hneP k (by omega) hk e.symm
    · exact ne_of_perpDot_pos _ _ _ (hstrict j k (by omega) hjk hk)
  refine ⟨hstrict, ?_, hcons, hinL, hdist⟩
  intro k hk
  have hne02 : H.getD k default ≠ H.getD (k + 2) default := by
    by_cases hk0 : k = 0
    · subst hk0
      rw [hf0]
      exact fun e => hneP 2 (by omega) hk e.symm
    · have := hstrict k (k + 2) (by omega) (by omega) hk
      exact ne_of_perpDot_pos _ _ _ this
  exact strict_of_keeps _ _ _ (hkeep k hk)
    (hgp2 _ (hinL k (by omega)) _ (hinL (k + 1) (by omega)) _ (hinL (k + 2) hk)
      (hcons k (by omega)) hne02 (hcons (k + 1) hk))

/-- Three points on a line through two distinct points span no area. -/
theorem collinear_of_on_line (u v a b c : float2) (huv : u ≠ v)
    (ha : (v - u).PerpDot (a - u) = 0) (hb : (v - u).PerpDot (b - u) = 0)
    (hc : (v - u).PerpDot (c - u) = 0) : (b - a).PerpDot (c - a) = 0 := by
  simp only [PerpDot, sub_x, sub_y] at ha hb hc ⊢
  have hne : v.x - u.x ≠ 0 ∨ v.y - u.y ≠ 0 := by
    by_contra hcon
    push_neg at hcon
    apply huv
    cases u
    cases v
    simp only [mk.injEq]
    constructor <;> linarith [hcon.1, hcon.2]
  rcases hne with hx | hy
  · have key : (v.x - u.x) * ((b.x - a.x) * (c.y - a.y) - (b.y - a.y) * (c.x - a.x)) = 0 := by
      linear_combination (b.x - a.x) * hc - (c.x - a.x) * hb + (c.x - b.x) * ha
    rcases mul_eq_zero.mp key with h | h
    · exact absurd h hx
    · exact h
  · have key : (v.y - u.y) * ((b.x - a.x) * (c.y - a.y) - (b.y - a.y) * (c.x - a.x)) = 0 := by
      linear_combination (b.y - a.y) * hc - (c.y - a.y) * hb + (c.y - b.y) * ha
    rcases mul_eq_zero.mp key with h | h
    · exact absurd h hy
    · exact h

/-- A vertex of a polygon that encloses three points is not strictly inside their
triangle, when the vertex differs from the vertex before it. -/
theorem not_strictlyInside_of_encloses (u v a b c : float2) (huv : u ≠ v)
    (ha : leftOf u v a) (hb : leftOf u v b) (hc : leftOf u v c) :
    ¬ strictlyInside v a b c := by
  intro hin
  unfold strictlyInside at hin
  unfold leftOf at ha hb hc
  obtain ⟨h1, h2, h3⟩ := hin
  have key : ((b - a).PerpDot (v - a) + (c - b).PerpDot (v - b) + (a - c).PerpDot (v - c)) *
      (v - u).PerpDot (v - u) =
      (c - b).PerpDot (v - b) * (v - u).PerpDot (a - u) +
      (a - c).PerpDot (v - c) * (v - u).PerpDot (b - u) +
      (b - a).PerpDot (v - a) * (v - u).PerpDot (c - u) := by
    simp only [PerpDot, sub_x, sub_y]
    ring
  rw [perpDot_self, mul_zero] at key
  have hza : (v - u).PerpDot (a - u) = 0 := by
    by_contra hne
    have : 0 < (v - u).PerpDot (a - u) := lt_of_le_of_ne ha (Ne.symm hne)
    nlinarith [mul_pos h2 this, mul_nonneg h3.le hb, mul_nonneg h1.le hc]
  have hzb : (v - u).PerpDot (b - u) = 0 := by
    by_contra hne
    have : 0 < (v - u).PerpDot (b - u) := lt_of_le_of_ne hb (Ne.symm hne)
    nlinarith [mul_pos h3 this, mul_nonneg h2.le ha, mul_nonneg h1.le hc]
  have hzc : (v - u).PerpDot (c - u) = 0 := by
    by_contra hne
    have : 0 < (v - u).PerpDot (c - u) := lt_of_le_of_ne hc (Ne.symm hne)
    nlinarith [mul_pos h1 this, mul_nonneg h2.le ha, mul_nonneg h3.le hb]
  have hcol := collinear_of_on_line u v a b c huv hza hzb hzc
  have harea : (b - a).PerpDot (c - a) =
      (b - a).PerpDot (v - a) + (c - b).PerpDot (v - b) + (a - c).PerpDot (v - c) := by
    simp only [PerpDot, sub_x, sub_y]
    ring
  linarith

/-- In general position a returned hull of three or more points turns strictly left at
every vertex, and no vertex coincides with the vertex before it. -/
theorem ConvexHullInPlaceWith_strict
    (sort : (float2 → float2 → Bool) → List float2 → List float2) (hs : SortSpec sort)
    (eqEps : ℚ) (heps : 0 < eqEps) (p : List float2) (h3 : 3 ≤ p.length)
    (hgp : GeneralPosition eqEps p)
    (hh : 3 ≤ (ConvexHullInPlaceWith sort eqEps p (p.length : Int)).2.toNat) :
    ∀ i, i < (ConvexHullInPlaceWith sort eqEps p (p.length : Int)).2.toNat →
      0 < turnAt (ConvexHullInPlaceWith sort eqEps p (p.length : Int)).1
        (ConvexHullInPlaceWith sort eqEps p (p.length : Int)).2.toNat i ∧
      (ConvexHullInPlaceWith sort eqEps p (p.length : Int)).1.getD
          ((i + (ConvexHullInPlaceWith sort eqEps p (p.length : Int)).2.toNat - 1) %
            (ConvexHullInPlaceWith sort eqEps p (p.length : Int)).2.toNat) default ≠
        (ConvexHullInPlaceWith sort eqEps p (p.length : Int)).1.getD i default := by
  obtain ⟨q, m, hql, hm1, hm2, hsub, heq⟩ := hull_stage sort eqEps p h3
  rw [heq] at hh ⊢
  simp only [Int.toNat_ofNat] at hh ⊢
  obtain ⟨hstrict, hturn, hcons, -, -⟩ := hullCore_strict sort hs eqEps heps q m hm1 (by omega)
    (GeneralPosition_mono eqEps p _ hgp (fun x hx => hsub x (List.mem_of_mem_take hx))) hh
  generalize (hullCore sort eqEps q m).1 = H at *
  generalize (hullCore sort eqEps q m).2 = cnt at *
  intro i hi
  unfold turnAt
  by_cases hi0 : i = 0
  · subst hi0
    have e1 : (0 + cnt - 1) % cnt = cnt - 1 := by
      rw [Nat.zero_add]
      exact Nat.mod_eq_of_lt (by omega)
    have e2 : (0 + 1) % cnt = 1 := Nat.mod_eq_of_lt (by omega)
    rw [e1, e2, perpDot_wrap_first]
    have := hstrict 1 (cnt - 1) (le_refl 1) (by omega) (by omega)
    refine ⟨by rw [pd_anti] at this; linarith, ?_⟩
    intro e
    rw [e] at this
    simp only [PerpDot, sub_x, sub_y, sub_self, mul_zero, zero_mul, lt_self_iff_false] at this
  · by_cases hil : i = cnt - 1
    · have e1 : (i + cnt - 1) % cnt = cnt - 2 := by
        have : i + cnt - 1 = cnt - 2 + cnt := by omega
        rw [this, Nat.add_mod_right]
        exact Nat.mod_eq_of_lt (by omega)
      have e2 : (i + 1) % cnt = 0 := by
        have : i + 1 = cnt := by omega
        rw [this, Nat.mod_self]
      rw [e1, e2, hil, perpDot_wrap_last]
      have := hstrict (cnt - 2) (cnt - 1) (by omega) (by omega) (by omega)
      refine ⟨by rw [pd_anti] at this; linarith, ?_⟩
      have hc := hcons (cnt - 2) (by omega)
      have e3 : cnt - 2 + 1 = cnt - 1 := by omega
      rw [e3] at hc
      exact hc
    · have e1 : (i + cnt - 1) % cnt = i - 1 := by
        have : i + cnt - 1 = i - 1 + cnt := by omega
        rw [this, Nat.add_mod_right]
        exact Nat.mod_eq_of_lt (by omega)
      have e2 : (i + 1) % cnt = i + 1 := Nat.mod_eq_of_lt (by omega)
      rw [e1, e2, pd_shift]
      have := hturn (i - 1) (by omega)
      have hc := hcons (i - 1) (by omega)
      have e3 : i - 1 + 1 = i := by omega
      have e4 : i - 1 + 2 = i + 1 := by omega
      rw [e3, e4] at this
      rw [e3] at hc
      exact ⟨this, hc⟩

/-- In general position no two points of a returned hull of three or more points are
equal within the tolerance. -/
theorem ConvexHullInPlaceWith_distinct
    (sort : (float2 → float2 → Bool) → List float2 → List float2) (hs : SortSpec sort)
    (eqEps : ℚ) (heps : 0 < eqEps) (p : List float2) (h3 : 3 ≤ p.length)
    (hgp : GeneralPosition eqEps p)
    (hh : 3 ≤ (ConvexHullInPlaceWith sort eqEps p (p.length : Int)).2.toNat) :
    ∀ j k, j < k → k < (ConvexHullInPlaceWith sort eqEps p (p.length : Int)).2.toNat →
      Equals ((ConvexHullInPlaceWith sort eqEps p (p.length : Int)).1.getD j default)
        ((ConvexHullInPlaceWith sort eqEps p (p.length : Int)).1.getD k default) eqEps =
        false := by
  obtain ⟨q, m, hql, hm1, hm2, hsub, heq⟩ := hull_stage sort eqEps p h3
  rw [heq] at hh ⊢
  simp only [Int.toNat_ofNat] at hh ⊢
  obtain ⟨-, -, -, hin, hdist⟩ := hullCore_strict sort hs eqEps heps q m hm1 (by omega)
    (GeneralPosition_mono eqEps p _ hgp (fun x hx => hsub x (List.mem_of_mem_take hx))) hh
  intro j k hjk hk
  by_contra hne
  rw [Bool.not_eq_false] at hne
  exact hdist j k hjk hk (hgp.1 _ (hsub _ (List.mem_of_mem_take (hin j (by omega)))) _
    (hsub _ (List.mem_of_mem_take (hin k hk))) hne)

end float2

namespace float2

/-! ### The half-plane walk reports a point outside -/

theorem edgeDot_eq (H : List float2) (h i : Nat) (x : float2) :
    edgeDot H h i x =
      (H.getD i default - H.getD ((i + h - 1) % h) default).PerpDot
        (x - H.getD ((i + h - 1) % h) default) := by
  unfold edgeDot
  rw [dot_rotated]

/-- The walk over the indices `a, a+1, ...` started with the running index `j` reports
`false` when some edge has a negative dot product and no start vertex up to that edge is
within the tolerance of the point. -/
theorem containsLoop_false (H : List float2) (x : float2) (eps : ℚ) :
    ∀ (n a j idx : Nat), idx < n →
      (x - H.getD (if idx = 0 then j else a + idx - 1) default).Dot
        (H.getD (a + idx) default -
          H.getD (if idx = 0 then j else a + idx - 1) default).Rotated90CCW < 0 →
      (∀ k, k ≤ idx →
        (x - H.getD (if k = 0 then j else a + k - 1) default).IsZero eps = false) →
      containsLoop H x eps (List.range' a n) j = false := by
  intro n
  induction n with
  | zero => intro a j idx h; omega
  | succ n ih =>
    intro a j idx hidx hneg hnz
    rw [List.range'_succ]
    unfold containsLoop
    simp only []
    have hz0 := hnz 0 (Nat.zero_le _)
    simp only [if_true] at hz0
    rw [hz0]
    simp only [Bool.false_eq_true, if_false]
    by_cases hi0 : idx = 0
    · subst hi0
      simp only [if_true, Nat.add_zero] at hneg
      rw [if_pos hneg]
    · split
      · rfl
      · apply ih (a + 1) a (idx - 1) (by omega)
        · have e1 : a + 1 + (idx - 1) = a + idx := by omega
          have e2 : (if idx - 1 = 0 then a else a + idx - 1) = a + idx - 1 := by
            split <;> omega
          rw [e1, e2]
          simpa [hi0] using hneg
        · intro k hk
          have := hnz (k + 1) (by omega)
          have e2 : (if k = 0 then a else a + 1 + k - 1) = a + (k + 1) - 1 := by
            split <;> omega
          rw [e2]
          simpa using this

/-- `ConvexHullContains` reports `false` when some edge has a negative dot product and
the point is not within the tolerance of the start vertex of that edge or of an edge
walked before it. -/
theorem contains_false_of_outside (eps : ℚ) (H : List float2) (h : Nat) (x : float2) (i : Nat)
    (hi : i < h) (hneg : edgeDot H h i x < 0)
    (hnz : ∀ k, k ≤ i → (x - H.getD ((k + h - 1) % h) default).IsZero eps = false) :
    ConvexHullContains eps H (h : Int) x = false := by
  simp only [ConvexHullContains, Int.toNat_ofNat, List.range_eq_range']
  have hprev : ∀ k, k < h →
      (if k = 0 then ((h : Int) - 1).toNat else 0 + k - 1) = (k + h - 1) % h := by
    intro k hk
    split
    · rename_i hk0
      subst hk0
      rw [Nat.zero_add, Nat.mod_eq_of_lt (by omega)]
      omega
    · have : k + h - 1 = k - 1 + h := by omega
      rw [this, Nat.add_mod_right, Nat.mod_eq_of_lt (by omega)]
      omega
  apply containsLoop_false H x eps h 0 _ i hi
  · rw [hprev i hi, Nat.zero_add]
    exact hneg
  · intro k hk
    rw [hprev k (by omega)]
    exact hnz k hk

end float2

namespace float2

/-! ### Rectangles that enclose a point set -/

theorem foldl_max_ge (l : List ℚ) : ∀ (a : ℚ), a ≤ l.foldl max a ∧ ∀ x ∈ l, x ≤ l.foldl max a := by
  induction l with
  | nil => intro a; exact ⟨le_refl _, fun x hx => by simp at hx⟩
  | cons y l ih =>
    intro a
    simp only [List.foldl_cons]
    obtain ⟨h1, h2⟩ := ih (max a y)
    refine ⟨le_trans (le_max_left _ _) h1, ?_⟩
    intro x hx
    rcases List.mem_cons.mp hx with rfl | hx
    · exact le_trans (le_max_right _ _) h1
    · exact h2 x hx

theorem foldl_min_le (l : List ℚ) : ∀ (a : ℚ), l.foldl min a ≤ a ∧ ∀ x ∈ l, l.foldl min a ≤ x := by
  induction l with
  | nil => intro a; exact ⟨le_refl _, fun x hx => by simp at hx⟩
  | cons y l ih =>
    intro a
    simp only [List.foldl_cons]
    obtain ⟨h1, h2⟩ := ih (min a y)
    refine ⟨le_trans h1 (min_le_left _ _), ?_⟩
    intro x hx
    rcases List.mem_cons.mp hx with rfl | hx
    · exact le_trans h1 (min_le_right _ _)
    · exact h2 x hx

/-- The span of `f` on a list is at least the difference of its values at two points of
the list. -/
theorem spanOf_ge (f : float2 → ℚ) (pts : List float2) (a b : float2) (ha : a ∈ pts)
    (hb : b ∈ pts) : f a - f b ≤ spanOf f pts := by
  unfold spanOf
  have h1 := (foldl_max_ge (pts.map f) (f (pts.getD 0 default))).2 (f a)
    (List.mem_map_of_mem f ha)
  have h2 := (foldl_min_le (pts.map f) (f (pts.getD 0 default))).2 (f b)
    (List.mem_map_of_mem f hb)
  linarith

/-- Every rectangle that encloses the triangle `(0,0), (4,0), (0,3)` has area 12 or
more, whatever its direction. -/
theorem rectArea_triangle (w : float2) (hw : w ≠ ⟨0, 0⟩) (pts : List float2)
    (hA : (⟨0, 0⟩ : float2) ∈ pts) (hB : (⟨4, 0⟩ : float2) ∈ pts)
    (hC : (⟨0, 3⟩ : float2) ∈ pts) : 12 ≤ rectArea w pts := by
  have hpos : 0 < w.LengthSq := by
    unfold LengthSq
    rcases w with ⟨wx, wy⟩
    simp only [ne_eq, mk.injEq, not_and] at hw
    by_cases hx : wx = 0
    · have := hw hx
      have : 0 < wy * wy := mul_self_pos.mpr this
      linarith [mul_self_nonneg wx]
    · have : 0 < wx * wx := mul_self_pos.mpr hx
      linarith [mul_self_nonneg wy]
  unfold rectArea
  rw [le_div_iff₀ hpos]
  have u1 := spanOf_ge (fun q => w.PerpDot q) pts _ _ hA hB
  have u2 := spanOf_ge (fun q => w.PerpDot q) pts _ _ hB hA
  have u3 := spanOf_ge (fun q => w.PerpDot q) pts _ _ hA hC
  have u4 := spanOf_ge (fun q => w.PerpDot q) pts _ _ hC hA
  have u5 := spanOf_ge (fun q => w.PerpDot q) pts _ _ hB hC
  have u6 := spanOf_ge (fun q => w.PerpDot q) pts _ _ hC hB
  have v1 := spanOf_ge (fun q => w.Dot q) pts _ _ hA hB
  have v2 := spanOf_ge (fun q => w.Dot q) pts _ _ hB hA
  have v3 := spanOf_ge (fun q => w.Dot q) pts _ _ hA hC
  have v4 := spanOf_ge (fun q => w.Dot q) pts _ _ hC hA
  have v5 := spanOf_ge (fun q => w.Dot q) pts _ _ hB hC
  have v6 := spanOf_ge (fun q => w.Dot q) pts _ _ hC hB
  simp only [PerpDot, Dot, LengthSq, mul_zero, zero_mul, sub_zero, zero_sub, add_zero,
    zero_add] at u1 u2 u3 u4 u5 u6 v1 v2 v3 v4 v5 v6 ⊢
  generalize spanOf (fun q => w.x * q.y - w.y * q.x) pts = U at *
  generalize spanOf (fun q => w.x * q.x + w.y * q.y) pts = V at *
  rcases w with ⟨wx, wy⟩
  simp only [] at *
  have hU : 0 ≤ U := by linarith
  have hV : 0 ≤ V := by linarith
  rcases le_total 0 wx with hx | hx <;> rcases le_total 0 wy with hy | hy
  · rcases le_total (3 * wy) (4 * wx) with h | h
    · have key := mul_le_mul u6 v2 (by linarith) hU
      linarith [key, mul_nonneg hy (sub_nonneg.mpr h)]
    · have key := mul_le_mul u6 v4 (by linarith) hU
      linarith [key, mul_nonneg hx (sub_nonneg.mpr h)]
  · rcases le_total (3 * wx) (-(4 * wy)) with h | h
    · have key := mul_le_mul u2 v5 (by linarith) hU
      linarith [key, mul_nonneg hx (sub_nonneg.mpr h)]
    · have key := mul_le_mul u4 v5 (by linarith) hU
      linarith [key, mul_nonneg (neg_nonneg.mpr hy) (sub_nonneg.mpr h)]
  · rcases le_total (-(3 * wx)) (4 * wy) with h | h
    · have key := mul_le_mul u1 v6 (by linarith) hU
      linarith [key, mul_nonneg (neg_nonneg.mpr hx) (sub_nonneg.mpr h)]
    · have key := mul_le_mul u3 v6 (by linarith) hU
      linarith [key, mul_nonneg hy (sub_nonneg.mpr h)]
  · rcases le_total (-(3 * wy)) (-(4 * wx)) with h | h
    · have key := mul_le_mul u5 v1 (by linarith) hU
      linarith [key, mul_nonneg (neg_nonneg.mpr hy) (sub_nonneg.mpr h)]
    · have key := mul_le_mul u5 v3 (by linarith) hU
      linarith [key, mul_nonneg (neg_nonneg.mpr hx) (sub_nonneg.mpr h)]

end float2

namespace float2

/-! ### The scan on collinear candidates: consecutive hull points stay apart -/

theorem Equals_false_iff (a b : float2) (eps : ℚ) :
    a.Equals b eps = false ↔ eps ≤ |a.x - b.x| ∨ eps ≤ |a.y - b.y| := by
  unfold Equals EqualAbs
  simp only [Bool.and_eq_false_iff, decide_eq_false_iff_not, not_lt]

/-- A vector parallel to `a` and at least as long is apart from zero beyond the tolerance
when `a` is. -/
theorem apart_of_longer_parallel (a d : float2) (eps : ℚ)
    (hpar : d.x * a.y - d.y * a.x = 0) (hlen : a.Dot a ≤ d.Dot d)
    (ha : eps ≤ |a.x| ∨ eps ≤ |a.y|) : eps ≤ |d.x| ∨ eps ≤ |d.y| := by
  by_contra hcon
  push_neg at hcon
  obtain ⟨hdx, hdy⟩ := hcon
  simp only [Dot] at hlen
  have hdx0 : 0 ≤ |d.x| := abs_nonneg _
  have hdy0 : 0 ≤ |d.y| := abs_nonneg _
  have sqx : |d.x| * |d.x| = d.x * d.x := abs_mul_abs_self _
  have sqy : |d.y| * |d.y| = d.y * d.y := abs_mul_abs_self _
  have sqax : |a.x| * |a.x| = a.x * a.x := abs_mul_abs_self _
  have sqay : |a.y| * |a.y| = a.y * a.y := abs_mul_abs_self _
  have hcross : (d.x * d.x) * (a.y * a.y) = (d.y * d.y) * (a.x * a.x) := by
    have : d.x * a.y = d.y * a.x := by linarith
    calc (d.x * d.x) * (a.y * a.y) = (d.x * a.y) * (d.x * a.y) := by ring
      _ = (d.y * a.x) * (d.y * a.x) := by rw [this]
      _ = (d.y * d.y) * (a.x * a.x) := by ring
  rcases ha with h | h
  · have h1 : d.x * d.x < a.x * a.x := by
      rw [← sqx, ← sqax]
      exact mul_lt_mul'' (lt_of_lt_of_le hdx h) (lt_of_lt_of_le hdx h) hdx0 hdx0
    have h2 : a.y * a.y < d.y * d.y := by linarith
    have h3 : 0 < a.x * a.x := lt_of_le_of_lt (mul_self_nonneg _) h1
    have k1 := mul_lt_mul_of_pos_right h2 h3
    have k2 := mul_le_mul_of_nonneg_left (le_of_lt h1) (mul_self_nonneg a.y)
    linarith
  · have h1 : d.y * d.y < a.y * a.y := by
      rw [← sqy, ← sqay]
      exact mul_lt_mul'' (lt_of_lt_of_le hdy h) (lt_of_lt_of_le hdy h) hdy0 hdy0
    have h2 : a.x * a.x < d.x * d.x := by linarith
    have h3 : 0 < a.y * a.y := lt_of_le_of_lt (mul_self_nonneg _) h1
    have k1 := mul_lt_mul_of_pos_right h2 h3
    have k2 := mul_le_mul_of_nonneg_left (le_of_lt h1) (mul_self_nonneg a.x)
    linarith

theorem scanStep_gap (eqEps : ℚ) (p : List float2) (n i : Nat)
    (s : List float2 × Nat × float2)
    (hcol : ∀ a b c, a < n → b < n → c < n →
      (p.getD b default - p.getD a default).PerpDot (p.getD c default - p.getD a default) = 0)
    (hadj : ∀ k, 1 ≤ k → k < n →
      (p.getD k default).Equals (p.getD (k - 1) default) eqEps = false)
    (hi2 : 2 ≤ i) (hin : i < n) (hn : n ≤ p.length) (h : ScanGap eqEps p i s) :
    ScanGap eqEps p (i + 1) (scanStep s i) := by
  obtain ⟨hK, htop, hgap⟩ := h
  have hK' := scanStep_K p i s (by omega) hK
  obtain ⟨hl, h1, h2, h0, hun, ha, hsub, hkeep⟩ := hK
  have hpi : s.1.getD i default = p.getD i default := hun i (le_refl i)
  have hpopped := popLoop_popped s.1 (s.1.getD i default) s.2.1 s.2.2
    (s.1.getD i default - s.1.getD (s.2.1 - 1) default)
    (scanDir (s.1.getD i default - s.1.getD (s.2.1 - 1) default) s.2.2) h1 ha rfl rfl
  have hle := popLoop_le s.1 (s.1.getD i default) s.2.1 s.2.2
    (s.1.getD i default - s.1.getD (s.2.1 - 1) default)
    (scanDir (s.1.getD i default - s.1.getD (s.2.1 - 1) default) s.2.2)
  refine ⟨hK', ?_⟩
  simp only [scanStep]
  generalize (popLoop s.1 (s.1.getD i default) s.2.1 s.2.2
    (s.1.getD i default - s.1.getD (s.2.1 - 1) default)
    (scanDir (s.1.getD i default - s.1.getD (s.2.1 - 1) default) s.2.2)).1 = h' at hpopped hle
  rw [hpi] at hpopped ⊢
  -- every entry of the hull so far is an entry of the input range
  have inP : ∀ k, k ≤ s.2.1 → ∃ a, a < n ∧ p.getD a default = s.1.getD k default := by
    intro k hk
    have hm : s.1.getD k default ∈ s.1.take (s.2.1 + 1) :=
      mem_take_of_getD s.1 k (s.2.1 + 1) (by omega) (by omega)
    obtain ⟨j, hj1, _, hj3⟩ := exists_of_mem_take _ _ _ (hsub.subset hm)
    exact ⟨j, by omega, hj3⟩
  refine ⟨?_, ?_⟩
  · rw [getD_set_self _ _ _ _ (by omega), Nat.add_sub_cancel]
  · intro k hk
    have hk2 : k + 1 ≤ h' + 1 := hk
    by_cases hkh : k + 1 ≤ h'
    · rw [getD_set_ne _ _ _ _ _ (by omega), getD_set_ne _ _ _ _ _ (by omega)]
      exact hgap k (by omega)
    · have hkeq : k = h' := by omega
      subst hkeq
      rw [getD_set_self _ _ _ _ (by omega), getD_set_ne _ _ _ _ _ (by omega)]
      by_cases hpd : k < s.2.1
      · -- a pop has happened: the candidate is at least as far as the popped point
        have hnk := hpopped hpd
        obtain ⟨a, ha1, ha2⟩ := inP k (by omega)
        obtain ⟨b, hb1, hb2⟩ := inP (k + 1) (by omega)
        have hc := hcol a b i ha1 hb1 hin
        rw [ha2, hb2] at hc
        have hold := hgap k (by omega)
        rw [Equals_false_iff] at hold ⊢
        have hdir : scanDir (p.getD i default - s.1.getD k default)
            (s.1.getD (k + 1) default - s.1.getD k default) = 0 := by
          simp only [scanDir, PerpDot, sub_x, sub_y] at hc ⊢
          linarith
        have hlen : (s.1.getD (k + 1) default - s.1.getD k default).Dot
              (s.1.getD (k + 1) default - s.1.getD k default) ≤
            (p.getD i default - s.1.getD k default).Dot
              (p.getD i default - s.1.getD k default) := by
          by_contra hlt
          push_neg at hlt
          apply hnk
          rw [keeps_iff, hdir]
          have he : (0 : ℚ) < scanEpsilon := by simp [scanEpsilon]
          exact ⟨le_of_lt he, Or.inr hlt⟩
        have := apart_of_longer_parallel
          (s.1.getD (k + 1) default - s.1.getD k default)
          (p.getD i default - s.1.getD k default) eqEps
          (by rw [scanDir] at hdir; exact hdir) hlen
          (by simpa only [sub_x, sub_y] using hold)
        simpa only [sub_x, sub_y] using this
      · -- no pop: the candidate follows the top of the hull in the buffer
        have hkeq : k = s.2.1 := by omega
        rw [hkeq, htop]
        exact hadj i (by omega) hin

theorem grahamScan_gap (eqEps : ℚ) (p : List float2) (n : Nat)
    (hcol : ∀ a b c, a < n → b < n → c < n →
      (p.getD b default - p.getD a default).PerpDot (p.getD c default - p.getD a default) = 0)
    (hadj : ∀ k, 1 ≤ k → k < n →
      (p.getD k default).Equals (p.getD (k - 1) default) eqEps = false)
    (h2 : 2 ≤ n) (hn : n ≤ p.length) : ScanGap eqEps p n (grahamScan p n) := by
  have key := foldl_range'_inv scanStep (ScanGap eqEps p) (n - 2) 2
    (p, 1, p.getD 1 default - p.getD 0 default)
    ⟨⟨rfl, le_refl 1, by simp, rfl, fun _ _ => rfl, rfl, List.Sublist.refl _,
        fun k hk => by simp at hk⟩, rfl, fun k hk => by
        have hk0 : k = 0 := by simp only [] at hk; omega
        subst hk0
        exact hadj 1 (le_refl 1) (by omega)⟩
    (fun i s hi2 hlt hinv => scanStep_gap eqEps p n i s hcol hadj hi2 (by omega) hn hinv)
  have e : 2 + (n - 2) = n := by omega
  rw [e] at key
  exact key

end float2

namespace float2

/-! ### Reads of the calipers stay inside the hull -/

theorem deref_some (p : List float2) (cnt i : Nat) (hi : i < cnt) (hl : cnt ≤ p.length) :
    deref p (cnt : Int) i = some (p.getD i default) := by
  unfold deref
  rw [if_pos (by exact_mod_cast hi)]
  rw [List.get?_eq_getElem?, List.getElem?_eq_getElem (by omega),
    List.getD_eq_getElem _ _ (by omega)]

theorem NEXT_P_lt (cnt i : Nat) (h : 1 ≤ cnt) : NEXT_P (cnt : Int) i < cnt := by
  unfold NEXT_P
  split <;> omega

theorem edgeDir_some (Sqrt : ℚ → ℚ) (p : List float2) (cnt i : Nat) (hi : i < cnt)
    (hl : cnt ≤ p.length) :
    edgeDir Sqrt p (cnt : Int) i =
      some ((p.getD (NEXT_P (cnt : Int) i) default - p.getD i default).Normalized Sqrt) := by
  unfold edgeDir
  rw [deref_some p cnt _ (NEXT_P_lt cnt i (by omega)) hl, deref_some p cnt i hi hl]
  rfl

theorem measuredArea_nonneg (p : List float2) (s : Calipers) : 0 ≤ measuredArea p s :=
  mul_nonneg (abs_nonneg _) (abs_nonneg _)

theorem caliperMeasure_some (p : List float2) (cnt : Nat) (s : Calipers)
    (he : InHull cnt s.e) (hl : cnt ≤ p.length) :
    ∃ s', caliperMeasure p (cnt : Int) s = some s' ∧ s'.e = s.e ∧
      s'.minArea = (if measuredArea p s < s.minArea then measuredArea p s else s.minArea) := by
  obtain ⟨h0, h1, h2, h3⟩ := he
  unfold caliperMeasure
  rw [deref_some p cnt _ h0 hl, deref_some p cnt _ h2 hl, deref_some p cnt _ h1 hl,
    deref_some p cnt _ h3 hl]
  simp only [Option.some_bind]
  by_cases hlt : measuredArea p s < s.minArea
  · unfold measuredArea at hlt
    rw [if_pos hlt]
    refine ⟨_, rfl, rfl, ?_⟩
    unfold measuredArea
    rw [if_pos hlt]
  · unfold measuredArea at hlt
    rw [if_neg hlt]
    refine ⟨_, rfl, rfl, ?_⟩
    unfold measuredArea
    rw [if_neg hlt]

theorem caliperAdvance_some (Sqrt : ℚ → ℚ) (p : List float2) (cnt : Nat) (s : Calipers)
    (he : InHull cnt s.e) (hl : cnt ≤ p.length) :
    ∃ s', caliperAdvance Sqrt p (cnt : Int) s = some s' ∧ InHull cnt s'.e ∧
      s'.minArea = s.minArea ∧
      (s'.ed = s.d0 ∨ s'.ed = s.d1.Rotated90CW ∨ s'.ed = s.d2.neg ∨
        s'.ed = s.d3.Rotated90CCW) := by
  obtain ⟨h0, h1, h2, h3⟩ := he
  have hc : 1 ≤ cnt := by omega
  unfold caliperAdvance
  simp only []
  split
  · rw [edgeDir_some Sqrt p cnt _ (NEXT_P_lt cnt _ hc) hl]
    exact ⟨_, rfl, ⟨NEXT_P_lt cnt _ hc, h1, h2, h3⟩, rfl, Or.inl rfl⟩
  · split
    · rw [edgeDir_some Sqrt p cnt _ (NEXT_P_lt cnt _ hc) hl]
      exact ⟨_, rfl, ⟨h0, NEXT_P_lt cnt _ hc, h2, h3⟩, rfl, Or.inr (Or.inl rfl)⟩
    · split
      · rw [edgeDir_some Sqrt p cnt _ (NEXT_P_lt cnt _ hc) hl]
        exact ⟨_, rfl, ⟨h0, h1, NEXT_P_lt cnt _ hc, h3⟩, rfl, Or.inr (Or.inr (Or.inl rfl))⟩
      · rw [edgeDir_some Sqrt p cnt _ (NEXT_P_lt cnt _ hc) hl]
        exact ⟨_, rfl, ⟨h0, h1, h2, NEXT_P_lt cnt _ hc⟩, rfl, Or.inr (Or.inr (Or.inr rfl))⟩

/-- Once the best area is zero it stays zero, and the loop reads inside the hull. -/
theorem caliperLoop_zero (Sqrt : ℚ → ℚ) (p : List float2) (cnt : Nat) (hl : cnt ≤ p.length) :
    ∀ (k : Nat) (s : Calipers), InHull cnt s.e → s.minArea = 0 →
      ∃ s', caliperLoop Sqrt p (cnt : Int) k s = some s' ∧ s'.minArea = 0 := by
  intro k
  induction k with
  | zero => intro s _ hz; exact ⟨s, rfl, hz⟩
  | succ k ih =>
    intro s he hz
    obtain ⟨s1, hs1, he1, hm1, -⟩ := caliperAdvance_some Sqrt p cnt s he hl
    obtain ⟨s2, hs2, he2, hm2⟩ := caliperMeasure_some p cnt s1 he1 hl
    have hz2 : s2.minArea = 0 := by
      rw [hm2, hm1, hz, if_neg (not_lt.mpr (measuredArea_nonneg p s1))]
    obtain ⟨s3, hs3, hz3⟩ := ih s2 (he2 ▸ he1) hz2
    refine ⟨s3, ?_, hz3⟩
    unfold caliperLoop caliperStep
    rw [hs1, Option.some_bind, hs2, Option.some_bind, hs3]

end float2

namespace float2

/-! ### The calipers on a collinear hull -/

theorem perpDot_sub_right (a b c : float2) : a.PerpDot b - a.PerpDot c = a.PerpDot (b - c) := by
  simp only [PerpDot, sub_x, sub_y]
  ring

theorem dot_sub_right (a b c : float2) : a.Dot b - a.Dot c = a.Dot (b - c) := by
  simp only [Dot, sub_x, sub_y]
  ring

/-- Two vectors parallel to a third one, which is not zero, are parallel. -/
theorem par_par (a b w : float2) (ha : a.PerpDot w = 0) (hb : b.PerpDot w = 0)
    (hw : w ≠ ⟨0, 0⟩) : a.PerpDot b = 0 := by
  simp only [PerpDot] at ha hb ⊢
  have hne : w.x ≠ 0 ∨ w.y ≠ 0 := by
    by_contra hcon
    push_neg at hcon
    apply hw
    cases w
    simp only [mk.injEq]
    exact hcon
  rcases hne with hx | hy
  · have key : w.x * (a.x * b.y - a.y * b.x) = 0 := by
      linear_combination b.x * ha - a.x * hb
    rcases mul_eq_zero.mp key with h | h
    · exact absurd h hx
    · exact h
  · have key : w.y * (a.x * b.y - a.y * b.x) = 0 := by
      linear_combination b.y * ha - a.y * hb
    rcases mul_eq_zero.mp key with h | h
    · exact absurd h hy
    · exact h

/-- A vector orthogonal to `w` is orthogonal to every vector parallel to `w`. -/
theorem perp_par (a b w : float2) (ha : a.Dot w = 0) (hb : b.PerpDot w = 0)
    (hw : w ≠ ⟨0, 0⟩) : a.Dot b = 0 := by
  simp only [PerpDot, Dot] at ha hb ⊢
  have hne : w.x ≠ 0 ∨ w.y ≠ 0 := by
    by_contra hcon
    push_neg at hcon
    apply hw
    cases w
    simp only [mk.injEq]
    exact hcon
  rcases hne with hx | hy
  · have key : w.x * (a.x * b.x + a.y * b.y) = 0 := by
      linear_combination b.x * ha - a.y * hb
    rcases mul_eq_zero.mp key with h | h
    · exact absurd h hx
    · exact h
  · have key : w.y * (a.x * b.x + a.y * b.y) = 0 := by
      linear_combination b.y * ha + a.x * hb
    rcases mul_eq_zero.mp key with h | h
    · exact absurd h hy
    · exact h

theorem Normalized_parallel (Sqrt : ℚ → ℚ) (v w : float2) (hv : v.PerpDot w = 0)
    (hN : 1 / 1000000 < v.LengthSq) : (v.Normalized Sqrt).PerpDot w = 0 := by
  unfold Normalized Normalize
  simp only []
  rw [if_pos hN]
  simp only [PerpDot, mul] at hv ⊢
  linear_combination (1 / Sqrt v.LengthSq) * hv

theorem Normalized_short (Sqrt : ℚ → ℚ) (v : float2) (hN : ¬ 1 / 1000000 < v.LengthSq) :
    v.Normalized Sqrt = ⟨1, 0⟩ := by
  unfold Normalized Normalize
  simp only []
  rw [if_neg hN]

/-- The extreme indices found are ordered: the entry at `minX` is not to the right of
the entry at `maxX`, and the entry at `minY` is not above the entry at `maxY`. -/
theorem findExtremes_order (p : List float2) (n : Nat) :
    (p.getD (findExtremes p n).minX default).x ≤ (p.getD (findExtremes p n).maxX default).x ∧
    (p.getD (findExtremes p n).minY default).y ≤ (p.getD (findExtremes p n).maxY default).y := by
  have key := foldl_range'_inv (extremeStep p)
    (fun _ e => (p.getD e.minX default).x ≤ (p.getD e.maxX default).x ∧
      (p.getD e.minY default).y ≤ (p.getD e.maxY default).y) (n - 1) 1 ⟨0, 0, 0, 0⟩
    ⟨le_refl _, le_refl _⟩
    (fun i e _ _ hinv => by
      obtain ⟨h1, h2⟩ := hinv
      show (p.getD (extremeStep p e i).minX default).x ≤ _ ∧ _
      simp only [extremeStep]
      split_ifs <;> refine ⟨?_, ?_⟩ <;> linarith)
  exact key

/-- One iteration of the calipers brings the best area to zero when the edge directions
are parallel to the line that carries the hull. -/
theorem caliperStep_aligned (Sqrt : ℚ → ℚ) (p : List float2) (cnt : Nat) (s : Calipers)
    (he : InHull cnt s.e) (hl : cnt ≤ p.length) (hm : 0 ≤ s.minArea) (w : float2)
    (hw : w ≠ ⟨0, 0⟩)
    (hline : ∀ i j, i < cnt → j < cnt →
      (p.getD j default - p.getD i default).PerpDot w = 0)
    (hd0 : s.d0.PerpDot w = 0) (hd1 : s.d1.PerpDot w = 0) (hd2 : s.d2.PerpDot w = 0)
    (hd3 : s.d3.PerpDot w = 0) :
    ∃ s', caliperStep Sqrt p (cnt : Int) s = some s' ∧ InHull cnt s'.e ∧ s'.minArea = 0 := by
  obtain ⟨s1, hs1, he1, hm1, hed⟩ := caliperAdvance_some Sqrt p cnt s he hl
  obtain ⟨s2, hs2, he2, hm2⟩ := caliperMeasure_some p cnt s1 he1 hl
  have harea : measuredArea p s1 = 0 := by
    unfold measuredArea
    rw [perpDot_sub_right, dot_sub_right]
    have hu := hline _ _ he1.1 he1.2.2.1
    have hv := hline _ _ he1.2.1 he1.2.2.2
    rcases hed with h | h | h | h
    · rw [h, par_par _ _ w hd0 hu hw]
      simp
    · have : s1.ed.Dot w = 0 := by
        rw [h]
        simp only [Dot, Rotated90CW, PerpDot] at hd1 ⊢
        linarith
      rw [perp_par _ _ w this hv hw]
      simp
    · have : s1.ed.PerpDot w = 0 := by
        rw [h]
        simp only [neg, PerpDot] at hd2 ⊢
        linarith
      rw [par_par _ _ w this hu hw]
      simp
    · have : s1.ed.Dot w = 0 := by
        rw [h]
        simp only [Dot, Rotated90CCW, PerpDot] at hd3 ⊢
        linarith
      rw [perp_par _ _ w this hv hw]
      simp
  refine ⟨s2, ?_, he2 ▸ he1, ?_⟩
  · unfold caliperStep
    rw [hs1, Option.some_bind, hs2]
  · rw [hm2, harea, hm1]
    split
    · rfl
    · rename_i hlt
      linarith [not_lt.mp hlt]

end float2

namespace float2

theorem NEXT_P_two (i j : Nat) (hi : i < 2) (hj : j < 2) (hne : i ≠ j) :
    NEXT_P ((2 : Nat) : Int) i = j := by
  unfold NEXT_P
  split <;> omega

/-- On a hull of two points whose edge is too short to be normalized, the first
iteration advances the caliper at the lowest point to the highest point, and the
rectangle measured has no height. -/
theorem caliperStep_two (Sqrt : ℚ → ℚ) (p : List float2) (hl : 2 ≤ p.length) (s : Calipers)
    (he : InHull 2 s.e) (hne : s.e.minY ≠ s.e.maxY) (hed : s.ed = ⟨0, -1⟩)
    (hd0 : s.d0 = ⟨1, 0⟩) (hd1 : s.d1 = ⟨1, 0⟩) (hd2 : s.d2 = ⟨1, 0⟩) (hd3 : s.d3 = ⟨1, 0⟩)
    (hm : 0 ≤ s.minArea) :
    ∃ s', caliperStep Sqrt p ((2 : Nat) : Int) s = some s' ∧ InHull 2 s'.e ∧
      s'.minArea = 0 := by
  obtain ⟨h0, h1, h2, h3⟩ := he
  have hnext := NEXT_P_two s.e.minY s.e.maxY h1 h3 hne
  have hadv : caliperAdvance Sqrt p ((2 : Nat) : Int) s =
      some { s with
        ed := s.d1.Rotated90CW
        e := { s.e with minY := s.e.maxY }
        d1 := (p.getD (NEXT_P ((2 : Nat) : Int) s.e.maxY) default -
          p.getD s.e.maxY default).Normalized Sqrt } := by
    unfold caliperAdvance
    simp only [hed, hd0, hd1, hd2, hd3, Dot, PerpDot]
    rw [if_neg (by norm_num), if_pos (by norm_num)]
    rw [hnext, edgeDir_some Sqrt p 2 _ h3 hl]
    rfl
  obtain ⟨s2, hs2, he2, hm2⟩ := caliperMeasure_some p 2
    { s with
      ed := s.d1.Rotated90CW
      e := { s.e with minY := s.e.maxY }
      d1 := (p.getD (NEXT_P ((2 : Nat) : Int) s.e.maxY) default -
        p.getD s.e.maxY default).Normalized Sqrt } ⟨h0, h3, h2, h3⟩ hl
  have harea : measuredArea p
      { s with
        ed := s.d1.Rotated90CW
        e := { s.e with minY := s.e.maxY }
        d1 := (p.getD (NEXT_P ((2 : Nat) : Int) s.e.maxY) default -
          p.getD s.e.maxY default).Normalized Sqrt } = 0 := by
    unfold measuredArea
    simp
  refine ⟨s2, ?_, ?_, ?_⟩
  · unfold caliperStep
    rw [hadv, Option.some_bind, hs2]
  · rw [he2]
    exact ⟨h0, h3, h2, h3⟩
  · rw [hm2, harea]
    simp only []
    split
    · rfl
    · rename_i hlt
      linarith [not_lt.mp hlt]

end float2

namespace float2

/-- A vector parallel to a line that is not axis-aligned, and apart from zero beyond a
tolerance of `1e-3` or more, is long enough to be normalized. -/
theorem apart_lengthSq (v w : float2) (eps : ℚ) (heps : 1 / 1000 ≤ eps)
    (hv : v.PerpDot w = 0) (hwx : w.x ≠ 0) (hwy : w.y ≠ 0)
    (ha : eps ≤ |v.x| ∨ eps ≤ |v.y|) : 1 / 1000000 < v.LengthSq := by
  simp only [PerpDot] at hv
  unfold LengthSq
  have sqx : |v.x| * |v.x| = v.x * v.x := abs_mul_abs_self _
  have sqy : |v.y| * |v.y| = v.y * v.y := abs_mul_abs_self _
  rcases ha with h | h
  · have hx2 : 1 / 1000000 ≤ v.x * v.x := by
      rw [← sqx]
      have h' : (1 : ℚ) / 1000 ≤ |v.x| := le_trans heps h
      have := mul_le_mul h' h' (by norm_num) (abs_nonneg v.x)
      linarith
    have hx0 : v.x ≠ 0 := by
      intro h0
      rw [h0, abs_zero] at h
      linarith
    have hy0 : v.y ≠ 0 := by
      intro h0
      rw [h0, zero_mul, sub_zero] at hv
      rcases mul_eq_zero.mp hv with h' | h'
      · exact hx0 h'
      · exact hwy h'
    have : 0 < v.y * v.y := mul_self_pos.mpr hy0
    linarith
  · have hy2 : 1 / 1000000 ≤ v.y * v.y := by
      rw [← sqy]
      have h' : (1 : ℚ) / 1000 ≤ |v.y| := le_trans heps h
      have := mul_le_mul h' h' (by norm_num) (abs_nonneg v.y)
      linarith
    have hy0 : v.y ≠ 0 := by
      intro h0
      rw [h0, abs_zero] at h
      linarith
    have hx0 : v.x ≠ 0 := by
      intro h0
      rw [h0, zero_mul, zero_sub, neg_eq_zero] at hv
      rcases mul_eq_zero.mp hv with h' | h'
      · exact hy0 h'
      · exact hwx h'
    have : 0 < v.x * v.x := mul_self_pos.mpr hx0
    linarith

/-- On a collinear hull the calipers return the area 0, reading inside the hull only:
the first iteration measures a rectangle without width or without height, unless the
axis-aligned guess is zero already. -/
theorem rotatingCalipers_collinear (Sqrt : ℚ → ℚ) (eqEps : ℚ) (heps : 1 / 1000 ≤ eqEps)
    (H : List float2) (cnt : Nat) (h1 : 1 ≤ cnt) (hl : cnt ≤ H.length) (out : RectOut)
    (hcol : ∀ i j k, i < cnt → j < cnt → k < cnt →
      (H.getD j default - H.getD i default).PerpDot (H.getD k default - H.getD i default) = 0)
    (hgap : 3 ≤ cnt → ∀ i, i < cnt →
      (H.getD (NEXT_P (cnt : Int) i) default).Equals (H.getD i default) eqEps = false) :
    ∃ o, rotatingCalipers Sqrt H (cnt : Int) out = some (o, 0) := by
  have hb := findExtremes_bound H cnt
  have hmax : max cnt 1 = cnt := by omega
  rw [hmax] at hb
  have ho := findExtremes_order H cnt
  unfold rotatingCalipers
  simp only [Int.toNat_ofNat]
  rw [deref_some H cnt _ hb.2.2.1 hl, deref_some H cnt _ hb.1 hl,
    deref_some H cnt _ hb.2.2.2 hl, deref_some H cnt _ hb.2.1 hl,
    edgeDir_some Sqrt H cnt _ hb.1 hl, edgeDir_some Sqrt H cnt _ hb.2.1 hl,
    edgeDir_some Sqrt H cnt _ hb.2.2.1 hl, edgeDir_some Sqrt H cnt _ hb.2.2.2 hl]
  simp only [Option.some_bind]
  generalize findExtremes H cnt = e at hb ho ⊢
  have hIn : InHull cnt e := hb
  obtain ⟨s0, hs0⟩ : ∃ s0 : Calipers, s0 =
      { e := e, ed := unitY.neg,
        d0 := (H.getD (NEXT_P (cnt : Int) e.minX) default - H.getD e.minX default).Normalized Sqrt,
        d1 := (H.getD (NEXT_P (cnt : Int) e.minY) default - H.getD e.minY default).Normalized Sqrt,
        d2 := (H.getD (NEXT_P (cnt : Int) e.maxX) default - H.getD e.maxX default).Normalized Sqrt,
        d3 := (H.getD (NEXT_P (cnt : Int) e.maxY) default - H.getD e.maxY default).Normalized Sqrt,
        minArea := ((H.getD e.maxX default).x - (H.getD e.minX default).x) *
          ((H.getD e.maxY default).y - (H.getD e.minY default).y),
        out := out } := ⟨_, rfl⟩
  rw [← hs0]
  have he0 : s0.e = e := by rw [hs0]
  have hed0 : s0.ed = ⟨0, -1⟩ := by rw [hs0]; simp [unitY, neg]
  have hd0 : s0.d0 = (H.getD (NEXT_P (cnt : Int) e.minX) default -
      H.getD e.minX default).Normalized Sqrt := by rw [hs0]
  have hd1 : s0.d1 = (H.getD (NEXT_P (cnt : Int) e.minY) default -
      H.getD e.minY default).Normalized Sqrt := by rw [hs0]
  have hd2 : s0.d2 = (H.getD (NEXT_P (cnt : Int) e.maxX) default -
      H.getD e.maxX default).Normalized Sqrt := by rw [hs0]
  have hd3 : s0.d3 = (H.getD (NEXT_P (cnt : Int) e.maxY) default -
      H.getD e.maxY default).Normalized Sqrt := by rw [hs0]
  have hmA : s0.minArea = ((H.getD e.maxX default).x - (H.getD e.minX default).x) *
      ((H.getD e.maxY default).y - (H.getD e.minY default).y) := by rw [hs0]
  clear hs0
  have hIn0 : InHull cnt s0.e := by rw [he0]; exact hIn
  suffices hloop : ∃ s', caliperLoop Sqrt H (cnt : Int) cnt s0 = some s' ∧ s'.minArea = 0 by
    obtain ⟨s', hs', hz⟩ := hloop
    rw [hs', Option.some_bind, hz]
    exact ⟨_, rfl⟩
  by_cases hA : ((H.getD e.maxX default).x - (H.getD e.minX default).x) *
      ((H.getD e.maxY default).y - (H.getD e.minY default).y) = 0
  · exact caliperLoop_zero Sqrt H cnt hl cnt s0 hIn0 (hmA.trans hA)
  · have hx : (H.getD e.maxX default).x - (H.getD e.minX default).x ≠ 0 :=
      fun h => hA (by rw [h, zero_mul])
    have hy : (H.getD e.maxY default).y - (H.getD e.minY default).y ≠ 0 :=
      fun h => hA (by rw [h, mul_zero])
    have hA0 : 0 ≤ s0.minArea := by
      rw [hmA]
      exact mul_nonneg (by linarith [ho.1]) (by linarith [ho.2])
    have hneY : s0.e.minY ≠ s0.e.maxY := by
      rw [he0]
      intro h
      apply hy
      rw [h, sub_self]
    -- the line that carries the hull
    have hline : ∀ i j, i < cnt → j < cnt →
        (H.getD j default - H.getD i default).PerpDot
          (H.getD e.maxX default - H.getD e.minX default) = 0 := by
      intro i j hi hj
      have c1 := hcol e.minX e.maxX i hb.1 hb.2.2.1 hi
      have c2 := hcol e.minX e.maxX j hb.1 hb.2.2.1 hj
      simp only [PerpDot, sub_x, sub_y] at c1 c2 ⊢
      linarith
    have hwx : (H.getD e.maxX default - H.getD e.minX default).x ≠ 0 := by
      rw [sub_x]
      exact hx
    have hwy : (H.getD e.maxX default - H.getD e.minX default).y ≠ 0 := by
      intro h0
      have c := hline e.minY e.maxY hb.2.1 hb.2.2.2
      simp only [PerpDot] at c
      rw [h0, mul_zero, zero_sub, neg_eq_zero] at c
      rcases mul_eq_zero.mp c with h | h
      · exact hy (by rw [sub_y] at h; exact h)
      · exact hwx h
    have hw : H.getD e.maxX default - H.getD e.minX default ≠ ⟨0, 0⟩ := by
      intro h
      rw [h] at hwx
      exact hwx rfl
    -- the first iteration brings the best area to zero
    have hstep : ∃ s1, caliperStep Sqrt H (cnt : Int) s0 = some s1 ∧ InHull cnt s1.e ∧
        s1.minArea = 0 := by
      have aligned : (∀ i, i < cnt → 1 / 1000000 <
          (H.getD (NEXT_P (cnt : Int) i) default - H.getD i default).LengthSq) →
          ∃ s1, caliperStep Sqrt H (cnt : Int) s0 = some s1 ∧ InHull cnt s1.e ∧
            s1.minArea = 0 := by
        intro hN
        apply caliperStep_aligned Sqrt H cnt s0 hIn0 hl hA0 _ hw hline
        · rw [hd0]
          exact Normalized_parallel Sqrt _ _ (hline _ _ hb.1 (NEXT_P_lt _ _ h1)) (hN _ hb.1)
        · rw [hd1]
          exact Normalized_parallel Sqrt _ _ (hline _ _ hb.2.1 (NEXT_P_lt _ _ h1))
            (hN _ hb.2.1)
        · rw [hd2]
          exact Normalized_parallel Sqrt _ _ (hline _ _ hb.2.2.1 (NEXT_P_lt _ _ h1))
            (hN _ hb.2.2.1)
        · rw [hd3]
          exact Normalized_parallel Sqrt _ _ (hline _ _ hb.2.2.2 (NEXT_P_lt _ _ h1))
            (hN _ hb.2.2.2)
      by_cases h3 : 3 ≤ cnt
      · apply aligned
        intro i hi
        have hg := hgap h3 i hi
        rw [Equals_false_iff] at hg
        exact apart_lengthSq _ _ eqEps heps (hline _ _ hi (NEXT_P_lt _ _ h1)) hwx hwy
          (by simpa only [sub_x, sub_y] using hg)
      · have hk : cnt = 2 := by
          have : e.minY < cnt := hb.2.1
          have : e.maxY < cnt := hb.2.2.2
          have : e.minY ≠ e.maxY := by rw [he0] at hneY; exact hneY
          omega
        subst hk
        have e2 : (H.getD 0 default - H.getD 1 default).LengthSq =
            (H.getD 1 default - H.getD 0 default).LengthSq := by
          simp only [LengthSq, sub_x, sub_y]
          ring
        have n0 : NEXT_P ((2 : Nat) : Int) 0 = 1 :=
          NEXT_P_two 0 1 (by omega) (by omega) (by omega)
        have n1 : NEXT_P ((2 : Nat) : Int) 1 = 0 :=
          NEXT_P_two 1 0 (by omega) (by omega) (by omega)
        by_cases hlen : 1 / 1000000 < (H.getD 1 default - H.getD 0 default).LengthSq
        · apply aligned
          intro i hi
          have hi' : i = 0 ∨ i = 1 := by omega
          rcases hi' with rfl | rfl
          · rw [n0]
            exact hlen
          · rw [n1, e2]
            exact hlen
        · have hshort : ∀ i, i < 2 →
              (H.getD (NEXT_P ((2 : Nat) : Int) i) default - H.getD i default).Normalized Sqrt
                = ⟨1, 0⟩ := by
            intro i hi
            apply Normalized_short
            have hi' : i = 0 ∨ i = 1 := by omega
            rcases hi' with rfl | rfl
            · rw [n0]
              exact hlen
            · rw [n1, e2]
              exact hlen
          exact caliperStep_two Sqrt H hl s0 hIn0 hneY hed0
            (hd0.trans (hshort _ hb.1)) (hd1.trans (hshort _ hb.2.1))
            (hd2.trans (hshort _ hb.2.2.1)) (hd3.trans (hshort _ hb.2.2.2)) hA0
    obtain ⟨s1, hs1, he1, hz1⟩ := hstep
    obtain ⟨k, rfl⟩ : ∃ k, cnt = k + 1 := ⟨cnt - 1, by omega⟩
    obtain ⟨s2, hs2, hz2⟩ := caliperLoop_zero Sqrt H (k + 1) hl k s1 he1 hz1
    refine ⟨s2, ?_, hz2⟩
    unfold caliperLoop
    rw [hs1, Option.some_bind, hs2]

end float2

namespace float2

/-! ### The hull of collinear input -/

theorem Equals_comm (a b : float2) (eps : ℚ) : a.Equals b eps = b.Equals a eps := by
  unfold Equals EqualAbs
  rw [abs_sub_comm a.x b.x, abs_sub_comm a.y b.y]

/-- On collinear input, consecutive points of a hull of three or more points, the last
and the first included, are not equal within the tolerance. -/
theorem hullCore_gap (sort : (float2 → float2 → Bool) → List float2 → List float2)
    (hs : SortSpec sort) (eqEps : ℚ) (heps : 0 < eqEps) (q : List float2) (m : Nat)
    (h1 : 1 ≤ m) (hm : m ≤ q.length)
    (hcol : ∀ a ∈ q.take m, ∀ b ∈ q.take m, ∀ c ∈ q.take m, (b - a).PerpDot (c - a) = 0)
    (h3 : 3 ≤ (hullCore sort eqEps q m).2) :
    ∀ i, i < (hullCore sort eqEps q m).2 →
      ((hullCore sort eqEps q m).1.getD
          (NEXT_P ((hullCore sort eqEps q m).2 : Int) i) default).Equals
        ((hullCore sort eqEps q m).1.getD i default) eqEps = false := by
  obtain ⟨hf0, -, -, hf3⟩ := hullCore_facts sort hs eqEps heps q m h1 hm
  obtain ⟨-, hmemT, -⟩ := hf3 h3
  have hlenH := (hullCore_mem sort hs.1 eqEps q m hm (by omega)).1
  have hcntH := hullCore_count sort eqEps q m
  obtain ⟨hbl, hn1, hnm, hb0, hPmem, -, htail, hadj, -⟩ :=
    preScan_facts sort hs eqEps heps q m h1 hm
  rw [hullCore_eq] at h3 hf0 hmemT hlenH hcntH ⊢
  simp only [] at h3 hf0 hmemT hlenH hcntH ⊢
  generalize (preScan sort eqEps q m).1 = b at *
  generalize (preScan sort eqEps q m).2 = n at *
  have hn3 : 3 ≤ n := by
    by_contra hlt
    rw [grahamScan_one b n (by omega)] at h3
    simp only [] at h3
    omega
  have hbmem : ∀ a, a < n → b.getD a default ∈ q.take m := by
    intro a ha
    by_cases ha0 : a = 0
    · subst ha0
      rw [hb0]
      exact hPmem
    · exact (htail _ (getD_mem_tail_take b a n (by omega) ha (by omega))).1
  have hG := grahamScan_gap eqEps b n
    (fun a c d ha hc hd => hcol _ (hbmem a ha) _ (hbmem c hc) _ (hbmem d hd)) hadj
    (by omega) (by omega)
  obtain ⟨hK, -, hgap⟩ := hG
  generalize grahamScan b n = s at *
  intro i hi
  unfold NEXT_P
  split
  · rename_i hlt
    exact hgap i (by omega)
  · rename_i hlt
    have hi' : i = s.2.1 := by omega
    have := (hmemT _ (getD_mem_tail_take s.1 i (s.2.1 + 1) (by omega) (by omega)
      (by omega))).2.1
    rw [← hf0] at this
    rw [Equals_comm]
    exact this

end float2

namespace float2

/-- On collinear input that is not empty, `MinAreaRectInPlace` reads inside the hull only
and returns the area 0. -/
theorem MinAreaRectInPlaceWith_collinear (Sqrt : ℚ → ℚ)
    (sort : (float2 → float2 → Bool) → List float2 → List float2) (hs : SortSpec sort)
    (eqEps : ℚ) (heps : 1 / 1000 ≤ eqEps) (p : List float2) (hp : p ≠ [])
    (hcol : Collinear p) (out : RectOut) :
    ∃ o, MinAreaRectInPlaceWith Sqrt sort eqEps (some p) (p.length : Int) out =
      some (some (ConvexHullInPlaceWith sort eqEps p (p.length : Int)).1, o, 0) := by
  have hpos : 0 < p.length := List.length_pos.mpr hp
  have heps0 : 0 < eqEps := by linarith
  unfold MinAreaRectInPlaceWith
  simp only []
  suffices hcal : ∃ o, rotatingCalipers Sqrt (ConvexHullInPlaceWith sort eqEps p p.length).1
      (ConvexHullInPlaceWith sort eqEps p p.length).2 out = some (o, 0) by
    obtain ⟨o, ho⟩ := hcal
    rw [ho, Option.some_bind]
    exact ⟨o, rfl⟩
  by_cases hlen : p.length ≤ 2
  · rw [ConvexHullInPlaceWith_small sort eqEps p _ (by omega)]
    simp only []
    apply rotatingCalipers_collinear Sqrt eqEps heps p p.length hpos (le_refl _) out
    · intro i j k hi hj hk
      exact hcol _ (getD_mem p i default hi) _ (getD_mem p j default hj) _
        (getD_mem p k default hk)
    · intro h3
      omega
  · obtain ⟨q, m, hql, hm1, hm2, hsub, heq⟩ := hull_stage sort eqEps p (by omega)
    rw [heq]
    simp only []
    have hcnt := hullCore_count sort eqEps q m
    obtain ⟨hlenH, hmemH⟩ := hullCore_mem sort hs.1 eqEps q m (by omega) (by omega)
    apply rotatingCalipers_collinear Sqrt eqEps heps _ _ (by omega) (by omega) out
    · intro i j k hi hj hk
      have hin : ∀ a, a < (hullCore sort eqEps q m).2 →
          (hullCore sort eqEps q m).1.getD a default ∈ p := fun a ha =>
        hsub _ (hmemH _ (getD_mem _ a default (by omega)))
      exact hcol _ (hin i hi) _ (hin j hj) _ (hin k hk)
    · intro h3
      exact hullCore_gap sort hs eqEps heps0 q m hm1 (by omega)
        (fun a ha b hb c hc => hcol _ (hsub _ (List.mem_of_mem_take ha)) _
          (hsub _ (List.mem_of_mem_take hb)) _ (hsub _ (List.mem_of_mem_take hc))) h3

end float2

namespace float2

/-! ### The polar-angle comparator as an order -/

theorem SortByPolarAngle_true_iff (P a b : float2) :
    SortByPolarAngle P a b = true ↔ 0 < (a - P).PerpDot (b - P) := by
  simp only [SortByPolarAngle, PerpDot, sub_x, sub_y, decide_eq_true_eq]
  constructor <;> intro h <;> linarith

theorem SortByPolarAngle_trans (P a b c : float2) (ha : above P a) (hb : above P b)
    (hc : above P c) (h1 : SortByPolarAngle P a b = true)
    (h2 : SortByPolarAngle P b c = true) : SortByPolarAngle P a c = true := by
  rw [SortByPolarAngle_true_iff] at h1 h2 ⊢
  exact perpDot_strict_trans P a b c ha hb hc h1 (le_of_lt h2)

/-- Two points above the pivot that the comparator does not order lie on one ray from
the pivot. -/
theorem ray_of_perpDot_zero (P a b : float2) (ha : above P a) (hb : above P b)
    (h : (a - P).PerpDot (b - P) = 0) : ∃ t : ℚ, 0 < t ∧ b - P = smul t (a - P) := by
  simp only [PerpDot, sub_x, sub_y] at h
  have hext : ∀ u v : float2, u.x = v.x → u.y = v.y → u = v := by
    intro u v h1 h2
    cases u
    cases v
    simp only [mk.injEq]
    exact ⟨h1, h2⟩
  rcases ha with ha | ⟨ha1, ha2⟩
  · have hay : 0 < a.y - P.y := by linarith
    have hby : 0 < b.y - P.y := by
      rcases hb with hb | ⟨hb1, hb2⟩
      · linarith
      · exfalso
        rw [hb1, sub_self, mul_zero, zero_sub, neg_eq_zero] at h
        rcases mul_eq_zero.mp h with h | h <;> linarith
    refine ⟨(b.y - P.y) / (a.y - P.y), div_pos hby hay, ?_⟩
    apply hext
    · simp only [sub_x, smul]
      field_simp
      linarith
    · simp only [sub_y, smul]
      field_simp
  · have hax : 0 < a.x - P.x := by linarith
    rw [ha1, sub_self, zero_mul, sub_zero] at h
    have hb0 : b.y - P.y = 0 := by
      rcases mul_eq_zero.mp h with h | h
      · linarith
      · exact h
    have hbx : 0 < b.x - P.x := by
      rcases hb with hb | ⟨hb1, hb2⟩
      · linarith
      · linarith
    refine ⟨(b.x - P.x) / (a.x - P.x), div_pos hbx hax, ?_⟩
    apply hext
    · simp only [sub_x, smul]
      field_simp
    · simp only [sub_y, smul]
      rw [hb0, ha1, sub_self, mul_zero]

theorem perpDot_zero_of_ray (P a b : float2) (t : ℚ) (h : b - P = smul t (a - P)) :
    (a - P).PerpDot (b - P) = 0 := by
  rw [h]
  simp only [PerpDot, smul]
  ring

end float2

namespace float2

/-! ### The pruning loop partitions the buffer -/

theorem Swap_perm (p : List float2) (i j : Nat) (hi : i < p.length) (hj : j < p.length) :
    (Swap p i j).Perm p := by
  rw [List.perm_iff_count]
  intro b
  unfold Swap
  have hj2 : j < (p.set i (p.getD j default)).length := by
    rw [List.length_set]
    exact hj
  rw [List.count_set _ _ _ _ hj2, List.count_set _ _ _ _ hi]
  have e1 : (p.set i (p.getD j default))[j] = p[j] := by
    rw [List.getElem_set]
    split
    · rename_i h
      subst h
      rw [List.getD_eq_getElem _ _ hj]
    · rfl
  rw [e1, List.getD_eq_getElem _ _ hj, List.getD_eq_getElem _ _ hi]
  have hle : (if p[i] == b then 1 else 0) ≤ p.count b := List.boole_getElem_le_count b p i hi
  split_ifs at hle ⊢ <;> omega

theorem Swap_getElem? (p : List float2) (i j k : Nat) (hi : k ≠ i) (hj : k ≠ j) :
    (Swap p i j)[k]? = p[k]? := by
  unfold Swap
  rw [List.getElem?_set_ne (Ne.symm hj), List.getElem?_set_ne (Ne.symm hi)]

theorem pruneLoop_perm (f : PruneFrame) :
    ∀ (k : Nat) (p : List float2) (i : Nat), i + k ≤ p.length →
      (pruneLoop f k p i).1.Perm p ∧
      ∀ j, j < i ∨ i + k ≤ j → (pruneLoop f k p i).1[j]? = p[j]? := by
  intro k
  induction k with
  | zero => intro p i _; exact ⟨List.Perm.refl _, fun _ _ => rfl⟩
  | succ k ih =>
    intro p i hlen
    unfold pruneLoop
    split
    · obtain ⟨h1, h2⟩ := ih (Swap p i (i + k)) i (by rw [Swap_length]; omega)
      refine ⟨h1.trans (Swap_perm p i (i + k) (by omega) (by omega)), fun j hj => ?_⟩
      rw [h2 j (by omega), Swap_getElem? p i (i + k) j (by omega) (by omega)]
    · obtain ⟨h1, h2⟩ := ih p (i + 1) (by omega)
      exact ⟨h1, fun j hj => h2 j (by omega)⟩

theorem getD_of_getElem? (l1 l2 : List float2) (j : Nat) (h : l1[j]? = l2[j]?) :
    l1.getD j default = l2.getD j default := by
  rw [List.getD_eq_getElem?_getD, List.getD_eq_getElem?_getD, h]

/-- After the pruning loop the entries from `i` to the new count fail the test and the
entries from the new count to the old one pass it. -/
theorem pruneLoop_partition (f : PruneFrame) :
    ∀ (k : Nat) (p : List float2) (i : Nat), i + k ≤ p.length →
      (∀ j, i ≤ j → j < (pruneLoop f k p i).2 →
        pruneTest f ((pruneLoop f k p i).1.getD j default) = false) ∧
      (∀ j, (pruneLoop f k p i).2 ≤ j → j < i + k →
        pruneTest f ((pruneLoop f k p i).1.getD j default) = true) := by
  intro k
  induction k with
  | zero =>
    intro p i _
    exact ⟨fun j h1 h2 => absurd h2 (by simp [pruneLoop]; omega),
      fun j h1 h2 => absurd h1 (by simp [pruneLoop]; omega)⟩
  | succ k ih =>
    intro p i hlen
    have hfr := pruneLoop_perm f
    unfold pruneLoop
    split
    · rename_i ht
      have hl : i + k ≤ (Swap p i (i + k)).length := by rw [Swap_length]; omega
      obtain ⟨h1, h2⟩ := ih (Swap p i (i + k)) i hl
      refine ⟨h1, fun j hj1 hj2 => ?_⟩
      by_cases hjk : j = i + k
      · subst hjk
        rw [getD_of_getElem? _ _ _ ((hfr k (Swap p i (i + k)) i hl).2 (i + k) (Or.inr (le_refl _))),
          Swap_getD p i (i + k) (i + k) (by omega) (by omega), if_pos rfl]
        exact ht
      · exact h2 j hj1 (by omega)
    · rename_i ht
      obtain ⟨h1, h2⟩ := ih p (i + 1) (by omega)
      refine ⟨fun j hj1 hj2 => ?_, fun j hj1 hj2 => h2 j hj1 (by omega)⟩
      by_cases hji : j = i
      · subst hji
        rw [getD_of_getElem? _ _ _ ((hfr k p (j + 1) (by omega)).2 j (Or.inl (by omega)))]
        simpa using ht
      · exact h1 j (by omega) hj2

theorem take_perm_of_frame (q p : List float2) (n : Nat) (hperm : q.Perm p)
    (hfr : ∀ j, n ≤ j → q[j]? = p[j]?) : (q.take n).Perm (p.take n) ∧ q.drop n = p.drop n := by
  have hd : q.drop n = p.drop n := by
    apply List.ext_getElem?
    intro k
    rw [List.getElem?_drop, List.getElem?_drop]
    exact hfr _ (by omega)
  refine ⟨?_, hd⟩
  have h := hperm
  rw [← List.take_append_drop n q, ← List.take_append_drop n p, hd] at h
  exact (List.perm_append_right_iff _).mp h

/-- The extreme indices found by the first loop are extreme among the first `n` points. -/
theorem findExtremes_spec (p : List float2) (n : Nat) (j : Nat) (hj : j < n) :
    (p.getD (findExtremes p n).minX default).x ≤ (p.getD j default).x ∧
    (p.getD j default).x ≤ (p.getD (findExtremes p n).maxX default).x ∧
    (p.getD (findExtremes p n).minY default).y ≤ (p.getD j default).y ∧
    (p.getD j default).y ≤ (p.getD (findExtremes p n).maxY default).y := by
  have key := foldl_range'_inv (extremeStep p)
    (fun i e => ∀ j, j < i →
      (p.getD e.minX default).x ≤ (p.getD j default).x ∧
      (p.getD j default).x ≤ (p.getD e.maxX default).x ∧
      (p.getD e.minY default).y ≤ (p.getD j default).y ∧
      (p.getD j default).y ≤ (p.getD e.maxY default).y) (n - 1) 1 ⟨0, 0, 0, 0⟩
    (fun j hj => by
      have : j = 0 := by omega
      subst this
      exact ⟨le_refl _, le_refl _, le_refl _, le_refl _⟩)
    (fun i e _ _ hinv j hj => by
      have h0 := hinv 0 (by omega)
      have hprev : j < i → _ := hinv j
      unfold extremeStep
      simp only []
      by_cases hji : j = i
      · subst hji
        split_ifs <;> refine ⟨?_, ?_, ?_, ?_⟩ <;> linarith
      · have hp := hprev (by omega)
        split_ifs <;> refine ⟨?_, ?_, ?_, ?_⟩ <;> linarith)
  have e : 1 + (n - 1) = n := by omega
  rw [e] at key
  exact key j hj

end float2

namespace float2

/-! ### The pivot is the lowest input point -/

theorem lexLt_of_lexLt_of_not (x l a : float2) (h1 : lexLt x l) (h2 : ¬ lexLt a l) :
    above x a := by
  unfold lexLt at h1 h2
  unfold above
  rcases h1 with h1 | ⟨h1, h1x⟩
  · by_cases h : l.y < a.y
    · exact Or.inl (by linarith)
    · have : ¬ a.y < l.y := fun h3 => h2 (Or.inl h3)
      exact Or.inl (by linarith)
  · by_cases h : x.y < a.y
    · exact Or.inl h
    · have h3 : ¬ a.y < l.y := fun h3 => h2 (Or.inl h3)
      have h4 : a.y = l.y := by linarith
      have h5 : ¬ a.x < l.x := fun h5 => h2 (Or.inr ⟨h4, h5⟩)
      exact Or.inr ⟨by linarith, by linarith⟩

/-- A point that passes the pruning test is not below all four corners of the
quadrilateral in the order of the pivot search. -/
theorem pruneTest_lex (p : List float2) (e : Extremes) (x : float2)
    (hA : above x (p.getD e.minY default)) (hB : above x (p.getD e.maxX default))
    (hC : above x (p.getD e.maxY default)) (hD : above x (p.getD e.minX default)) :
    pruneTest (pruneFrame p e) x = false := by
  by_contra hne
  have ht : pruneTest (pruneFrame p e) x = true := by
    cases h : pruneTest (pruneFrame p e) x
    · exact absurd h hne
    · rfl
  obtain ⟨h1, h2, h3, h4⟩ := pruneTest_inside p e x ht
  generalize p.getD e.minY default = A at *
  generalize p.getD e.maxX default = B at *
  generalize p.getD e.maxY default = C at *
  generalize p.getD e.minX default = D at *
  have k1 : 0 < (A - x).PerpDot (B - x) := by
    have : (A - x).PerpDot (B - x) = (B - A).PerpDot (x - A) := by
      simp only [PerpDot, sub_x, sub_y]
      ring
    rw [this]
    exact h1
  have k2 : 0 < (B - x).PerpDot (C - x) := by
    have : (B - x).PerpDot (C - x) = (C - B).PerpDot (x - B) := by
      simp only [PerpDot, sub_x, sub_y]
      ring
    rw [this]
    exact h2
  have k3 : 0 < (C - x).PerpDot (D - x) := by
    have : (C - x).PerpDot (D - x) = (D - C).PerpDot (x - C) := by
      simp only [PerpDot, sub_x, sub_y]
      ring
    rw [this]
    exact h3
  have k4 : 0 < (D - x).PerpDot (A - x) := by
    have : (D - x).PerpDot (A - x) = (A - D).PerpDot (x - D) := by
      simp only [PerpDot, sub_x, sub_y]
      ring
    rw [this]
    exact h4
  have k5 := perpDot_strict_trans x A B C hA hB hC k1 (le_of_lt k2)
  have k6 := perpDot_strict_trans x A C D hA hC hD k5 (le_of_lt k3)
  have := pd_anti (A - x) (D - x)
  linarith

theorem compact_getD_zero {step : List float2 × Nat → Nat → List float2 × Nat}
    (hstep : ∀ s i, (step s i).1.getD 0 default = s.1.getD 0 default)
    (p : List float2) (n : Nat) :
    ((List.range' 1 (n - 1)).foldl step (p, 0)).1.getD 0 default = p.getD 0 default :=
  foldl_range'_inv step (fun _ s => s.1.getD 0 default = p.getD 0 default) (n - 1) 1 (p, 0) rfl
    (fun i s _ _ h => (hstep s i).trans h)

theorem pivotDupStep_zero (eqEps : ℚ) (s : List float2 × Nat) (i : Nat) :
    (pivotDupStep eqEps s i).1.getD 0 default = s.1.getD 0 default := by
  unfold pivotDupStep
  split
  · exact getD_set_ne _ _ _ _ _ (by omega)
  · rfl

theorem dupStep_zero (eqEps : ℚ) (s : List float2 × Nat) (i : Nat) :
    (dupStep eqEps s i).1.getD 0 default = s.1.getD 0 default := by
  unfold dupStep
  split
  · exact getD_set_ne _ _ _ _ _ (by omega)
  · rfl

theorem grahamScan_zero (p : List float2) (n : Nat) :
    (grahamScan p n).1.getD 0 default = p.getD 0 default :=
  foldl_range'_inv scanStep (fun _ s => s.1.getD 0 default = p.getD 0 default) (n - 2) 2
    (p, 1, p.getD 1 default - p.getD 0 default) rfl
    (fun i s _ _ h => by
      show ((s.1.set _ _).getD 0 default) = _
      rw [getD_set_ne _ _ _ _ _ (by omega)]
      exact h)

/-- Whatever the library sort does, the pivot stays at index 0: `hullCore` leaves the
lowest point of the live range there. -/
theorem hullCore_pivot (sort : (float2 → float2 → Bool) → List float2 → List float2)
    (eqEps : ℚ) (p : List float2) (n : Nat) (h1 : 1 ≤ n) (hn : n ≤ p.length) :
    (hullCore sort eqEps p n).1.getD 0 default = (findLowest p n).1 ∧
    0 < (hullCore sort eqEps p n).1.length := by
  obtain ⟨hlow1, hlow2, -⟩ := findLowest_spec p n
  have hmax : max n 1 = n := by omega
  rw [hmax] at hlow1
  simp only [hullCore]
  have hp10 : (Swap p 0 (findLowest p n).2).getD 0 default = (findLowest p n).1 := by
    rw [Swap_getD p 0 _ 0 (by omega) (by omega), hlow2]
    split
    · rename_i h0
      rw [← h0]
    · simp
  have hl1 : (Swap p 0 (findLowest p n).2).length = p.length := Swap_length _ _ _
  generalize Swap p 0 (findLowest p n).2 = p1 at hp10 hl1
  generalize (findLowest p n).1 = P at hp10
  have hc1 := (removePivotDuplicates_count eqEps p1 n).2.2
  have hz1 : (removePivotDuplicates eqEps p1 n).1.getD 0 default = P := by
    rw [← hp10]
    exact compact_getD_zero (pivotDupStep_zero eqEps) p1 n
  generalize removePivotDuplicates eqEps p1 n = c1 at hc1 hz1
  have hz2 := sortRange_getD_zero sort (SortByPolarAngle P) c1.1 c1.2 (by omega)
  have hl2 : 0 < (sortRange sort (SortByPolarAngle P) c1.1 c1.2).length := by
    unfold sortRange
    rw [List.length_append, List.length_append, List.length_take]
    omega
  rw [hz1] at hz2
  generalize sortRange sort (SortByPolarAngle P) c1.1 c1.2 = p2 at hz2 hl2
  have hc3 := (removeDuplicates_count eqEps p2 c1.2).2.2
  have hz3 : (removeDuplicates eqEps p2 c1.2).1.getD 0 default = P := by
    rw [← hz2]
    exact compact_getD_zero (dupStep_zero eqEps) p2 c1.2
  generalize removeDuplicates eqEps p2 c1.2 = c2 at hc3 hz3
  refine ⟨?_, ?_⟩
  · rw [grahamScan_zero, hz3]
  · rw [(grahamScan_count c2.1 c2.2).1]
    omega

theorem aklToussaint_perm (p : List float2) (n : Nat) (hn : n ≤ p.length) :
    ((aklToussaint p n).1.take n).Perm (p.take n) ∧ (aklToussaint p n).1.drop n = p.drop n := by
  obtain ⟨h1, h2⟩ := pruneLoop_perm (pruneFrame p (findExtremes p n)) n p 0 (by omega)
  exact take_perm_of_frame _ p n h1 (fun j hj => h2 j (Or.inr (by omega)))

theorem aklToussaint_keeps (p : List float2) (n : Nat) (hn : n ≤ p.length) (x : float2)
    (hx : x ∈ p.take n) (ht : pruneTest (pruneFrame p (findExtremes p n)) x = false) :
    x ∈ (aklToussaint p n).1.take (aklToussaint p n).2 := by
  have := pruneLoop_cover (pruneFrame p (findExtremes p n)) n p 0 (by omega) x
    (by rw [Nat.zero_add]; exact hx)
  rcases this with h | h
  · exact h
  · rw [ht] at h
    exact Bool.noConfusion h

theorem aklToussaint_sub (p : List float2) (n : Nat) (hn : n ≤ p.length) (x : float2)
    (hx : x ∈ (aklToussaint p n).1.take (aklToussaint p n).2) : x ∈ p.take n := by
  apply (aklToussaint_perm p n hn).1.subset
  have hle := aklToussaint_count p n
  obtain ⟨k, hk1, hk2, rfl⟩ := exists_of_mem_take _ _ _ hx
  exact mem_take_of_getD _ k n (by omega) hk2

/-- For `n ≥ 3` points entry 0 of the buffer after `ConvexHullInPlace` is the lowest input
point (the leftmost of the lowest ones). -/
theorem ConvexHullInPlaceWith_pivot
    (sort : (float2 → float2 → Bool) → List float2 → List float2) (eqEps : ℚ)
    (p : List float2) (n : Nat) (h3 : 3 ≤ n) (hn : n ≤ p.length) :
    (ConvexHullInPlaceWith sort eqEps p (n : Int)).1.getD 0 default ∈ p.take n ∧
    (∀ j, j < n → ¬ lexLt (p.getD j default)
      ((ConvexHullInPlaceWith sort eqEps p (n : Int)).1.getD 0 default)) ∧
    (ConvexHullInPlaceWith sort eqEps p (n : Int)).1.getD 0 default ∈
      (ConvexHullInPlaceWith sort eqEps p (n : Int)).1.take
        (ConvexHullInPlaceWith sort eqEps p (n : Int)).2.toNat := by
  rw [ConvexHullInPlaceWith_large sort eqEps p n (by omega)]
  simp only [Int.toNat_ofNat]
  have hin : ∀ (q : List float2) (m : Nat), 1 ≤ m → m ≤ q.length →
      (hullCore sort eqEps q m).1.getD 0 default ∈
        (hullCore sort eqEps q m).1.take (hullCore sort eqEps q m).2 := fun q m hm1 hm2 =>
    mem_take_of_getD _ 0 _ (by have := (hullCore_count sort eqEps q m).1; omega)
      (hullCore_pivot sort eqEps q m hm1 hm2).2
  by_cases h50 : (n : Int) ≥ 50
  · rw [if_pos h50]
    have hm1 := aklToussaint_pos p n (by omega) hn
    have hm2 := aklToussaint_count p n
    have hql := aklToussaint_length p n
    obtain ⟨hpiv, -⟩ := hullCore_pivot sort eqEps (aklToussaint p n).1 (aklToussaint p n).2
      hm1 (by omega)
    obtain ⟨hlow1, hlow2, hlow3⟩ := findLowest_spec (aklToussaint p n).1 (aklToussaint p n).2
    have hmax : max (aklToussaint p n).2 1 = (aklToussaint p n).2 := by omega
    rw [hmax] at hlow1 hlow3
    have hsub := aklToussaint_sub p n hn
    have hkeep := aklToussaint_keeps p n hn
    refine ⟨?_, ?_, hin _ _ hm1 (by omega)⟩
    · rw [hpiv, hlow2]
      exact hsub _ (mem_take_of_getD _ _ _ hlow1 (by omega))
    · rw [hpiv]
      generalize (findLowest (aklToussaint p n).1 (aklToussaint p n).2).1 = P at hlow3
      have hmin : ∀ x ∈ (aklToussaint p n).1.take (aklToussaint p n).2, ¬ lexLt x P := by
        intro x hx
        obtain ⟨k, hk1, -, rfl⟩ := exists_of_mem_take _ _ _ hx
        exact hlow3 k hk1
      intro j hj hlt
      have hxin : p.getD j default ∈ p.take n := mem_take_of_getD p j n hj (by omega)
      have hb := findExtremes_bound p n
      have hmaxn : max n 1 = n := by omega
      rw [hmaxn] at hb
      have hcorner : ∀ k, k < n →
          pruneTest (pruneFrame p (findExtremes p n)) (p.getD k default) = false →
          above (p.getD j default) (p.getD k default) := fun k hk hkt =>
        lexLt_of_lexLt_of_not _ P _ hlt
          (hmin _ (hkeep _ (mem_take_of_getD p k n hk (by omega)) hkt))
      have hfalse := pruneTest_lex p (findExtremes p n) (p.getD j default)
        (hcorner _ hb.2.1 (pruneTest_minY p _)) (hcorner _ hb.2.2.1 (pruneTest_maxX p _))
        (hcorner _ hb.2.2.2 (pruneTest_maxY p _)) (hcorner _ hb.1 (pruneTest_minX p _))
      exact hmin _ (hkeep _ hxin hfalse) hlt
  · rw [if_neg h50]
    simp only [Int.toNat_ofNat]
    obtain ⟨hpiv, -⟩ := hullCore_pivot sort eqEps p n (by omega) hn
    obtain ⟨hlow1, hlow2, hlow3⟩ := findLowest_spec p n
    have hmax : max n 1 = n := by omega
    rw [hmax] at hlow1 hlow3
    refine ⟨?_, ?_, hin _ _ (by omega) hn⟩
    · rw [hpiv, hlow2]
      exact mem_take_of_getD _ _ _ hlow1 (by omega)
    · rw [hpiv]
      exact hlow3

end float2

namespace float2

/-! ### One step of the calipers -/

theorem NEXT_P_mod (cnt i : Nat) (hi : i < cnt) : NEXT_P (cnt : Int) i = (i + 1) % cnt := by
  unfold NEXT_P
  split
  · rename_i h
    rw [Nat.mod_eq_of_lt (by omega)]
  · rename_i h
    have : i + 1 = cnt := by omega
    rw [this, Nat.mod_self]

theorem support_lt (cnt : Nat) (e : Extremes) (he : InHull cnt e) (k : Nat) :
    support e k < cnt := by
  obtain ⟨h0, h1, h2, h3⟩ := he
  unfold support
  split <;> assumption

/-- The first half of an iteration advances the first caliper whose cosine is the largest
of the four, by one position around the hull, and leaves the other three, the best area
and the outputs as they are. -/
theorem caliperAdvance_spec (Sqrt : ℚ → ℚ) (p : List float2) (cnt : Nat) (s : Calipers)
    (he : InHull cnt s.e) (hl : cnt ≤ p.length) :
    ∃ s' k, k < 4 ∧ caliperAdvance Sqrt p (cnt : Int) s = some s' ∧
      cosA s k = maxCos s ∧ (∀ m, m < k → cosA s m < maxCos s) ∧
      support s'.e k = (support s.e k + 1) % cnt ∧
      (∀ m, m < 4 → m ≠ k → support s'.e m = support s.e m) ∧
      InHull cnt s'.e ∧ s'.minArea = s.minArea ∧ s'.out = s.out := by
  obtain ⟨h0, h1, h2, h3⟩ := he
  have hc : 1 ≤ cnt := by omega
  have hle0 : cosA s 0 ≤ maxCos s := le_trans (le_max_left _ _) (le_max_left _ _)
  have hle1 : cosA s 1 ≤ maxCos s := le_trans (le_max_right _ _) (le_max_left _ _)
  have hle2 : cosA s 2 ≤ maxCos s := le_trans (le_max_left _ _) (le_max_right _ _)
  have hle3 : cosA s 3 ≤ maxCos s := le_trans (le_max_right _ _) (le_max_right _ _)
  have hother : ∀ (a b : Extremes) (k : Nat),
      ((k ≠ 0 → a.minX = b.minX) ∧ (k ≠ 1 → a.minY = b.minY) ∧ (k ≠ 2 → a.maxX = b.maxX) ∧
        (k ≠ 3 → a.maxY = b.maxY)) →
      ∀ m, m < 4 → m ≠ k → support a m = support b m := by
    rintro a b k ⟨a0, a1, a2, a3⟩ m hm hmk
    have : m = 0 ∨ m = 1 ∨ m = 2 ∨ m = 3 := by omega
    rcases this with rfl | rfl | rfl | rfl
    · exact a0 (Ne.symm hmk)
    · exact a1 (Ne.symm hmk)
    · exact a2 (Ne.symm hmk)
    · exact a3 (Ne.symm hmk)
  unfold caliperAdvance
  simp only []
  split
  · rename_i c
    have c0 : cosA s 0 ≥ maxCos s := c
    rw [edgeDir_some Sqrt p cnt _ (NEXT_P_lt cnt _ hc) hl]
    exact ⟨_, 0, by omega, rfl, le_antisymm hle0 c0, fun m hm => absurd hm (by omega),
      NEXT_P_mod cnt _ h0,
      hother _ _ 0 ⟨fun h => absurd rfl h, fun _ => rfl, fun _ => rfl, fun _ => rfl⟩,
      ⟨NEXT_P_lt cnt _ hc, h1, h2, h3⟩, rfl, rfl⟩
  · rename_i c
    have l0 : cosA s 0 < maxCos s := lt_of_not_ge c
    split
    · rename_i c
      have c1 : cosA s 1 ≥ maxCos s := c
      rw [edgeDir_some Sqrt p cnt _ (NEXT_P_lt cnt _ hc) hl]
      refine ⟨_, 1, by omega, rfl, le_antisymm hle1 c1, fun m hm => ?_,
        NEXT_P_mod cnt _ h1,
        hother _ _ 1 ⟨fun _ => rfl, fun h => absurd rfl h, fun _ => rfl, fun _ => rfl⟩,
        ⟨h0, NEXT_P_lt cnt _ hc, h2, h3⟩, rfl, rfl⟩
      have : m = 0 := by omega
      subst this
      exact l0
    · rename_i c
      have l1 : cosA s 1 < maxCos s := lt_of_not_ge c
      split
      · rename_i c
        have c2 : cosA s 2 ≥ maxCos s := c
        rw [edgeDir_some Sqrt p cnt _ (NEXT_P_lt cnt _ hc) hl]
        refine ⟨_, 2, by omega, rfl, le_antisymm hle2 c2, fun m hm => ?_,
          NEXT_P_mod cnt _ h2,
          hother _ _ 2 ⟨fun _ => rfl, fun _ => rfl, fun h => absurd rfl h, fun _ => rfl⟩,
          ⟨h0, h1, NEXT_P_lt cnt _ hc, h3⟩, rfl, rfl⟩
        have : m = 0 ∨ m = 1 := by omega
        rcases this with rfl | rfl
        · exact l0
        · exact l1
      · rename_i c
        have l2 : cosA s 2 < maxCos s := lt_of_not_ge c
        have e3 : cosA s 3 = maxCos s := by
          apply le_antisymm hle3
          by_contra hc3
          have l3 : cosA s 3 < maxCos s := lt_of_not_ge hc3
          have : maxCos s < maxCos s := by
            conv_lhs => unfold maxCos
            exact max_lt (max_lt l0 l1) (max_lt l2 l3)
          exact lt_irrefl _ this
        rw [edgeDir_some Sqrt p cnt _ (NEXT_P_lt cnt _ hc) hl]
        refine ⟨_, 3, by omega, rfl, e3, fun m hm => ?_,
          NEXT_P_mod cnt _ h3,
          hother _ _ 3 ⟨fun _ => rfl, fun _ => rfl, fun _ => rfl, fun h => absurd rfl h⟩,
          ⟨h0, h1, h2, NEXT_P_lt cnt _ hc⟩, rfl, rfl⟩
        have : m = 0 ∨ m = 1 ∨ m = 2 := by omega
        rcases this with rfl | rfl | rfl
        · exact l0
        · exact l1
        · exact l2

/-- The second half of an iteration writes the five outputs exactly when the measured area
is strictly below the best area so far, and then the best area is the product of the
extents it writes. -/
theorem caliperMeasure_spec (p : List float2) (cnt : Nat) (s : Calipers)
    (he : InHull cnt s.e) (hl : cnt ≤ p.length) :
    ∃ s', caliperMeasure p (cnt : Int) s = some s' ∧ s'.e = s.e ∧ s'.ed = s.ed ∧
      ((measuredArea p s < s.minArea ∧ s'.minArea = measuredArea p s ∧
          s'.out.vDir = s.ed ∧
          s'.minArea = (s'.out.maxU - s'.out.minU) * (s'.out.maxV - s'.out.minV) ∧
          s'.out.uDir = s.out.uDir ∧ s'.out.center = s.out.center) ∨
        (¬ measuredArea p s < s.minArea ∧ s' = s)) := by
  obtain ⟨h0, h1, h2, h3⟩ := he
  unfold caliperMeasure
  rw [deref_some p cnt _ h0 hl, deref_some p cnt _ h2 hl, deref_some p cnt _ h1 hl,
    deref_some p cnt _ h3 hl]
  simp only [Option.some_bind]
  by_cases hlt : measuredArea p s < s.minArea
  · have hlt' := hlt
    unfold measuredArea at hlt'
    rw [if_pos hlt']
    refine ⟨_, rfl, rfl, rfl, Or.inl ⟨hlt, rfl, rfl, ?_, rfl, rfl⟩⟩
    simp only []
    rw [max_sub_min_eq_abs, max_sub_min_eq_abs]
  · have hlt' := hlt
    unfold measuredArea at hlt'
    rw [if_neg hlt']
    exact ⟨_, rfl, rfl, rfl, Or.inr ⟨hlt, rfl⟩⟩

end float2

namespace float2

/-! ### The loop of the calipers -/

/-- One iteration: the first caliper with the largest cosine advances by one position
around the hull, and the outputs are written exactly when the best area goes down. -/
theorem caliperStep_spec (Sqrt : ℚ → ℚ) (p : List float2) (cnt : Nat) (s : Calipers)
    (he : InHull cnt s.e) (hl : cnt ≤ p.length) :
    ∃ s' k, k < 4 ∧ caliperStep Sqrt p (cnt : Int) s = some s' ∧
      cosA s k = maxCos s ∧ (∀ m, m < k → cosA s m < maxCos s) ∧
      support s'.e k = (support s.e k + 1) % cnt ∧
      (∀ m, m < 4 → m ≠ k → support s'.e m = support s.e m) ∧
      InHull cnt s'.e ∧
      ((s'.minArea < s.minArea ∧ s'.out.vDir = s'.ed ∧
          s'.minArea = (s'.out.maxU - s'.out.minU) * (s'.out.maxV - s'.out.minV) ∧
          s'.out.uDir = s.out.uDir ∧ s'.out.center = s.out.center) ∨
        (s'.minArea = s.minArea ∧ s'.out = s.out)) := by
  obtain ⟨s1, k, hk, hs1, hcos, hlow, hsup, hoth, hin1, hm1, ho1⟩ :=
    caliperAdvance_spec Sqrt p cnt s he hl
  obtain ⟨s2, hs2, he2, hed2, hcase⟩ := caliperMeasure_spec p cnt s1 hin1 hl
  refine ⟨s2, k, hk, ?_, hcos, hlow, ?_, ?_, ?_, ?_⟩
  · unfold caliperStep
    rw [hs1, Option.some_bind, hs2]
  · rw [he2]
    exact hsup
  · rw [he2]
    exact hoth
  · rw [he2]
    exact hin1
  · rcases hcase with ⟨hlt, hma, hv, hprod, hu, hc⟩ | ⟨hnlt, heq⟩
    · refine Or.inl ⟨?_, ?_, hprod, ?_, ?_⟩
      · rw [hma, ← hm1]
        exact hlt
      · rw [hv, hed2]
      · rw [hu, ho1]
      · rw [hc, ho1]
    · refine Or.inr ⟨?_, ?_⟩
      · rw [heq, hm1]
      · rw [heq, ho1]

/-- The loop of `k` iterations returns from every state inside the hull; the best area
never goes up, the five outputs written in the loop are untouched when it stays, and
otherwise it is the product of the extents written last. -/
theorem caliperLoop_frame (Sqrt : ℚ → ℚ) (p : List float2) (cnt : Nat) (hl : cnt ≤ p.length) :
    ∀ (k : Nat) (s : Calipers), InHull cnt s.e →
      ∃ s', caliperLoop Sqrt p (cnt : Int) k s = some s' ∧ InHull cnt s'.e ∧
        s'.minArea ≤ s.minArea ∧ (s'.minArea = s.minArea → s'.out = s.out) ∧
        (s'.minArea < s.minArea →
          s'.minArea = (s'.out.maxU - s'.out.minU) * (s'.out.maxV - s'.out.minV)) ∧
        s'.out.uDir = s.out.uDir ∧ s'.out.center = s.out.center := by
  intro k
  induction k with
  | zero =>
    intro s he
    exact ⟨s, rfl, he, le_refl _, fun _ => rfl, fun h => absurd h (lt_irrefl _), rfl, rfl⟩
  | succ k ih =>
    intro s he
    obtain ⟨s1, -, -, hs1, -, -, -, -, hin1, hcase⟩ := caliperStep_spec Sqrt p cnt s he hl
    obtain ⟨s2, hs2, hin2, hle, hsame, hprod, hu, hc⟩ := ih s1 hin1
    refine ⟨s2, ?_, hin2, ?_, ?_, ?_, ?_, ?_⟩
    · unfold caliperLoop
      rw [hs1, Option.some_bind, hs2]
    · rcases hcase with ⟨h, -⟩ | ⟨h, -⟩ <;> linarith
    · intro heq
      rcases hcase with ⟨h, -⟩ | ⟨h, ho⟩
      · linarith
      · rw [hsame (by linarith), ho]
    · intro hlt
      by_cases h21 : s2.minArea < s1.minArea
      · exact hprod h21
      · have e21 : s2.minArea = s1.minArea := le_antisymm hle (not_lt.mp h21)
        rcases hcase with ⟨-, -, hp, -⟩ | ⟨h, -⟩
        · rw [hsame e21, e21]
          exact hp
        · linarith
    · rcases hcase with ⟨-, -, -, h, -⟩ | ⟨-, h⟩
      · rw [hu, h]
      · rw [hu, h]
    · rcases hcase with ⟨-, -, -, -, h⟩ | ⟨-, h⟩
      · rw [hc, h]
      · rw [hc, h]

/-- The trace of the loop from a state inside the hull: `k` iterations, all of them
defined, every state inside the hull, and the loop returns the last state. -/
theorem caliperTrace_spec (Sqrt : ℚ → ℚ) (p : List float2) (cnt : Nat) (hl : cnt ≤ p.length) :
    ∀ (k : Nat) (s : Calipers), InHull cnt s.e →
      (caliperTrace Sqrt p (cnt : Int) k s).length = k + 1 ∧
      (caliperTrace Sqrt p (cnt : Int) k s)[0]? = some s ∧
      (∀ t ∈ caliperTrace Sqrt p (cnt : Int) k s, InHull cnt t.e) ∧
      (∀ i, i < k → ∃ t t', (caliperTrace Sqrt p (cnt : Int) k s)[i]? = some t ∧
        (caliperTrace Sqrt p (cnt : Int) k s)[i + 1]? = some t' ∧
        caliperStep Sqrt p (cnt : Int) t = some t') ∧
      caliperLoop Sqrt p (cnt : Int) k s = (caliperTrace Sqrt p (cnt : Int) k s)[k]? := by
  intro k
  induction k with
  | zero =>
    intro s he
    refine ⟨rfl, rfl, ?_, fun i hi => absurd hi (by omega), rfl⟩
    intro t ht
    rw [caliperTrace, List.mem_singleton] at ht
    rw [ht]
    exact he
  | succ k ih =>
    intro s he
    obtain ⟨s1, -, -, hs1, -, -, -, -, hin1, -⟩ := caliperStep_spec Sqrt p cnt s he hl
    obtain ⟨hlen, hhead, hmem, hstep, hlast⟩ := ih s1 hin1
    have e : caliperTrace Sqrt p (cnt : Int) (k + 1) s =
        s :: caliperTrace Sqrt p (cnt : Int) k s1 := by
      rw [caliperTrace, hs1]
    rw [e]
    refine ⟨by rw [List.length_cons, hlen], List.getElem?_cons_zero, ?_, ?_, ?_⟩
    · intro t ht
      rcases List.mem_cons.mp ht with h | h
      · rw [h]
        exact he
      · exact hmem t h
    · intro i hi
      cases i with
      | zero =>
        exact ⟨s, s1, List.getElem?_cons_zero, by rw [List.getElem?_cons_succ]; exact hhead,
          hs1⟩
      | succ i =>
        obtain ⟨t, t', h1, h2, h3⟩ := hstep i (by omega)
        exact ⟨t, t', by rw [List.getElem?_cons_succ]; exact h1,
          by rw [List.getElem?_cons_succ]; exact h2, h3⟩
    · unfold caliperLoop
      rw [hs1, Option.some_bind, hlast, List.getElem?_cons_succ]

/-- The part of `MinAreaRectInPlace` after the hull call, on a hull of at least one point:
the loop starts from the extreme points with the axis-aligned guess and the outputs of
the caller, runs `cnt` iterations, and `uDir` and `center` are then computed from the
other five outputs. -/
theorem rotatingCalipers_eq (Sqrt : ℚ → ℚ) (H : List float2) (cnt : Nat) (h1 : 1 ≤ cnt)
    (hl : cnt ≤ H.length) (out : RectOut) :
    ∃ s0 : Calipers, s0.e = findExtremes H cnt ∧ s0.ed = unitY.neg ∧
      s0.minArea = aabbArea H (findExtremes H cnt) ∧ s0.out = out ∧ InHull cnt s0.e ∧
      rotatingCalipers Sqrt H (cnt : Int) out =
        (caliperLoop Sqrt H (cnt : Int) cnt s0).bind fun s =>
          some ({ s.out with
              uDir := s.out.vDir.Rotated90CCW
              center := smul (1 / 2)
                ((s.out.vDir.Rotated90CCW.mul (s.out.minU + s.out.maxU)).add
                  (s.out.vDir.mul (s.out.minV + s.out.maxV))) }, s.minArea) := by
  have hb := findExtremes_bound H cnt
  have hmax : max cnt 1 = cnt := by omega
  rw [hmax] at hb
  unfold rotatingCalipers
  simp only [Int.toNat_ofNat]
  rw [deref_some H cnt _ hb.2.2.1 hl, deref_some H cnt _ hb.1 hl,
    deref_some H cnt _ hb.2.2.2 hl, deref_some H cnt _ hb.2.1 hl,
    edgeDir_some Sqrt H cnt _ hb.1 hl, edgeDir_some Sqrt H cnt _ hb.2.1 hl,
    edgeDir_some Sqrt H cnt _ hb.2.2.1 hl, edgeDir_some Sqrt H cnt _ hb.2.2.2 hl]
  simp only [Option.some_bind]
  exact ⟨
    { e := findExtremes H cnt
      ed := unitY.neg
      d0 := (H.getD (NEXT_P (cnt : Int) (findExtremes H cnt).minX) default -
        H.getD (findExtremes H cnt).minX default).Normalized Sqrt
      d1 := (H.getD (NEXT_P (cnt : Int) (findExtremes H cnt).minY) default -
        H.getD (findExtremes H cnt).minY default).Normalized Sqrt
      d2 := (H.getD (NEXT_P (cnt : Int) (findExtremes H cnt).maxX) default -
        H.getD (findExtremes H cnt).maxX default).Normalized Sqrt
      d3 := (H.getD (NEXT_P (cnt : Int) (findExtremes H cnt).maxY) default -
        H.getD (findExtremes H cnt).maxY default).Normalized Sqrt
      minArea := aabbArea H (findExtremes H cnt)
      out := out },
    rfl, rfl, rfl, rfl, hb, rfl⟩

/-- On a hull of at least one point the calipers return; the returned area is at most the
axis-aligned guess; when it equals the guess the five outputs `vDir`, `minU`, `maxU`,
`minV`, `maxV` are those of the caller, and otherwise it is the product of the returned
extents; `uDir` and `center` are computed from the other five. -/
theorem rotatingCalipers_frame (Sqrt : ℚ → ℚ) (H : List float2) (cnt : Nat) (h1 : 1 ≤ cnt)
    (hl : cnt ≤ H.length) (out : RectOut) :
    ∃ o area, rotatingCalipers Sqrt H (cnt : Int) out = some (o, area) ∧
      area ≤ aabbArea H (findExtremes H cnt) ∧
      (area = aabbArea H (findExtremes H cnt) →
        o.vDir = out.vDir ∧ o.minU = out.minU ∧ o.maxU = out.maxU ∧ o.minV = out.minV ∧
          o.maxV = out.maxV) ∧
      (area < aabbArea H (findExtremes H cnt) →
        area = (o.maxU - o.minU) * (o.maxV - o.minV)) ∧
      o.uDir = o.vDir.Rotated90CCW ∧
      o.center = smul (1 / 2)
        ((o.uDir.mul (o.minU + o.maxU)).add (o.vDir.mul (o.minV + o.maxV))) := by
  obtain ⟨s0, -, -, hA, ho, hin, heq⟩ := rotatingCalipers_eq Sqrt H cnt h1 hl out
  obtain ⟨s', hs', -, hle, hsame, hprod, -, -⟩ := caliperLoop_frame Sqrt H cnt hl cnt s0 hin
  rw [hs', Option.some_bind] at heq
  rw [hA] at hle hsame hprod
  refine ⟨_, _, heq, hle, fun h => ?_, fun h => hprod h, rfl, rfl⟩
  have := hsame h
  rw [ho] at this
  simp only [this, and_self]

/-- The count that `ConvexHullInPlace` returns for `n ≥ 1` points is at least 1 and within
the buffer it leaves. -/
theorem ConvexHullInPlaceWith_bounds
    (sort : (float2 → float2 → Bool) → List float2 → List float2)
    (hperm : ∀ pred l, (sort pred l).Perm l) (eqEps : ℚ) (p : List float2) (n : Nat)
    (h1 : 1 ≤ n) (hn : n ≤ p.length) :
    ∃ cnt : Nat, (ConvexHullInPlaceWith sort eqEps p (n : Int)).2 = (cnt : Int) ∧ 1 ≤ cnt ∧
      cnt ≤ (ConvexHullInPlaceWith sort eqEps p (n : Int)).1.length := by
  by_cases h : (n : Int) ≤ 2
  · rw [ConvexHullInPlaceWith_small sort eqEps p n h]
    exact ⟨n, rfl, h1, hn⟩
  · rw [ConvexHullInPlaceWith_large sort eqEps p n h]
    obtain ⟨hql, hm, -⟩ := prune_stage p n (by simpa using hn)
    simp only [Int.toNat_ofNat] at hql hm ⊢
    generalize (if (n : Int) ≥ 50 then aklToussaint p n else (p, n)) = r at hql hm ⊢
    have hc := hullCore_count sort eqEps r.1 r.2
    have hlen := (hullCore_mem sort hperm eqEps r.1 r.2 (by omega) (by omega)).1
    exact ⟨_, rfl, by omega, by omega⟩

end float2

namespace float2

/-! ### The checked run agrees with the model: accesses and counted loops -/

theorem readAt_some (p : List float2) (n0 : Nat) (i : Int) (k : Nat) (hik : i = (k : Int))
    (hk : k < n0) (hl : n0 ≤ p.length) : readAt p n0 i = some (p.getD k default) := by
  subst hik
  unfold readAt
  rw [if_pos ⟨Int.natCast_nonneg k, by exact_mod_cast hk⟩, Int.toNat_ofNat,
    List.get?_eq_getElem?, List.getElem?_eq_getElem (by omega),
    List.getD_eq_getElem _ _ (by omega)]

theorem writeAt_some (p : List float2) (n0 : Nat) (i : Int) (k : Nat) (v : float2)
    (hik : i = (k : Int)) (hk : k < n0) (hl : n0 ≤ p.length) :
    writeAt p n0 i v = some (p.set k v) := by
  subst hik
  unfold writeAt
  rw [if_pos ⟨Int.natCast_nonneg k, by exact_mod_cast hk, by rw [Int.toNat_ofNat]; omega⟩,
    Int.toNat_ofNat]

theorem swapAt_some (p : List float2) (n0 : Nat) (i j : Int) (a b : Nat)
    (hi : i = (a : Int)) (hj : j = (b : Int)) (ha : a < n0) (hb : b < n0)
    (hl : n0 ≤ p.length) : swapAt p n0 i j = some (Swap p a b) := by
  unfold swapAt
  rw [readAt_some p n0 i a hi ha hl, readAt_some p n0 j b hj hb hl, Option.some_bind,
    Option.some_bind, writeAt_some p n0 i a _ hi ha hl, Option.some_bind,
    writeAt_some _ n0 j b _ hj hb (by rw [List.length_set]; exact hl)]
  rfl

/-- A counted loop whose body, on the states that satisfy the invariant, never fails and
does what the step of the model does, returns what the fold of the model returns. -/
theorem forLoop_range' {σ τ : Type} (body : σ → Nat → Option σ) (step : τ → Nat → τ)
    (emb : τ → σ) (Inv : Nat → τ → Prop) :
    ∀ (len a : Nat) (t0 : τ), Inv a t0 →
      (∀ i t, a ≤ i → i < a + len → Inv i t →
        body (emb t) i = some (emb (step t i)) ∧ Inv (i + 1) (step t i)) →
      forLoop body (List.range' a len) (emb t0) =
        some (emb ((List.range' a len).foldl step t0)) := by
  intro len
  induction len with
  | zero => intro a t0 _ _; rfl
  | succ len ih =>
    intro a t0 h0 hstep
    obtain ⟨hb, hi⟩ := hstep a t0 (le_refl a) (by omega) h0
    rw [List.range'_succ, forLoop, hb, Option.some_bind, List.foldl_cons]
    exact ih (a + 1) (step t0 a) hi (fun i t h1 h2 => hstep i t (by omega) (by omega))

theorem extremeStepChecked_eq (p : List float2) (n0 : Nat) (e : Extremes) (i : Nat)
    (hi : i < n0) (hl : n0 ≤ p.length)
    (he : e.minX < i ∧ e.minY < i ∧ e.maxX < i ∧ e.maxY < i) :
    extremeStepChecked p n0 e i = some (extremeStep p e i) ∧
    ((extremeStep p e i).minX < i + 1 ∧ (extremeStep p e i).minY < i + 1 ∧
      (extremeStep p e i).maxX < i + 1 ∧ (extremeStep p e i).maxY < i + 1) := by
  obtain ⟨h1, h2, h3, h4⟩ := he
  constructor
  · unfold extremeStepChecked extremeStep
    rw [readAt_some p n0 _ i rfl hi hl, readAt_some p n0 _ e.minX rfl (by omega) hl]
    simp only [Option.some_bind]
    by_cases c1 : (p.getD i default).x < (p.getD e.minX default).x
    · rw [if_pos c1, if_pos c1, Option.some_bind]
      simp only []
      rw [readAt_some p n0 _ e.minY rfl (by omega) hl, Option.some_bind]
      by_cases c3 : (p.getD i default).y < (p.getD e.minY default).y
      · rw [if_pos c3, if_pos c3]
      · rw [if_neg c3, if_neg c3, readAt_some p n0 _ e.maxY rfl (by omega) hl,
          Option.some_bind]
        split <;> rfl
    · rw [if_neg c1, if_neg c1, readAt_some p n0 _ e.maxX rfl (by omega) hl,
        Option.some_bind]
      by_cases c2 : (p.getD i default).x > (p.getD e.maxX default).x
      · rw [if_pos c2, if_pos c2, Option.some_bind]
        simp only []
        rw [readAt_some p n0 _ e.minY rfl (by omega) hl, Option.some_bind]
        by_cases c3 : (p.getD i default).y < (p.getD e.minY default).y
        · rw [if_pos c3, if_pos c3]
        · rw [if_neg c3, if_neg c3, readAt_some p n0 _ e.maxY rfl (by omega) hl,
            Option.some_bind]
          split <;> rfl
      · rw [if_neg c2, if_neg c2, Option.some_bind,
          readAt_some p n0 _ e.minY rfl (by omega) hl, Option.some_bind]
        by_cases c3 : (p.getD i default).y < (p.getD e.minY default).y
        · rw [if_pos c3, if_pos c3]
        · rw [if_neg c3, if_neg c3, readAt_some p n0 _ e.maxY rfl (by omega) hl,
            Option.some_bind]
          split <;> rfl
  · simp only [extremeStep]
    split_ifs <;> refine ⟨?_, ?_, ?_, ?_⟩ <;> first | omega | (simp only []; omega)

theorem findExtremesChecked_eq (p : List float2) (n0 : Nat) (hl : n0 ≤ p.length) :
    forLoop (extremeStepChecked p n0) (List.range' 1 (n0 - 1)) ⟨0, 0, 0, 0⟩ =
      some (findExtremes p n0) :=
  forLoop_range' (extremeStepChecked p n0) (extremeStep p) id
    (fun i e => e.minX < i ∧ e.minY < i ∧ e.maxX < i ∧ e.maxY < i) (n0 - 1) 1 ⟨0, 0, 0, 0⟩
    (by simp) (fun i e _ h2 hinv => extremeStepChecked_eq p n0 e i (by omega) hl hinv)

theorem pruneFrameChecked_eq (p : List float2) (n0 : Nat) (e : Extremes)
    (hl : n0 ≤ p.length) (he : e.minX < n0 ∧ e.minY < n0 ∧ e.maxX < n0 ∧ e.maxY < n0) :
    pruneFrameChecked p n0 e = some (pruneFrame p e) := by
  unfold pruneFrameChecked
  rw [readAt_some p n0 _ e.minX rfl he.1 hl, readAt_some p n0 _ e.minY rfl he.2.1 hl,
    readAt_some p n0 _ e.maxX rfl he.2.2.1 hl, readAt_some p n0 _ e.maxY rfl he.2.2.2 hl]
  rfl

/-- The pruning loop finishes within `k + 1` evaluations of its condition, `k` being the
distance from `i` to `n`, reads and stores inside `[0, n0)` only, and leaves what the
model leaves. -/
theorem pruneLoopChecked_eq (f : PruneFrame) (n0 : Nat) :
    ∀ (k fuel : Nat) (p : List float2) (i : Nat), k + 1 ≤ fuel → i + k ≤ n0 →
      n0 ≤ p.length →
      pruneLoopChecked f n0 fuel p (i : Int) ((i + k : Nat) : Int) =
        some ((pruneLoop f k p i).1, ((pruneLoop f k p i).2 : Int)) := by
  intro k
  induction k with
  | zero =>
    intro fuel p i hf _ _
    obtain ⟨fuel, rfl⟩ : ∃ m, fuel = m + 1 := ⟨fuel - 1, by omega⟩
    unfold pruneLoopChecked pruneLoop
    rw [if_neg (by simp)]
    simp
  | succ k ih =>
    intro fuel p i hf hik hl
    obtain ⟨fuel, rfl⟩ : ∃ m, fuel = m + 1 := ⟨fuel - 1, by omega⟩
    unfold pruneLoopChecked pruneLoop
    rw [if_pos (by push_cast; omega), readAt_some p n0 _ i rfl (by omega) hl,
      Option.some_bind]
    by_cases ht : pruneTest f (p.getD i default) = true
    · rw [if_pos ht, if_pos ht,
        swapAt_some p n0 _ _ i (i + k) rfl (by push_cast; omega) (by omega) (by omega) hl,
        Option.some_bind]
      have e : ((i + (k + 1) : Nat) : Int) - 1 = ((i + k : Nat) : Int) := by
        push_cast
        omega
      rw [e]
      exact ih fuel (Swap p i (i + k)) i (by omega) (by omega) (by rw [Swap_length]; exact hl)
    · rw [if_neg ht, if_neg ht]
      have e1 : (i : Int) + 1 = ((i + 1 : Nat) : Int) := by push_cast; rfl
      have e2 : ((i + (k + 1) : Nat) : Int) = ((i + 1 + k : Nat) : Int) := by
        push_cast
        omega
      rw [e1, e2]
      exact ih fuel p (i + 1) (by omega) (by omega) hl

theorem aklToussaintChecked_eq (fuel : Nat) (p : List float2) (n0 : Nat) (h1 : 1 ≤ n0)
    (hf : n0 + 1 ≤ fuel) (hl : n0 ≤ p.length) :
    aklToussaintChecked fuel p n0 =
      some ((aklToussaint p n0).1, ((aklToussaint p n0).2 : Int)) := by
  have hb := findExtremes_bound p n0
  have hmax : max n0 1 = n0 := by omega
  rw [hmax] at hb
  unfold aklToussaintChecked
  rw [findExtremesChecked_eq p n0 hl, Option.some_bind,
    pruneFrameChecked_eq p n0 _ hl ⟨hb.1, hb.2.1, hb.2.2.1, hb.2.2.2⟩, Option.some_bind]
  have := pruneLoopChecked_eq (pruneFrame p (findExtremes p n0)) n0 n0 fuel p 0 hf
    (by omega) hl
  simp only [Nat.zero_add, Nat.cast_zero] at this
  exact this

end float2

namespace float2

/-! ### The checked run agrees with the model: pivot, compaction, sort and scan -/

theorem findLowestChecked_eq (p : List float2) (n0 n : Nat) (h1 : 1 ≤ n0) (hn : n ≤ n0)
    (hl : n0 ≤ p.length) : findLowestChecked p n0 n = some (findLowest p n) := by
  unfold findLowestChecked findLowest
  rw [readAt_some p n0 0 0 (by simp) (by omega) hl, Option.some_bind]
  exact forLoop_range' (lowestStepChecked p n0) (lowestStep p) id (fun _ _ => True) (n - 1) 1
    (p.getD 0 default, 0) trivial
    (fun i s h1 h2 _ => ⟨by
      unfold lowestStepChecked lowestStep
      rw [readAt_some p n0 _ i rfl (by omega) hl, Option.some_bind]
      rfl, trivial⟩)

theorem pivotDupStepChecked_eq (eqEps : ℚ) (n0 : Nat) (s : List float2 × Nat) (i : Nat)
    (hi : i < n0) (hd : s.2 < i) (hl : n0 ≤ s.1.length) :
    pivotDupStepChecked eqEps n0 s i = some (pivotDupStep eqEps s i) := by
  unfold pivotDupStepChecked pivotDupStep
  rw [readAt_some s.1 n0 _ i rfl hi hl, readAt_some s.1 n0 0 0 (by simp) (by omega) hl,
    Option.some_bind, Option.some_bind]
  split
  · rw [writeAt_some s.1 n0 _ (s.2 + 1) _ (by push_cast; rfl) (by omega) hl, Option.some_bind]
  · rfl

theorem dupStepChecked_eq (eqEps : ℚ) (n0 : Nat) (s : List float2 × Nat) (i : Nat)
    (hi : i < n0) (hd : s.2 < i) (hl : n0 ≤ s.1.length) :
    dupStepChecked eqEps n0 s i = some (dupStep eqEps s i) := by
  unfold dupStepChecked dupStep
  rw [readAt_some s.1 n0 _ i rfl hi hl, readAt_some s.1 n0 _ s.2 rfl (by omega) hl,
    Option.some_bind, Option.some_bind]
  split
  · rw [writeAt_some s.1 n0 _ (s.2 + 1) _ (by push_cast; rfl) (by omega) hl, Option.some_bind]
  · rfl

/-- A compaction loop reads and writes inside `[0, n0)` only and leaves what the model
leaves. -/
theorem compactChecked_eq {body : List float2 × Nat → Nat → Option (List float2 × Nat)}
    {step : List float2 × Nat → Nat → List float2 × Nat} (n0 : Nat)
    (hbody : ∀ s i, i < n0 → s.2 < i → n0 ≤ s.1.length → body s i = some (step s i))
    (hstep : ∀ s i, (step s i).2 ≤ s.2 + 1 ∧ (step s i).1.length = s.1.length)
    (p : List float2) (n : Nat) (hn : n ≤ n0) (hl : n0 ≤ p.length) :
    forLoop body (List.range' 1 (n - 1)) (p, 0) =
      some ((List.range' 1 (n - 1)).foldl step (p, 0)) :=
  forLoop_range' body step id (fun i s => s.2 < i ∧ s.1.length = p.length) (n - 1) 1 (p, 0)
    ⟨by simp, rfl⟩
    (fun i s h1 h2 hinv => by
      have hs := hstep s i
      exact ⟨hbody s i (by omega) hinv.1 (by rw [hinv.2]; exact hl),
        by omega, by rw [hs.2]; exact hinv.2⟩)

/-- The pop loop finishes within `h` evaluations of its condition, reads inside `[0, n0)`
only, and ends with the `h ≥ 0` of the model. -/
theorem popLoopChecked_eq (p : List float2) (n0 : Nat) (pi : float2) (hl : n0 ≤ p.length) :
    ∀ (h fuel : Nat) (a d : float2) (dir : ℚ), 1 ≤ h → h ≤ fuel → h < n0 →
      popLoopChecked p n0 pi fuel (h : Int) a d dir =
        some (((popLoop p pi h a d dir).1 : Int), (popLoop p pi h a d dir).2) := by
  intro h
  induction h with
  | zero => intro fuel a d dir h1; omega
  | succ h ih =>
    intro fuel a d dir _ hf hn
    obtain ⟨fuel, rfl⟩ : ∃ m, fuel = m + 1 := ⟨fuel - 1, by omega⟩
    have e : ((h + 1 : Nat) : Int) - 1 = (h : Int) := by push_cast; omega
    unfold popLoopChecked popLoop
    rw [e]
    by_cases hc : popCond dir d a = true
    · rw [if_pos hc, if_pos hc]
      by_cases hh : h ≥ 1
      · rw [if_pos (show (h : Int) ≥ 1 by exact_mod_cast hh), if_pos hh,
          readAt_some p n0 _ h rfl (by omega) hl,
          readAt_some p n0 _ (h - 1) (by omega) (by omega) hl, Option.some_bind,
          Option.some_bind]
        exact ih fuel _ _ _ hh (by omega) (by omega)
      · rw [if_neg (show ¬ (h : Int) ≥ 1 by exact_mod_cast hh), if_neg hh]
    · rw [if_neg hc, if_neg hc]

theorem scanStepChecked_eq (n0 fuel : Nat) (p : List float2) (i : Nat)
    (s : List float2 × Nat × float2) (hinv : ScanInv p i s) (hi : i < n0)
    (hl : n0 ≤ p.length) (hf : n0 ≤ fuel) :
    scanStepChecked n0 fuel (s.1, (s.2.1 : Int), s.2.2) i =
      some ((scanStep s i).1, ((scanStep s i).2.1 : Int), (scanStep s i).2.2) := by
  obtain ⟨hlen, h1, h2⟩ := hinv
  have hl' : n0 ≤ s.1.length := by rw [hlen]; exact hl
  have hle := popLoop_le s.1 (s.1.getD i default) s.2.1 s.2.2
    (s.1.getD i default - s.1.getD (s.2.1 - 1) default)
    (scanDir (s.1.getD i default - s.1.getD (s.2.1 - 1) default) s.2.2)
  unfold scanStepChecked scanStep
  simp only []
  rw [readAt_some s.1 n0 _ i rfl hi hl',
    readAt_some s.1 n0 _ (s.2.1 - 1) (by omega) (by omega) hl', Option.some_bind,
    Option.some_bind,
    popLoopChecked_eq s.1 n0 _ hl' s.2.1 fuel _ _ _ h1 (by omega) (by omega),
    Option.some_bind]
  simp only []
  generalize popLoop s.1 (s.1.getD i default) s.2.1 s.2.2
    (s.1.getD i default - s.1.getD (s.2.1 - 1) default)
    (scanDir (s.1.getD i default - s.1.getD (s.2.1 - 1) default) s.2.2) = r at hle ⊢
  rw [writeAt_some s.1 n0 _ (r.1 + 1) _ (by push_cast; rfl) (by omega) hl', Option.some_bind,
    readAt_some _ n0 _ r.1 (by omega) (by omega)
      (by rw [List.length_set]; exact hl'),
    Option.some_bind]
  simp only [Nat.add_sub_cancel, Nat.cast_add, Nat.cast_one]

theorem grahamScanChecked_eq (n0 fuel : Nat) (p : List float2) (n : Nat) (h2 : 2 ≤ n0)
    (hn : n ≤ n0) (hl : n0 ≤ p.length) (hf : n0 ≤ fuel) :
    grahamScanChecked n0 fuel p n =
      some ((grahamScan p n).1, ((grahamScan p n).2.1 : Int), (grahamScan p n).2.2) := by
  unfold grahamScanChecked grahamScan
  rw [readAt_some p n0 1 1 (by simp) (by omega) hl, readAt_some p n0 0 0 (by simp) (by omega) hl,
    Option.some_bind, Option.some_bind]
  exact forLoop_range' (scanStepChecked n0 fuel) scanStep
    (fun t : List float2 × Nat × float2 => (t.1, (t.2.1 : Int), t.2.2)) (ScanInv p) (n - 2) 2
    (p, 1, p.getD 1 default - p.getD 0 default) ⟨rfl, le_refl 1, by simp⟩
    (fun i s _ hi hinv =>
      ⟨scanStepChecked_eq n0 fuel p i s hinv (by omega) hl hf, scanStep_inv p i s hinv⟩)

/-- The part of `ConvexHullInPlace` after the pruning block, on a live count `n` within
the buffer of `n0 ≥ 2` points: every access is inside `[0, n0)`, every pop loop finishes,
and the result is that of the model. -/
theorem hullCoreChecked_eq (sort : (float2 → float2 → Bool) → List float2 → List float2)
    (hperm : ∀ pred l, (sort pred l).Perm l) (eqEps : ℚ) (n0 fuel : Nat) (p : List float2)
    (n : Nat) (h2 : 2 ≤ n0) (h1 : 1 ≤ n) (hn : n ≤ n0) (hl : n0 ≤ p.length)
    (hf : n0 ≤ fuel) :
    hullCoreChecked sort eqEps n0 fuel p n =
      some ((hullCore sort eqEps p n).1, ((hullCore sort eqEps p n).2 : Int)) := by
  have hlow := findLowest_index p n
  have hmax : max n 1 = n := by omega
  rw [hmax] at hlow
  unfold hullCoreChecked hullCore
  rw [findLowestChecked_eq p n0 n (by omega) hn hl, Option.some_bind,
    swapAt_some p n0 0 _ 0 (findLowest p n).2 (by simp) rfl (by omega) (by omega) hl,
    Option.some_bind]
  simp only []
  have hl1 : n0 ≤ (Swap p 0 (findLowest p n).2).length := by rw [Swap_length]; exact hl
  generalize Swap p 0 (findLowest p n).2 = p1 at hl1
  rw [compactChecked_eq n0 (pivotDupStepChecked_eq eqEps n0) (pivotDupStep_bound eqEps) p1 n
    hn hl1, Option.some_bind]
  have hc1 := compact_count (pivotDupStep_bound eqEps) p1 n
  have e1 : removePivotDuplicates eqEps p1 n =
      (((List.range' 1 (n - 1)).foldl (pivotDupStep eqEps) (p1, 0)).1,
        ((List.range' 1 (n - 1)).foldl (pivotDupStep eqEps) (p1, 0)).2 + 1) := rfl
  rw [e1]
  simp only []
  generalize (List.range' 1 (n - 1)).foldl (pivotDupStep eqEps) (p1, 0) = c1 at hc1
  unfold sortRangeChecked
  rw [if_pos ⟨by omega, by omega⟩, Option.some_bind]
  have hl2 : n0 ≤ (sortRange sort (SortByPolarAngle (findLowest p n).1) c1.1 (c1.2 + 1)).length := by
    rw [sortRange_length sort hperm _ c1.1 (c1.2 + 1) (by omega) (by omega)]
    omega
  generalize sortRange sort (SortByPolarAngle (findLowest p n).1) c1.1 (c1.2 + 1) = p2 at hl2
  rw [compactChecked_eq n0 (dupStepChecked_eq eqEps n0) (dupStep_bound eqEps) p2 (c1.2 + 1)
    (by omega) hl2, Option.some_bind]
  have hc2 := compact_count (dupStep_bound eqEps) p2 (c1.2 + 1)
  have e2 : removeDuplicates eqEps p2 (c1.2 + 1) =
      (((List.range' 1 (c1.2 + 1 - 1)).foldl (dupStep eqEps) (p2, 0)).1,
        ((List.range' 1 (c1.2 + 1 - 1)).foldl (dupStep eqEps) (p2, 0)).2 + 1) := rfl
  rw [e2]
  simp only []
  generalize (List.range' 1 (c1.2 + 1 - 1)).foldl (dupStep eqEps) (p2, 0) = c2 at hc2
  rw [grahamScanChecked_eq n0 fuel c2.1 (c2.2 + 1) h2 (by omega) (by omega) hf,
    Option.some_bind]
  simp only [Nat.cast_add, Nat.cast_one]

/-- For a buffer of `n ≥ 0` points and fuel above `n`, the run of `ConvexHullInPlace` with
every access checked returns, and returns the buffer and the count of the model. -/
theorem ConvexHullInPlaceChecked_eq
    (sort : (float2 → float2 → Bool) → List float2 → List float2)
    (hperm : ∀ pred l, (sort pred l).Perm l) (eqEps : ℚ) (p : List float2) (n : Nat)
    (hn : n ≤ p.length) (fuel : Nat) (hf : n + 1 ≤ fuel) :
    ConvexHullInPlaceChecked fuel sort eqEps p (n : Int) =
      some (ConvexHullInPlaceWith sort eqEps p (n : Int)) := by
  unfold ConvexHullInPlaceChecked ConvexHullInPlaceWith
  by_cases h : (n : Int) ≤ 2
  · rw [if_pos h, if_pos h]
  · rw [if_neg h, if_neg h]
    simp only [Int.toNat_ofNat]
    by_cases h50 : (n : Int) ≥ 50
    · rw [if_pos h50, if_pos h50, aklToussaintChecked_eq fuel p n (by omega) hf hn,
        Option.some_bind]
      simp only [Int.toNat_ofNat]
      rw [hullCoreChecked_eq sort hperm eqEps n fuel _ _ (by omega)
        (aklToussaint_pos p n (by omega) hn) (aklToussaint_count p n)
        (by rw [aklToussaint_length]; exact hn) (by omega)]
    · rw [if_neg h50, if_neg h50, Option.some_bind]
      simp only [Int.toNat_ofNat]
      rw [hullCoreChecked_eq sort hperm eqEps n fuel p n (by omega) (by omega) (le_refl _) hn
        (by omega)]

end float2

namespace float2

/-! ### The claims on counts and provenance -/

/-- C6. Count range: for a buffer of `n ≥ 0` points `ConvexHullInPlace` returns a count
`h` with `0 ≤ h ≤ n`, and when `n ≤ 2` it returns exactly `n` and the buffer unchanged
(for every library sort and every tolerance of `Equals`). -/
theorem ConvexHullInPlace_count_range
    (sort : (float2 → float2 → Bool) → List float2 → List float2) (eqEps : ℚ)
    (p : List float2) (n : Nat) :
    0 ≤ (ConvexHullInPlaceWith sort eqEps p (n : Int)).2 ∧
    (ConvexHullInPlaceWith sort eqEps p (n : Int)).2 ≤ (n : Int) ∧
    ((n : Int) ≤ 2 → ConvexHullInPlaceWith sort eqEps p (n : Int) = (p, (n : Int))) := by
  by_cases h : (n : Int) ≤ 2
  · rw [ConvexHullInPlaceWith_small sort eqEps p n h]
    exact ⟨Int.natCast_nonneg n, le_refl _, fun _ => rfl⟩
  · rw [ConvexHullInPlaceWith_large sort eqEps p n h]
    refine ⟨Int.natCast_nonneg _, ?_, fun h2 => absurd h2 h⟩
    have hc := (hullCore_count sort eqEps
      (if (n : Int) ≥ 50 then aklToussaint p (n : Int).toNat else (p, (n : Int).toNat)).1
      (if (n : Int) ≥ 50 then aklToussaint p (n : Int).toNat else (p, (n : Int).toNat)).2).2
    have hp : (if (n : Int) ≥ 50 then aklToussaint p (n : Int).toNat
        else (p, (n : Int).toNat)).2 ≤ n := by
      split
      · simpa using aklToussaint_count p n
      · simp
    simp only []
    omega

/-- Witness for C6 on a two-point buffer. -/
theorem ConvexHullInPlace_count_range_witness :
    ((2 : Nat) : Int) ≤ 2 ∧
    ConvexHullInPlaceWith stdSort (1 / 1000) [⟨0, 0⟩, ⟨1, 1⟩] ((2 : Nat) : Int) =
      ([⟨0, 0⟩, ⟨1, 1⟩], ((2 : Nat) : Int)) :=
  ⟨by decide,
    (ConvexHullInPlace_count_range stdSort (1 / 1000) [⟨0, 0⟩, ⟨1, 1⟩] 2).2.2 (by decide)⟩

/-- C7, as stated, fails: called with the negative count `-1` the function returns
`-1`, not `0`. -/
theorem ConvexHullInPlace_negative_count_counterexample :
    (ConvexHullInPlace (1 / 1000) [⟨0, 0⟩, ⟨1, 0⟩, ⟨0, 1⟩] (-1)).2 = -1 ∧
    (ConvexHullInPlace (1 / 1000) [⟨0, 0⟩, ⟨1, 0⟩, ⟨0, 1⟩] (-1)).2 ≠ 0 := by
  decide!

/-- C7, amended. Called with a negative count `n`, `ConvexHullInPlace` takes the early
exit `if (n <= 2) return n;`: it returns `n` itself and leaves the buffer untouched. -/
theorem ConvexHullInPlace_negative_count
    (sort : (float2 → float2 → Bool) → List float2 → List float2) (eqEps : ℚ)
    (p : List float2) (n : Int) (hn : n < 0) :
    ConvexHullInPlaceWith sort eqEps p n = (p, n) :=
  ConvexHullInPlaceWith_small sort eqEps p n (by omega)

/-- Witness for the amended C7 at the count `-3`. -/
theorem ConvexHullInPlace_negative_count_witness :
    (-3 : Int) < 0 ∧
    ConvexHullInPlaceWith stdSort (1 / 1000) [⟨0, 0⟩, ⟨1, 0⟩, ⟨0, 1⟩] (-3) =
      ([⟨0, 0⟩, ⟨1, 0⟩, ⟨0, 1⟩], -3) :=
  ⟨by decide,
    ConvexHullInPlace_negative_count stdSort (1 / 1000) [⟨0, 0⟩, ⟨1, 0⟩, ⟨0, 1⟩] (-3)
      (by decide)⟩

/-- C1. Subset property: for a buffer `p` of `n` points and a library sort that
permutes its range, after `h = ConvexHullInPlace(p, n)` each of the first `h` buffer
entries is a point of the original input. -/
theorem ConvexHullInPlace_subset
    (sort : (float2 → float2 → Bool) → List float2 → List float2)
    (hperm : ∀ pred l, (sort pred l).Perm l) (eqEps : ℚ) (p : List float2) (i : Nat)
    (hi : (i : Int) < (ConvexHullInPlaceWith sort eqEps p (p.length : Int)).2) :
    (ConvexHullInPlaceWith sort eqEps p (p.length : Int)).1.getD i default ∈ p := by
  by_cases h : (p.length : Int) ≤ 2
  · rw [ConvexHullInPlaceWith_small sort eqEps p _ h] at hi ⊢
    exact getD_mem p i default (by simpa using hi)
  · rw [ConvexHullInPlaceWith_large sort eqEps p _ h] at hi ⊢
    have hs := prune_stage p (p.length : Int) (by simp)
    generalize (if (p.length : Int) ≥ 50 then aklToussaint p (p.length : Int).toNat
      else (p, (p.length : Int).toNat)) = r at hs hi ⊢
    obtain ⟨hl, hc, hm⟩ := hs
    have hcnt := (hullCore_count sort eqEps r.1 r.2).2
    have hmem := hullCore_mem sort hperm eqEps r.1 r.2 (by simp at hc; omega) (by omega)
    simp only [] at hi ⊢
    have hlt : i < (hullCore sort eqEps r.1 r.2).1.length := by
      rw [hmem.1]
      simp at hc
      omega
    exact hm _ (hmem.2 _ (getD_mem _ i default hlt))

/-- Witness for C1 on the square with its centre: entry 2 of the hull is an input point. -/
theorem ConvexHullInPlace_subset_witness :
    (ConvexHullInPlaceWith stdSort (1 / 1000)
      [⟨0, 0⟩, ⟨1, 0⟩, ⟨1, 1⟩, ⟨0, 1⟩, ⟨1 / 2, 1 / 2⟩]
      (([⟨0, 0⟩, ⟨1, 0⟩, ⟨1, 1⟩, ⟨0, 1⟩, ⟨1 / 2, 1 / 2⟩] : List float2).length : Int)).1.getD 2
        default ∈ ([⟨0, 0⟩, ⟨1, 0⟩, ⟨1, 1⟩, ⟨0, 1⟩, ⟨1 / 2, 1 / 2⟩] : List float2) :=
  ConvexHullInPlace_subset stdSort stdSort_perm (1 / 1000)
    [⟨0, 0⟩, ⟨1, 0⟩, ⟨1, 1⟩, ⟨0, 1⟩, ⟨1 / 2, 1 / 2⟩] 2 (by decide!)

end float2

namespace float2

/-! ### The claims on the shape of the hull -/

end float2

namespace float2

end float2

namespace float2

/-! ### Running the hull builder on its own output -/

end float2

namespace float2

/-! ### Containment of the input and exclusion of interior points -/

end float2

namespace float2

/-! ### The pruning step against the algorithm without it -/

end float2

namespace float2

/-! ### Collinear input -/

/-- C11, evaluated on the code: the three collinear points `(0,0), (2,0), (1,0)` are
returned as a hull of count 3, the nearer point `(1,0)` being kept after the farther
point `(2,0)`: the comparator does not order the two (neither is before the other), and
the scan pops the previous point only when the new one is at least as far.  In the
order `(0,0), (1,0), (2,0)` the count is 2 and the hull is `(0,0), (2,0)`. -/
theorem ConvexHullInPlace_collinear_order :
    SortByPolarAngle ⟨0, 0⟩ ⟨2, 0⟩ ⟨1, 0⟩ = false ∧
    SortByPolarAngle ⟨0, 0⟩ ⟨1, 0⟩ ⟨2, 0⟩ = false ∧
    ConvexHullInPlace (1 / 1000) [⟨0, 0⟩, ⟨2, 0⟩, ⟨1, 0⟩] 3 =
      ([⟨0, 0⟩, ⟨2, 0⟩, ⟨1, 0⟩], 3) ∧
    (ConvexHullInPlace (1 / 1000) [⟨0, 0⟩, ⟨1, 0⟩, ⟨2, 0⟩] 3).2 = 2 ∧
    (ConvexHullInPlace (1 / 1000) [⟨0, 0⟩, ⟨1, 0⟩, ⟨2, 0⟩] 3).1.take 2 =
      [⟨0, 0⟩, ⟨2, 0⟩] := by
  decide!

end float2

namespace float2

/-! ### The claims on `ConvexHullContains` -/

end float2

/-! ### The product `M*v` of `float4x4_sse.h` -/

/-- C20. Product `M*v`: for every matrix given as four rows and every vector,
`mat4x4_mul_sse1`, `mat4x4_mul_sse3` and `mat4x4_mul_sse41`, and `mat4x4_mul_sse` under
every choice of the build flags, return the same register, whose lane `i` is the dot
product of `matrix[i]` with the vector (exact arithmetic). -/
theorem mat4x4_mul_sse_product (matrix : Nat → __m128) (vector : __m128) :
    mat4x4_mul_sse1 matrix vector =
      ⟨dot4 (matrix 0) vector, dot4 (matrix 1) vector, dot4 (matrix 2) vector,
        dot4 (matrix 3) vector⟩ ∧
    mat4x4_mul_sse3 matrix vector = mat4x4_mul_sse1 matrix vector ∧
    mat4x4_mul_sse41 matrix vector = mat4x4_mul_sse1 matrix vector ∧
    (∀ MATH_SSE41 MATH_SSE3 : Bool,
      mat4x4_mul_sse MATH_SSE41 MATH_SSE3 matrix vector = mat4x4_mul_sse1 matrix vector) ∧
    (∀ i, i < 4 → (mat4x4_mul_sse1 matrix vector).lane i = dot4 (matrix i) vector) := by
  have h1 : mat4x4_mul_sse1 matrix vector =
      ⟨dot4 (matrix 0) vector, dot4 (matrix 1) vector, dot4 (matrix 2) vector,
        dot4 (matrix 3) vector⟩ := by
    simp only [mat4x4_mul_sse1, _MM_TRANSPOSE4_PS, _mm_mul_ps, _mm_add_ps, _mm_unpacklo_ps,
      _mm_unpackhi_ps, _mm_movelh_ps, _mm_movehl_ps, dot4, __m128.mk.injEq]
    refine ⟨?_, ?_, ?_, ?_⟩ <;> ring
  have h3 : mat4x4_mul_sse3 matrix vector = mat4x4_mul_sse1 matrix vector := by
    rw [h1]
    simp only [mat4x4_mul_sse3, _mm_mul_ps, _mm_hadd_ps, dot4, __m128.mk.injEq]
    refine ⟨?_, ?_, ?_, ?_⟩ <;> ring
  have h41 : mat4x4_mul_sse41 matrix vector = mat4x4_mul_sse1 matrix vector := by
    rw [h1]
    have b4 : Nat.testBit 255 4 = true := by decide
    have b5 : Nat.testBit 255 5 = true := by decide
    have b6 : Nat.testBit 255 6 = true := by decide
    have b7 : Nat.testBit 255 7 = true := by decide
    have b0 : Nat.testBit 255 0 = true := by decide
    have b1 : Nat.testBit 255 1 = true := by decide
    have b2 : Nat.testBit 255 2 = true := by decide
    have b3 : Nat.testBit 255 3 = true := by decide
    have s0 : _MM_SHUFFLE 2 0 2 0 % 4 = 0 := by decide
    have s1 : _MM_SHUFFLE 2 0 2 0 / 4 % 4 = 2 := by decide
    have s2 : _MM_SHUFFLE 2 0 2 0 / 16 % 4 = 0 := by decide
    have s3 : _MM_SHUFFLE 2 0 2 0 / 64 % 4 = 2 := by decide
    simp only [mat4x4_mul_sse41, _mm_dp_ps, _mm_movelh_ps, _mm_shuffle_ps, b0, b1, b2, b3, b4,
      b5, b6, b7, s0, s1, s2, s3, if_true, __m128.lane, dot4, __m128.mk.injEq]
    refine ⟨?_, ?_, ?_, ?_⟩ <;> ring
  refine ⟨h1, h3, h41, ?_, ?_⟩
  · intro f41 f3
    cases f41 <;> cases f3 <;> simp [mat4x4_mul_sse, h3, h41]
  · intro i hi
    rw [h1]
    have : i = 0 ∨ i = 1 ∨ i = 2 ∨ i = 3 := by omega
    rcases this with rfl | rfl | rfl | rfl <;> rfl

namespace float2

/-! ### The claims on `MinAreaRectInPlace` -/

/-- C14, evaluated on the code: for the square with its centre
`(0,0), (1,0), (1,1), (0,1), (0.5,0.5)` no caliper rectangle is smaller than the initial
axis-aligned guess of area 1, so `vDir` and the four extents are never written.  With
the outputs holding `vDir = (3,7)` and the extents `5, 6, 5, 6` before the call, they hold
the same values after it, `uDir` is `(-7,3)`, and the input point `(1,1)` is not inside the
reported rectangle. -/
theorem MinAreaRectInPlace_validity_stale_outputs :
    MinAreaRectInPlace (1 / 1000)
        (some [⟨0, 0⟩, ⟨1, 0⟩, ⟨1, 1⟩, ⟨0, 1⟩, ⟨1 / 2, 1 / 2⟩]) 5
        ⟨⟨7, 7⟩, ⟨7, 7⟩, ⟨3, 7⟩, 5, 6, 5, 6⟩ =
      some (some [⟨0, 0⟩, ⟨1, 0⟩, ⟨1, 1⟩, ⟨0, 1⟩, ⟨0, 1⟩],
        ⟨⟨-22, 55⟩, ⟨-7, 3⟩, ⟨3, 7⟩, 5, 6, 5, 6⟩, 1) ∧
    ¬ InsideRect ⟨⟨-22, 55⟩, ⟨-7, 3⟩, ⟨3, 7⟩, 5, 6, 5, 6⟩ ⟨1, 1⟩ := by
  decide!

/-- C16, evaluated on the code: for the square with its centre the returned area is 1,
while the extents are the values the outputs held before the call; with `minU = 2`,
`maxU = 1`, `minV = 0`, `maxV = 5` before the call the product of the reported extents
is `-5` and `minU ≤ maxU` fails. -/
theorem MinAreaRectInPlace_area_stale_outputs :
    MinAreaRectInPlace (1 / 1000)
        (some [⟨0, 0⟩, ⟨1, 0⟩, ⟨1, 1⟩, ⟨0, 1⟩, ⟨1 / 2, 1 / 2⟩]) 5
        ⟨⟨0, 0⟩, ⟨0, 0⟩, ⟨0, -1⟩, 2, 1, 0, 5⟩ =
      some (some [⟨0, 0⟩, ⟨1, 0⟩, ⟨1, 1⟩, ⟨0, 1⟩, ⟨0, 1⟩],
        ⟨⟨3 / 2, -5 / 2⟩, ⟨1, 0⟩, ⟨0, -1⟩, 2, 1, 0, 5⟩, 1) ∧
    ((1 : ℚ) - 2) * (5 - 0) ≠ 1 ∧ ¬ ((2 : ℚ) ≤ 1) := by
  decide!

/-- C17, evaluated on the code: for the square with its centre the returned area is 1,
and the reported `vDir` is the value the output held before the call: `(3,7)` stays
`(3,7)`, which is not an axis-aligned unit direction and not the initial direction
`(0,-1)` of the calipers; `uDir` is that value rotated, `(-7,3)`. -/
theorem MinAreaRectInPlace_direction_stale_outputs :
    MinAreaRectInPlace (1 / 1000)
        (some [⟨0, 0⟩, ⟨1, 0⟩, ⟨1, 1⟩, ⟨0, 1⟩, ⟨1 / 2, 1 / 2⟩]) 5
        ⟨⟨0, 0⟩, ⟨1, 0⟩, ⟨3, 7⟩, 0, 1, 0, 1⟩ =
      some (some [⟨0, 0⟩, ⟨1, 0⟩, ⟨1, 1⟩, ⟨0, 1⟩, ⟨0, 1⟩],
        ⟨⟨-2, 5⟩, ⟨-7, 3⟩, ⟨3, 7⟩, 0, 1, 0, 1⟩, 1) ∧
    MinAreaRectInPlace (1 / 1000)
        (some [⟨0, 0⟩, ⟨1, 0⟩, ⟨1, 1⟩, ⟨0, 1⟩, ⟨1 / 2, 1 / 2⟩]) 5
        ⟨⟨0, 0⟩, ⟨1, 0⟩, ⟨1, 0⟩, 0, 1, 0, 1⟩ =
      some (some [⟨0, 0⟩, ⟨1, 0⟩, ⟨1, 1⟩, ⟨0, 1⟩, ⟨0, 1⟩],
        ⟨⟨1 / 2, 1 / 2⟩, ⟨0, 1⟩, ⟨1, 0⟩, 0, 1, 0, 1⟩, 1) ∧
    (⟨3, 7⟩ : float2) ≠ unitY.neg := by
  decide!

/-- C19, evaluated on the code: a null buffer returns area 0 and leaves the outputs as
they are; an empty input (`n = 0` with a buffer that is not null) passes the only guard,
`if (!p)`, and the code reads `p[0]`, an index outside `[0, 0)`: the model returns
`none`, for every buffer, library routine and value of the outputs. -/
theorem MinAreaRectInPlace_empty_reads_buffer (Sqrt : ℚ → ℚ)
    (sort : (float2 → float2 → Bool) → List float2 → List float2) (eqEps : ℚ)
    (p : List float2) (out : RectOut) :
    MinAreaRectInPlaceWith Sqrt sort eqEps none 0 out = some (none, out, 0) ∧
    MinAreaRectInPlaceWith Sqrt sort eqEps (some p) 0 out = none ∧
    deref p 0 0 = none := by
  have hd : ∀ k : Nat, deref p 0 k = none := fun k => by
    unfold deref
    rw [if_neg (by omega)]
  have hh : ConvexHullInPlaceWith sort eqEps p 0 = (p, 0) := by
    unfold ConvexHullInPlaceWith
    rw [if_pos (by omega)]
  refine ⟨rfl, ?_, hd 0⟩
  simp only [MinAreaRectInPlaceWith, hh, rotatingCalipers, hd, Option.none_bind]

end float2

namespace float2

/-- C15, evaluated on the code: for the five points `(0,0), (4,0), (0,3), (0,1), (0,2)` the
hull builder keeps the collinear points `(0,1)` and `(0,2)` after `(0,3)` (count 5), and
`MinAreaRectInPlace` returns the area 8 with `vDir = (3/5, 4/5)`.  Every rectangle that
encloses the points, whatever its direction, has area 12 or more, and the hull point
`(0,0)` is not inside the reported rectangle. -/
theorem MinAreaRectInPlace_not_minimal :
    MinAreaRectInPlace (1 / 1000) (some [⟨0, 0⟩, ⟨4, 0⟩, ⟨0, 3⟩, ⟨0, 1⟩, ⟨0, 2⟩]) 5
        ⟨⟨0, 0⟩, ⟨0, 0⟩, ⟨0, 0⟩, 0, 0, 0, 0⟩ =
      some (some [⟨0, 0⟩, ⟨4, 0⟩, ⟨0, 3⟩, ⟨0, 1⟩, ⟨0, 2⟩],
        ⟨⟨38 / 25, 43 / 50⟩, ⟨-4 / 5, 3 / 5⟩, ⟨3 / 5, 4 / 5⟩, -16 / 5, 9 / 5, 4 / 5, 12 / 5⟩, 8) ∧
    (ConvexHullInPlace (1 / 1000) [⟨0, 0⟩, ⟨4, 0⟩, ⟨0, 3⟩, ⟨0, 1⟩, ⟨0, 2⟩] 5).2 = 5 ∧
    (∀ w : float2, w ≠ ⟨0, 0⟩ →
      12 ≤ rectArea w [⟨0, 0⟩, ⟨4, 0⟩, ⟨0, 3⟩, ⟨0, 1⟩, ⟨0, 2⟩]) ∧
    ¬ InsideRect
      ⟨⟨38 / 25, 43 / 50⟩, ⟨-4 / 5, 3 / 5⟩, ⟨3 / 5, 4 / 5⟩, -16 / 5, 9 / 5, 4 / 5, 12 / 5⟩
      ⟨0, 0⟩ := by
  refine ⟨by decide!, by decide!, ?_, by decide!⟩
  intro w hw
  exact rectArea_triangle w hw _ (by decide) (by decide) (by decide)

/-- Witness for the evaluation of C15: the rectangle along `(1,0)` that encloses the five
points has area 12. -/
theorem MinAreaRectInPlace_not_minimal_witness :
    (⟨1, 0⟩ : float2) ≠ ⟨0, 0⟩ ∧
    rectArea ⟨1, 0⟩ [⟨0, 0⟩, ⟨4, 0⟩, ⟨0, 3⟩, ⟨0, 1⟩, ⟨0, 2⟩] = 12 ∧
    12 ≤ rectArea ⟨1, 0⟩ [⟨0, 0⟩, ⟨4, 0⟩, ⟨0, 3⟩, ⟨0, 1⟩, ⟨0, 2⟩] :=
  ⟨by decide, by decide!, MinAreaRectInPlace_not_minimal.2.2.1 ⟨1, 0⟩ (by decide)⟩

end float2

namespace float2

/-! ### The claims on the component helpers and on degenerate hulls -/

/-- C25. The helpers `Min(float)`, `Min(const float2 &)`, `Max(float)` and
`Max(const float2 &)` compute both output components from the x input component only:
both components of the result are the minimum (the maximum) of `v.x` and the scalar
argument, or the x component of the vector argument, so the result depends neither on
`v.y` nor on the y component of the argument. -/
theorem Min_Max_use_x_only (v : float2) (s : ℚ) (w : float2) :
    (v.Min_float s).x = min v.x s ∧ (v.Min_float s).y = min v.x s ∧
    (v.Min_float2 w).x = min v.x w.x ∧ (v.Min_float2 w).y = min v.x w.x ∧
    (v.Max_float s).x = max v.x s ∧ (v.Max_float s).y = max v.x s ∧
    (v.Max_float2 w).x = max v.x w.x ∧ (v.Max_float2 w).y = max v.x w.x ∧
    (∀ y1 y2 : ℚ,
      Min_float ⟨v.x, y1⟩ s = v.Min_float s ∧
      Min_float2 ⟨v.x, y1⟩ ⟨w.x, y2⟩ = v.Min_float2 w ∧
      Max_float ⟨v.x, y1⟩ s = v.Max_float s ∧
      Max_float2 ⟨v.x, y1⟩ ⟨w.x, y2⟩ = v.Max_float2 w) ∧
    Min_float2 ⟨1, 5⟩ ⟨3, 2⟩ = ⟨1, 1⟩ ∧ Max_float2 ⟨1, 5⟩ ⟨3, 9⟩ = ⟨3, 3⟩ :=
  ⟨rfl, rfl, rfl, rfl, rfl, rfl, rfl, rfl, fun _ _ => ⟨rfl, rfl, rfl, rfl⟩, by decide!,
    by decide!⟩

/-- C29 fails in the code: `Orthogonalize` divides the projection by `a.Length()` where
the squared length is needed.  For `a = (2,0)`, `b = (1,1)` the new `b` is `(-1,1)` and
`Dot(a, b) = -2`; in general the new dot product is
`Dot(a, b) - Dot(a, b) / Length(a) * LengthSq(a)`.  The sibling `Orthonormalize` leaves
`(1,0)` and `(0,1)` on the same input, and `ProjectTo` divides by `LengthSq`. -/
theorem Orthogonalize_divides_by_length :
    Orthogonalize ratSqrt ⟨2, 0⟩ ⟨1, 1⟩ = (⟨2, 0⟩, ⟨-1, 1⟩) ∧
    Dot ⟨2, 0⟩ (Orthogonalize ratSqrt ⟨2, 0⟩ ⟨1, 1⟩).2 = -2 ∧
    Dot ⟨2, 0⟩ (Orthogonalize ratSqrt ⟨2, 0⟩ ⟨1, 1⟩).2 ≠ 0 ∧
    (∀ (Sqrt : ℚ → ℚ) (a b : float2),
      (Orthogonalize Sqrt a b).1 = a ∧
      a.Dot (Orthogonalize Sqrt a b).2 =
        a.Dot b - a.Dot b / a.Length Sqrt * a.LengthSq) ∧
    Orthonormalize ratSqrt ⟨2, 0⟩ ⟨1, 1⟩ = (⟨1, 0⟩, ⟨0, 1⟩) ∧
    Dot ⟨2, 0⟩ (⟨1, 1⟩ - ProjectTo ⟨1, 1⟩ ⟨2, 0⟩) = 0 := by
  refine ⟨by decide!, by decide!, by decide!, fun Sqrt a b => ⟨rfl, ?_⟩, by decide!, by decide!⟩
  show a.Dot (sub b (smul (a.Dot b / a.Length Sqrt) a)) = _
  simp only [Dot, sub, smul, LengthSq]
  ring

end float2

namespace float2

/-! ### The claim on the polar-angle comparator -/

end float2

namespace float2

/-! ### The claims on the pivot and on the pruning step -/

/-- C22. Pruning partition: for every input of `n ≥ 50` points `ConvexHullInPlace` goes on
with the buffer and the live count `n'` that the Akl-Toussaint step leaves.  The step
permutes the first `n` entries and touches no other entry, `n' ≤ n`, every entry from
`n'` to `n` passes the strict test against all four inward normals and offsets, every
entry below `n'` fails it, the four indices found are those of points with the smallest
and the largest x and y, and these four points are in the live prefix. -/
theorem ConvexHullInPlace_pruning_partition
    (sort : (float2 → float2 → Bool) → List float2 → List float2) (eqEps : ℚ)
    (p : List float2) (n : Nat) (h50 : 50 ≤ n) (hn : n ≤ p.length) :
    ConvexHullInPlaceWith sort eqEps p (n : Int) =
      ((hullCore sort eqEps (aklToussaint p n).1 (aklToussaint p n).2).1,
        (((hullCore sort eqEps (aklToussaint p n).1 (aklToussaint p n).2).2 : Nat) : Int)) ∧
    ((aklToussaint p n).1.take n).Perm (p.take n) ∧
    (aklToussaint p n).1.drop n = p.drop n ∧
    (aklToussaint p n).2 ≤ n ∧
    (∀ j, (aklToussaint p n).2 ≤ j → j < n →
      pruneTest (pruneFrame p (findExtremes p n)) ((aklToussaint p n).1.getD j default) = true) ∧
    (∀ j, j < (aklToussaint p n).2 →
      pruneTest (pruneFrame p (findExtremes p n)) ((aklToussaint p n).1.getD j default) = false) ∧
    (∀ j, j < n →
      (p.getD (findExtremes p n).minX default).x ≤ (p.getD j default).x ∧
      (p.getD j default).x ≤ (p.getD (findExtremes p n).maxX default).x ∧
      (p.getD (findExtremes p n).minY default).y ≤ (p.getD j default).y ∧
      (p.getD j default).y ≤ (p.getD (findExtremes p n).maxY default).y) ∧
    p.getD (findExtremes p n).minX default ∈ (aklToussaint p n).1.take (aklToussaint p n).2 ∧
    p.getD (findExtremes p n).maxX default ∈ (aklToussaint p n).1.take (aklToussaint p n).2 ∧
    p.getD (findExtremes p n).minY default ∈ (aklToussaint p n).1.take (aklToussaint p n).2 ∧
    p.getD (findExtremes p n).maxY default ∈ (aklToussaint p n).1.take (aklToussaint p n).2 := by
  have hb := findExtremes_bound p n
  have hmaxn : max n 1 = n := by omega
  rw [hmaxn] at hb
  have hpart := pruneLoop_partition (pruneFrame p (findExtremes p n)) n p 0 (by omega)
  have hkeep := aklToussaint_keeps p n hn
  refine ⟨?_, (aklToussaint_perm p n hn).1, (aklToussaint_perm p n hn).2,
    aklToussaint_count p n, fun j h1 h2 => hpart.2 j h1 (by omega),
    fun j h1 => hpart.1 j (Nat.zero_le j) h1, fun j hj => findExtremes_spec p n j hj,
    hkeep _ (mem_take_of_getD p _ n hb.1 (by omega)) (pruneTest_minX p _),
    hkeep _ (mem_take_of_getD p _ n hb.2.2.1 (by omega)) (pruneTest_maxX p _),
    hkeep _ (mem_take_of_getD p _ n hb.2.1 (by omega)) (pruneTest_minY p _),
    hkeep _ (mem_take_of_getD p _ n hb.2.2.2 (by omega)) (pruneTest_maxY p _)⟩
  rw [ConvexHullInPlaceWith_large sort eqEps p n (by omega),
    if_pos (show (n : Int) ≥ 50 by omega)]
  simp only [Int.toNat_ofNat]

/-- Witness for C22 on `pruningInput`, 50 points of which 45 are pruned: the live count
is 5. -/
theorem ConvexHullInPlace_pruning_partition_witness :
    (50 ≤ 50 ∧ 50 ≤ pruningInput.length) ∧
    ((aklToussaint pruningInput 50).1.take 50).Perm (pruningInput.take 50) ∧
    (aklToussaint pruningInput 50).2 = 5 :=
  ⟨⟨by decide, by decide⟩,
    (ConvexHullInPlace_pruning_partition stdSort (1 / 1000) pruningInput 50 (by decide)
      (by decide)).2.1,
    by decide!⟩

end float2

namespace float2

/-! ### The claims on the loop of the calipers -/

/-- C24. Caliper stepping: on a hull of `cnt ≥ 1` points the four support indices start
inside `[0, cnt)`; the loop of `MinAreaRectInPlace` is the loop of exactly `cnt`
iterations from that state; each iteration from a state with the indices in `[0, cnt)`
advances exactly one support index, from `i` to `(i + 1) mod cnt`, namely that of the
lowest-numbered caliper (order 0, 1, 2, 3) whose cosine equals the maximum of the four,
and leaves the other three and all four within `[0, cnt)`; the trace of the `cnt`
iterations has `cnt + 1` states, all with the indices in `[0, cnt)`. -/
theorem MinAreaRectInPlace_caliper_stepping (Sqrt : ℚ → ℚ) (p : List float2) (cnt : Nat)
    (h1 : 1 ≤ cnt) (hl : cnt ≤ p.length) :
    InHull cnt (findExtremes p cnt) ∧
    (∀ out : RectOut, ∃ s0 : Calipers, s0.e = findExtremes p cnt ∧ s0.out = out ∧
      rotatingCalipers Sqrt p (cnt : Int) out =
        (caliperLoop Sqrt p (cnt : Int) cnt s0).bind fun s =>
          some ({ s.out with
              uDir := s.out.vDir.Rotated90CCW
              center := smul (1 / 2)
                ((s.out.vDir.Rotated90CCW.mul (s.out.minU + s.out.maxU)).add
                  (s.out.vDir.mul (s.out.minV + s.out.maxV))) }, s.minArea)) ∧
    (∀ s : Calipers, InHull cnt s.e →
      ∃ s' k, k < 4 ∧ caliperStep Sqrt p (cnt : Int) s = some s' ∧
        cosA s k = maxCos s ∧ (∀ m, m < k → cosA s m < maxCos s) ∧
        support s'.e k = (support s.e k + 1) % cnt ∧
        (∀ m, m < 4 → m ≠ k → support s'.e m = support s.e m) ∧
        InHull cnt s'.e) ∧
    (∀ s : Calipers, InHull cnt s.e →
      (caliperTrace Sqrt p (cnt : Int) cnt s).length = cnt + 1 ∧
      (caliperTrace Sqrt p (cnt : Int) cnt s)[0]? = some s ∧
      (∀ t ∈ caliperTrace Sqrt p (cnt : Int) cnt s, InHull cnt t.e) ∧
      (∀ i, i < cnt → ∃ t t', (caliperTrace Sqrt p (cnt : Int) cnt s)[i]? = some t ∧
        (caliperTrace Sqrt p (cnt : Int) cnt s)[i + 1]? = some t' ∧
        caliperStep Sqrt p (cnt : Int) t = some t') ∧
      caliperLoop Sqrt p (cnt : Int) cnt s = (caliperTrace Sqrt p (cnt : Int) cnt s)[cnt]?) := by
  refine ⟨?_, fun out => ?_, fun s he => ?_, fun s he => caliperTrace_spec Sqrt p cnt hl cnt s he⟩
  · have hb := findExtremes_bound p cnt
    have hmax : max cnt 1 = cnt := by omega
    rw [hmax] at hb
    exact hb
  · obtain ⟨s0, h0, -, -, ho, -, heq⟩ := rotatingCalipers_eq Sqrt p cnt h1 hl out
    exact ⟨s0, h0, ho, heq⟩
  · obtain ⟨s', k, hk, hs, hcos, hlow, hsup, hoth, hin, -⟩ := caliperStep_spec Sqrt p cnt s he hl
    exact ⟨s', k, hk, hs, hcos, hlow, hsup, hoth, hin⟩

/-- Witness for C24 on the triangle `(0,0), (4,0), (0,3)`: the support indices start at
`0, 0, 1, 2` (least x, least y, largest x, largest y). -/
theorem MinAreaRectInPlace_caliper_stepping_witness :
    (1 ≤ 3 ∧ 3 ≤ ([⟨0, 0⟩, ⟨4, 0⟩, ⟨0, 3⟩] : List float2).length) ∧
    InHull 3 (findExtremes [⟨0, 0⟩, ⟨4, 0⟩, ⟨0, 3⟩] 3) ∧
    findExtremes [⟨0, 0⟩, ⟨4, 0⟩, ⟨0, 3⟩] 3 = ⟨0, 0, 1, 2⟩ :=
  ⟨⟨by decide, by decide⟩,
    (MinAreaRectInPlace_caliper_stepping ratSqrt [⟨0, 0⟩, ⟨4, 0⟩, ⟨0, 3⟩] 3 (by decide)
      (by decide)).1,
    by decide!⟩

/-- C27. Outputs are written only on strict improvement.  For a buffer of `n ≥ 1` points
`MinAreaRectInPlace` returns; the returned area is at most the area of the axis-aligned
bounding box of the hull, the starting value of the best area; when it is equal to it
(no iteration measured a strictly smaller area) the outputs `vDir`, `minU`, `maxU`,
`minV`, `maxV` hold the values they held before the call, and otherwise the area is the
product of the returned extents; `uDir` and `center` are always computed from the other
five.  In an iteration from a state with the supports inside the hull, either the best
area goes strictly down and `vDir` is the current direction, or the best area and all
outputs stay as they are. -/
theorem MinAreaRectInPlace_outputs_frame (Sqrt : ℚ → ℚ)
    (sort : (float2 → float2 → Bool) → List float2 → List float2) (hs : SortSpec sort)
    (eqEps : ℚ) (p : List float2) (n : Nat) (h1 : 1 ≤ n) (hn : n ≤ p.length)
    (out : RectOut) :
    (∃ o area, MinAreaRectInPlaceWith Sqrt sort eqEps (some p) (n : Int) out =
        some (some (ConvexHullInPlaceWith sort eqEps p (n : Int)).1, o, area) ∧
      area ≤ aabbArea (ConvexHullInPlaceWith sort eqEps p (n : Int)).1
        (findExtremes (ConvexHullInPlaceWith sort eqEps p (n : Int)).1
          (ConvexHullInPlaceWith sort eqEps p (n : Int)).2.toNat) ∧
      (area = aabbArea (ConvexHullInPlaceWith sort eqEps p (n : Int)).1
          (findExtremes (ConvexHullInPlaceWith sort eqEps p (n : Int)).1
            (ConvexHullInPlaceWith sort eqEps p (n : Int)).2.toNat) →
        o.vDir = out.vDir ∧ o.minU = out.minU ∧ o.maxU = out.maxU ∧ o.minV = out.minV ∧
          o.maxV = out.maxV) ∧
      (area < aabbArea (ConvexHullInPlaceWith sort eqEps p (n : Int)).1
          (findExtremes (ConvexHullInPlaceWith sort eqEps p (n : Int)).1
            (ConvexHullInPlaceWith sort eqEps p (n : Int)).2.toNat) →
        area = (o.maxU - o.minU) * (o.maxV - o.minV)) ∧
      o.uDir = o.vDir.Rotated90CCW ∧
      o.center = smul (1 / 2)
        ((o.uDir.mul (o.minU + o.maxU)).add (o.vDir.mul (o.minV + o.maxV)))) ∧
    (∀ s : Calipers,
      InHull (ConvexHullInPlaceWith sort eqEps p (n : Int)).2.toNat s.e →
      ∃ s', caliperStep Sqrt (ConvexHullInPlaceWith sort eqEps p (n : Int)).1
          (ConvexHullInPlaceWith sort eqEps p (n : Int)).2 s = some s' ∧
        ((s'.minArea < s.minArea ∧ s'.out.vDir = s'.ed ∧
            s'.minArea = (s'.out.maxU - s'.out.minU) * (s'.out.maxV - s'.out.minV) ∧
            s'.out.uDir = s.out.uDir ∧ s'.out.center = s.out.center) ∨
          (s'.minArea = s.minArea ∧ s'.out = s.out))) := by
  obtain ⟨cnt, hcnt, hc1, hcl⟩ := ConvexHullInPlaceWith_bounds sort hs.1 eqEps p n h1 hn
  unfold MinAreaRectInPlaceWith
  simp only []
  generalize ConvexHullInPlaceWith sort eqEps p (n : Int) = r at hcnt hcl ⊢
  rw [hcnt, Int.toNat_ofNat]
  constructor
  · obtain ⟨o, area, heq, hrest⟩ := rotatingCalipers_frame Sqrt r.1 cnt hc1 hcl out
    refine ⟨o, area, ?_, hrest⟩
    rw [heq, Option.some_bind]
  · intro s he
    obtain ⟨s', -, -, hs', -, -, -, -, -, hcase⟩ := caliperStep_spec Sqrt r.1 cnt s he hcl
    exact ⟨s', hs', hcase⟩

/-- Witness for C27 on the unit square with its centre: the axis-aligned box is the
smallest rectangle, no iteration improves on it, and the five outputs keep the values
`(3,7)`, `5`, `6`, `5`, `6` that they held before the call. -/
theorem MinAreaRectInPlace_outputs_frame_witness :
    (1 ≤ 5 ∧ 5 ≤ ([⟨0, 0⟩, ⟨1, 0⟩, ⟨1, 1⟩, ⟨0, 1⟩, ⟨1 / 2, 1 / 2⟩] : List float2).length) ∧
    (∃ o area, MinAreaRectInPlaceWith ratSqrt stdSort (1 / 1000)
        (some [⟨0, 0⟩, ⟨1, 0⟩, ⟨1, 1⟩, ⟨0, 1⟩, ⟨1 / 2, 1 / 2⟩]) ((5 : Nat) : Int)
        ⟨⟨7, 7⟩, ⟨7, 7⟩, ⟨3, 7⟩, 5, 6, 5, 6⟩ =
        some (some (ConvexHullInPlaceWith stdSort (1 / 1000)
          [⟨0, 0⟩, ⟨1, 0⟩, ⟨1, 1⟩, ⟨0, 1⟩, ⟨1 / 2, 1 / 2⟩] ((5 : Nat) : Int)).1, o, area) ∧
      o.uDir = o.vDir.Rotated90CCW) ∧
    (MinAreaRectInPlaceWith ratSqrt stdSort (1 / 1000)
        (some [⟨0, 0⟩, ⟨1, 0⟩, ⟨1, 1⟩, ⟨0, 1⟩, ⟨1 / 2, 1 / 2⟩]) ((5 : Nat) : Int)
        ⟨⟨7, 7⟩, ⟨7, 7⟩, ⟨3, 7⟩, 5, 6, 5, 6⟩).map (fun r => (r.2.1.vDir, r.2.1.minU,
          r.2.1.maxU, r.2.1.minV, r.2.1.maxV, r.2.2)) = some (⟨3, 7⟩, 5, 6, 5, 6, 1) :=
  ⟨⟨by decide, by decide⟩,
    (MinAreaRectInPlace_outputs_frame ratSqrt stdSort stdSort_spec (1 / 1000)
      [⟨0, 0⟩, ⟨1, 0⟩, ⟨1, 1⟩, ⟨0, 1⟩, ⟨1 / 2, 1 / 2⟩] 5 (by decide) (by decide)
      ⟨⟨7, 7⟩, ⟨7, 7⟩, ⟨3, 7⟩, 5, 6, 5, 6⟩).1.imp fun _ h => h.imp fun _ h2 =>
        ⟨h2.1, h2.2.2.2.2.1⟩,
    by decide!⟩

end float2

namespace float2

/-! ### The claim on totality and index safety -/

/-- C23. Totality and index safety of the hull builder: for every buffer of `n ≥ 0`
points, every library sort that permutes its range and every fuel above `n`, the run of
`ConvexHullInPlace` with every read and store checked against `[0, n)` returns, and
returns the buffer and the count of the model; the pruning loop finishes within `k + 1`
evaluations of its condition when `n - i = k`, and a pop loop that starts at `h ≥ 1`
finishes within `h` evaluations with `0 ≤ h`, so that the store `p[++h]` of the scan
never goes to index 0 and the scan leaves the pivot `p[0]` in place. -/
theorem ConvexHullInPlace_total_index_safe
    (sort : (float2 → float2 → Bool) → List float2 → List float2)
    (hperm : ∀ pred l, (sort pred l).Perm l) (eqEps : ℚ) (p : List float2) (n : Nat)
    (hn : n ≤ p.length) (fuel : Nat) (hf : n + 1 ≤ fuel) :
    ConvexHullInPlaceChecked fuel sort eqEps p (n : Int) =
      some (ConvexHullInPlaceWith sort eqEps p (n : Int)) ∧
    (∀ (f : PruneFrame) (q : List float2) (i k : Nat), i + k ≤ n → n ≤ q.length →
      ∃ r, pruneLoopChecked f n (k + 1) q (i : Int) ((i + k : Nat) : Int) = some r ∧
        (i : Int) ≤ r.2 ∧ r.2 ≤ ((i + k : Nat) : Int)) ∧
    (∀ (q : List float2) (pi : float2) (h : Nat) (a d : float2) (dir : ℚ), 1 ≤ h → h < n →
      n ≤ q.length →
      ∃ r, popLoopChecked q n pi h (h : Int) a d dir = some r ∧ 0 ≤ r.1 ∧ r.1 ≤ (h : Int)) ∧
    (∀ (q : List float2) (m : Nat), (grahamScan q m).1.getD 0 default = q.getD 0 default) := by
  refine ⟨ConvexHullInPlaceChecked_eq sort hperm eqEps p n hn fuel hf, ?_, ?_,
    fun q m => grahamScan_zero q m⟩
  · intro f q i k hik hq
    refine ⟨_, pruneLoopChecked_eq f n k (k + 1) q i (le_refl _) hik hq, ?_, ?_⟩
    · show (i : Int) ≤ ((pruneLoop f k q i).2 : Int)
      exact_mod_cast (pruneLoop_count f k q i).1
    · show ((pruneLoop f k q i).2 : Int) ≤ ((i + k : Nat) : Int)
      exact_mod_cast (pruneLoop_count f k q i).2
  · intro q pi h a d dir h1 hlt hq
    refine ⟨_, popLoopChecked_eq q n pi hq h h a d dir h1 (le_refl _) hlt,
      Int.natCast_nonneg _, ?_⟩
    show ((popLoop q pi h a d dir).1 : Int) ≤ (h : Int)
    exact_mod_cast popLoop_le q pi h a d dir

/-- Witness for C23 on the unit square with its centre, with fuel 6; without fuel, or on
a buffer that holds fewer points than the count passed, the checked run gives `none`. -/
theorem ConvexHullInPlace_total_index_safe_witness :
    (5 ≤ ([⟨0, 0⟩, ⟨1, 0⟩, ⟨1, 1⟩, ⟨0, 1⟩, ⟨1 / 2, 1 / 2⟩] : List float2).length ∧
      5 + 1 ≤ 6) ∧
    ConvexHullInPlaceChecked 6 stdSort (1 / 1000)
        [⟨0, 0⟩, ⟨1, 0⟩, ⟨1, 1⟩, ⟨0, 1⟩, ⟨1 / 2, 1 / 2⟩] ((5 : Nat) : Int) =
      some (ConvexHullInPlaceWith stdSort (1 / 1000)
        [⟨0, 0⟩, ⟨1, 0⟩, ⟨1, 1⟩, ⟨0, 1⟩, ⟨1 / 2, 1 / 2⟩] ((5 : Nat) : Int)) ∧
    ConvexHullInPlaceChecked 6 stdSort (1 / 1000)
        [⟨0, 0⟩, ⟨1, 0⟩, ⟨1, 1⟩, ⟨0, 1⟩, ⟨1 / 2, 1 / 2⟩] 5 =
      some ([⟨0, 0⟩, ⟨1, 0⟩, ⟨1, 1⟩, ⟨0, 1⟩, ⟨0, 1⟩], 4) ∧
    ConvexHullInPlaceChecked 0 stdSort (1 / 1000)
        [⟨0, 0⟩, ⟨1, 0⟩, ⟨1, 1⟩, ⟨0, 1⟩, ⟨1 / 2, 1 / 2⟩] 5 = none ∧
    ConvexHullInPlaceChecked 6 stdSort (1 / 1000) [⟨0, 0⟩, ⟨1, 0⟩, ⟨1, 1⟩] 5 = none :=
  ⟨⟨by decide, by decide⟩,
    (ConvexHullInPlace_total_index_safe stdSort stdSort_perm (1 / 1000)
      [⟨0, 0⟩, ⟨1, 0⟩, ⟨1, 1⟩, ⟨0, 1⟩, ⟨1 / 2, 1 / 2⟩] 5 (by decide) 6 (by decide)).1,
    by decide!, by decide!, by decide!⟩

end float2
